import Mathlib

/-!
Verification of the `TreeSet` red-black tree in `treeset.go` (hashicorp/go-set).

The Go code is an imperative red-black tree with parent pointers.  We embed it
shallowly: a node becomes an inductive `Tree` (element, color, left, right);
the parent pointer, which the source uses only to walk upward during the
insertion/deletion fixups, becomes an explicit zipper context `Ctx` recording,
frame by frame, whether the current node is the left or the right child of its
parent together with the parent's element, color, and other subtree.  Each Go
function is translated clause by clause; comments cite the source function.
-/

namespace GoSet

/-- `type color bool`; `red color = false`, `black color = true` (treeset.go). -/
def red : Bool := false

/-- `black color = true` (treeset.go). -/
def black : Bool := true

/-- A `node[T]` of the source: element, color, left and right children.
The `parent` back-pointer is represented by the zipper `Ctx` below. -/
inductive Tree (α : Type) where
  | nil : Tree α
  | node (left : Tree α) (element : α) (color : Bool) (right : Tree α)
deriving Repr, DecidableEq

namespace Tree

/-- The color of a node; an absent child counts as black (invariant 3). -/
def colorOf : Tree α → Bool
  | nil => black
  | node _ _ c _ => c

/-- `func (n *node[T]) black() bool { return n == nil || n.color == black }` -/
def isBlack (t : Tree α) : Bool := t.colorOf == black

/-- `func (n *node[T]) red() bool { return n != nil && n.color == red }` -/
def isRed (t : Tree α) : Bool := !t.isBlack

/-- Field read `n.left` (used by the source only on non-nil nodes). -/
def leftOf : Tree α → Tree α
  | nil => nil
  | node l _ _ _ => l

/-- Field read `n.right` (used by the source only on non-nil nodes). -/
def rightOf : Tree α → Tree α
  | nil => nil
  | node _ _ _ r => r

/-- Assignment `n.color = c` (the source performs it on non-nil nodes only;
on `nil` we make it a no-op). -/
def paint (c : Bool) : Tree α → Tree α
  | nil => nil
  | node l e _ r => node l e c r

/-- In-order traversal, the element sequence of the tree (`infix` visiting
every node, as used by `Slice`/`ForEach` with an always-true visitor). -/
def inorder : Tree α → List α
  | nil => []
  | node l e _ r => inorder l ++ e :: inorder r

/-- Pre-order traversal, the visit order of `prefix` (treeset.go) as used by
`Union`/`Difference`/`Intersect`/`Copy`. -/
def preorder : Tree α → List α
  | nil => []
  | node l e _ r => e :: (preorder l ++ preorder r)

end Tree

open Tree in
/-- Zipper context: the chain of ancestors of a focused subtree.  A frame
records on which side the focus hangs, plus the parent's element, color and
other child.  This is the shallow embedding of the `parent` pointers. -/
inductive Ctx (α : Type) where
  | top : Ctx α
  | left (up : Ctx α) (e : α) (c : Bool) (r : Tree α) : Ctx α
  | right (l : Tree α) (e : α) (c : Bool) (up : Ctx α) : Ctx α
deriving Repr, DecidableEq

namespace Ctx

open Tree

/-- Rebuild the whole tree from a focused subtree and its context. -/
def plug : Ctx α → Tree α → Tree α
  | top, t => t
  | left up e c r, t => plug up (node t e c r)
  | right l e c up, t => plug up (node l e c t)

/-- Elements situated to the left of the hole, in order. -/
def leftList : Ctx α → List α
  | top => []
  | left up _ _ _ => leftList up
  | right l e _ up => leftList up ++ inorder l ++ [e]

/-- Elements situated to the right of the hole, in order. -/
def rightList : Ctx α → List α
  | top => []
  | left up e _ r => e :: inorder r ++ rightList up
  | right _ _ _ up => rightList up

/-- Color of the outermost ancestor node (the root of the rebuilt tree when
the context is non-trivial); `black` for the empty context. -/
def outerColor : Ctx α → Bool
  | top => black
  | left top _ c _ => c
  | right _ _ c top => c
  | left up@(left _ _ _ _) _ _ _ => outerColor up
  | left up@(right _ _ _ _) _ _ _ => outerColor up
  | right _ _ _ up@(left _ _ _ _) => outerColor up
  | right _ _ _ up@(right _ _ _ _) => outerColor up

end Ctx

open Tree Ctx

/-- `TreeSet[T,C]`: root and size.  The `comparison` field is passed to each
operation as an explicit `cmp` argument; the `marker` node exists only during
one deletion and is represented by a `nil` focus in `rebalanceDeletion`. -/
structure TreeSet (α : Type) where
  root : Tree α
  size : Int
deriving Repr, DecidableEq

/-- `func NewTreeSet[T any, C Compare[T]](compare C) *TreeSet[T, C]` -/
def NewTreeSet (α : Type) : TreeSet α := { root := Tree.nil, size := 0 }

/-- `func Cmp[B BuiltIn](x, y B) int` instantiated at integers. -/
def Cmp (x y : Int) : Int :=
  if x < y then -1 else if x > y then 1 else 0

/-- The comparator contract of `Compare[T]` when the comparator is a total
order: comparing equal means equality, the sign is antisymmetric, and the
strict order is transitive. -/
structure LawfulCmp (cmp : α → α → Int) : Prop where
  eq_iff : ∀ x y, cmp x y = 0 ↔ x = y
  lt_iff_gt : ∀ x y, cmp x y < 0 ↔ 0 < cmp y x
  lt_trans : ∀ x y z, cmp x y < 0 → cmp y z < 0 → cmp x z < 0

/-- `func (s *TreeSet[T, C]) locate(start *node[T], target T) *node[T]`
returning the element stored at the found node. -/
def locate (cmp : α → α → Int) : Tree α → α → Option α
  | Tree.nil, _ => none
  | Tree.node l e _ r, target =>
    let c := cmp e target
    if c < 0 then locate cmp r target
    else if c > 0 then locate cmp l target
    else some e

/-- `func (s *TreeSet[T, C]) Contains(item T) bool` -/
def Contains (cmp : α → α → Int) (s : TreeSet α) (item : α) : Bool :=
  (locate cmp s.root item).isSome

/-- `func (s *TreeSet[T, C]) Size() int` -/
def Size (s : TreeSet α) : Int := s.size

/-- `func (s *TreeSet[T, C]) Empty() bool` -/
def Empty (s : TreeSet α) : Bool := Size s == 0

/-- `func (s *TreeSet[T, C]) Slice() []T` (in-order `ForEach` with a visitor
that always returns true, hence the full in-order sequence). -/
def Slice (s : TreeSet α) : List α := inorder s.root

/-- `rebalanceInsertion` (treeset.go): the focus is the red node `n`, the
context embeds its ancestors.  Cases are numbered as in the source. -/
def rebalanceInsertion (n : Tree α) : Ctx α → Tree α
  -- case 1: no parent: we are the root, recolor black
  | Ctx.top => n.paint black
  | Ctx.left up pe pc pr =>
    if pc = black then
      -- parent black: nothing to do
      Ctx.plug up (Tree.node n pe pc pr)
    else
      match up with
      -- case 2: no grandparent: parent is the root, recolor it black
      | Ctx.top => Tree.node n pe black pr
      | Ctx.left gup ge _ gr =>
        -- parent is the left child of the grandparent; uncle = gr
        if gr.isRed then
          -- case 3: recolor parent/uncle black, grandparent red, recurse
          rebalanceInsertion
            (Tree.node (Tree.node n pe black pr) ge red (gr.paint black)) gup
        else
          -- case 5a (n is the left-left grandchild): rotateRight(grandparent),
          -- recolor parent black and grandparent red
          Ctx.plug gup (Tree.node n pe black (Tree.node pr ge red gr))
      | Ctx.right gl ge _ gup =>
        -- parent is the right child of the grandparent; uncle = gl
        if gl.isRed then
          rebalanceInsertion
            (Tree.node (gl.paint black) ge red (Tree.node n pe black pr)) gup
        else
          -- case 4b: n is the right-left grandchild: rotateLeft... source does
          -- rotateRight(parent) then rotateLeft(grandparent) and recolors
          match n with
          | Tree.nil =>
            -- unreachable: the focus is a freshly inserted (or recolored) node
            Ctx.plug gup (Tree.node gl ge black (Tree.node Tree.nil pe pc pr))
          | Tree.node nl ne nc nr =>
            Ctx.plug gup
              (Tree.node (Tree.node gl ge red nl) ne black (Tree.node nr pe pc pr))
  | Ctx.right pl pe pc up =>
    if pc = black then
      Ctx.plug up (Tree.node pl pe pc n)
    else
      match up with
      | Ctx.top => Tree.node pl pe black n
      | Ctx.right gl ge _ gup =>
        -- parent is the right child of the grandparent; uncle = gl
        if gl.isRed then
          rebalanceInsertion
            (Tree.node (gl.paint black) ge red (Tree.node pl pe black n)) gup
        else
          -- case 5b (right-right): rotateLeft(grandparent) and recolor
          Ctx.plug gup (Tree.node (Tree.node gl ge red pl) pe black n)
      | Ctx.left gup ge _ gr =>
        -- parent is the left child of the grandparent; uncle = gr
        if gr.isRed then
          rebalanceInsertion
            (Tree.node (Tree.node pl pe black n) ge red (gr.paint black)) gup
        else
          -- case 4a: n is the left-right grandchild: rotateLeft(parent) then
          -- rotateRight(grandparent) and recolor
          match n with
          | Tree.nil =>
            Ctx.plug gup (Tree.node (Tree.node pl pe pc Tree.nil) ge black gr)
          | Tree.node nl ne nc nr =>
            Ctx.plug gup
              (Tree.node (Tree.node pl pe pc nl) ne black (Tree.node nr ge red gr))

/-- Descent loop of `insert` (treeset.go): find the attachment point of the
new red node, building the ancestor context; `none` when an element comparing
equal already exists ("already exists in tree"). -/
def insertGo (cmp : α → α → Int) (x : α) : Tree α → Ctx α → Option (Tree α)
  | Tree.nil, ctx => some (rebalanceInsertion (Tree.node Tree.nil x red Tree.nil) ctx)
  | Tree.node l e c r, ctx =>
    let cv := cmp x e
    if cv < 0 then insertGo cmp x l (Ctx.left ctx e c r)
    else if cv > 0 then insertGo cmp x r (Ctx.right l e c ctx)
    else none

/-- `func (s *TreeSet[T, C]) insert(n *node[T]) bool` together with the public
`Insert`: returns the updated set and the "modified" boolean. -/
def Insert (cmp : α → α → Int) (s : TreeSet α) (x : α) : TreeSet α × Bool :=
  match insertGo cmp x s.root Ctx.top with
  | none => (s, false)
  | some t => ({ root := t, size := s.size + 1 }, true)

/-- `fixBlackSibling` (treeset.go), case where `n` is the left child of its
parent `(·, pe, pc)` and `sib` is the (black) right sibling having at least
one red child.  Returns the subtree that replaces the parent. -/
def fixBlackSibling_left (n : Tree α) (pe : α) (pc : Bool) (sib : Tree α) : Tree α :=
  match sib with
  | Tree.nil => Tree.node n pe pc Tree.nil  -- unreachable: sib has a red child
  | Tree.node sl se _ sr =>
    if sr.isBlack then
      -- sibling.left is red: recolor, rotateRight(sibling), then the common
      -- part: sibling takes the parent's color, parent turns black,
      -- sibling.right turns black, rotateLeft(parent)
      match sl with
      | Tree.nil => Tree.node n pe pc (Tree.node Tree.nil se black sr) -- unreachable
      | Tree.node a ae _ b =>
        Tree.node (Tree.node n pe black a) ae pc (Tree.node b se black sr)
    else
      Tree.node (Tree.node n pe black sl) se pc (sr.paint black)

/-- `fixBlackSibling` (treeset.go), mirrored: `n` is the right child, `sib`
the (black) left sibling with at least one red child. -/
def fixBlackSibling_right (n : Tree α) (pe : α) (pc : Bool) (sib : Tree α) : Tree α :=
  match sib with
  | Tree.nil => Tree.node Tree.nil pe pc n  -- unreachable
  | Tree.node sl se _ sr =>
    if sl.isBlack then
      -- sibling.right is red: recolor, rotateLeft(sibling), then the common
      -- part mirrored: rotateRight(parent)
      match sr with
      | Tree.nil => Tree.node (Tree.node sl se black Tree.nil) pe pc n -- unreachable
      | Tree.node c ce _ d =>
        Tree.node (Tree.node sl se black c) ce pc (Tree.node d pe black n)
    else
      Tree.node (sl.paint black) se pc (Tree.node sr pe black n)

/-- `rebalanceDeletion` (treeset.go).  The focus `n` replaces the spliced-out
black node; when that node was a black leaf the source splices in the `marker`
sentinel, which we represent as a `nil` focus (the marker carries no element,
is black, and is detached again before `delete` returns).  In the red-sibling
case the source rotates (`fixRedSibling`) and re-reads the sibling; since the
parent has just been recolored red, the subsequent recursive case is
impossible, so that continuation is inlined here. -/
def rebalanceDeletion (n : Tree α) : Ctx α → Tree α
  -- base case: node is root: recolor black
  | Ctx.top => n.paint black
  | Ctx.left up pe pc sib =>
    match sib with
    | Tree.node sl se sc sr =>
      if sc = red then
        -- fixRedSibling: sibling black, parent red, rotateLeft(parent);
        -- the new sibling of n is sl and the parent is now red
        match sl with
        | Tree.nil =>
          -- unreachable: the red sibling's children are real black nodes
          Ctx.plug up (Tree.node (Tree.node n pe red Tree.nil) se black sr)
        | Tree.node a _ _ b =>
          if a.isBlack && b.isBlack then
            -- black sibling with two black children, red parent: recolor
            Ctx.plug up (Tree.node (Tree.node n pe black (sl.paint red)) se black sr)
          else
            Ctx.plug up (Tree.node (fixBlackSibling_left n pe red sl) se black sr)
      else
        if sl.isBlack && sr.isBlack then
          if pc = red then
            -- red parent: recolor parent black, sibling red; terminal
            Ctx.plug up (Tree.node n pe black (sib.paint red))
          else
            -- black parent: recolor sibling red, recurse one level up
            rebalanceDeletion (Tree.node n pe pc (sib.paint red)) up
        else
          Ctx.plug up (fixBlackSibling_left n pe pc sib)
    | Tree.nil =>
      -- unreachable on valid trees (the source would dereference nil);
      -- fall back to rebuilding the parent unchanged
      if pc = red then Ctx.plug up (Tree.node n pe black Tree.nil)
      else rebalanceDeletion (Tree.node n pe pc Tree.nil) up
  | Ctx.right sib pe pc up =>
    match sib with
    | Tree.node sl se sc sr =>
      if sc = red then
        -- fixRedSibling mirrored: rotateRight(parent); new sibling is sr
        match sr with
        | Tree.nil =>
          Ctx.plug up (Tree.node sl se black (Tree.node Tree.nil pe red n))
        | Tree.node c _ _ d =>
          if c.isBlack && d.isBlack then
            Ctx.plug up (Tree.node sl se black (Tree.node (sr.paint red) pe black n))
          else
            Ctx.plug up (Tree.node sl se black (fixBlackSibling_right n pe red sr))
      else
        if sl.isBlack && sr.isBlack then
          if pc = red then
            Ctx.plug up (Tree.node (sib.paint red) pe black n)
          else
            rebalanceDeletion (Tree.node (sib.paint red) pe pc n) up
        else
          Ctx.plug up (fixBlackSibling_right n pe pc sib)
    | Tree.nil =>
      if pc = red then Ctx.plug up (Tree.node Tree.nil pe black n)
      else rebalanceDeletion (Tree.node Tree.nil pe pc n) up

/-- `delete01` applied to the in-order successor (`s.min(n.right)` followed by
`s.delete01(successor)` in `delete`): walk to the leftmost node of the right
subtree, splice it out (it has no left child), rebalancing when it was black. -/
def removeMin : Tree α → Ctx α → Tree α
  | Tree.nil, ctx => Ctx.plug ctx Tree.nil  -- unreachable: called on non-nil trees
  | Tree.node Tree.nil e c r, ctx =>
    -- this node is the successor: 0 or 1 (right) child
    match r with
    | Tree.nil =>
      if c = black then rebalanceDeletion Tree.nil ctx else Ctx.plug ctx Tree.nil
    | Tree.node _ _ _ _ =>
      if c = black then rebalanceDeletion r ctx else Ctx.plug ctx r
  | Tree.node (Tree.node ll le lc lr) e c r, ctx =>
    removeMin (Tree.node ll le lc lr) (Ctx.left ctx e c r)

/-- Leftmost element of a tree (`s.min`), with a default for the empty tree. -/
def minEltD (t : Tree α) (d : α) : α :=
  match t with
  | Tree.nil => d
  | Tree.node l e _ _ => minEltD l e

/-- Splice out the located node `(l, e, c, r)` sitting in context `ctx`
(`delete01` plus the two-children successor copy of `delete`). -/
def deleteAt (l : Tree α) (e : α) (c : Bool) (r : Tree α) (ctx : Ctx α) : Tree α :=
  match l, r with
  | Tree.nil, Tree.nil =>
    -- black leaf: splice in the marker (nil focus) and rebalance;
    -- red leaf: just remove it
    if c = black then rebalanceDeletion Tree.nil ctx else Ctx.plug ctx Tree.nil
  | Tree.node _ _ _ _, Tree.nil =>
    if c = black then rebalanceDeletion l ctx else Ctx.plug ctx l
  | Tree.nil, Tree.node _ _ _ _ =>
    if c = black then rebalanceDeletion r ctx else Ctx.plug ctx r
  | Tree.node _ _ _ _, Tree.node _ _ _ _ =>
    -- two children: copy the successor's element into this node, then delete
    -- the successor (the minimum of the right subtree)
    removeMin r (Ctx.right l (minEltD r e) c ctx)

/-- Locate-and-splice loop of `delete` (treeset.go): `none` when no element
compares equal to `x`. -/
def deleteGo (cmp : α → α → Int) (x : α) : Tree α → Ctx α → Option (Tree α)
  | Tree.nil, _ => none
  | Tree.node l e c r, ctx =>
    let cv := cmp e x
    if cv < 0 then deleteGo cmp x r (Ctx.right l e c ctx)
    else if cv > 0 then deleteGo cmp x l (Ctx.left ctx e c r)
    else some (deleteAt l e c r ctx)

/-- `func (s *TreeSet[T, C]) Remove(item T) bool` (via `delete`). -/
def Remove (cmp : α → α → Int) (s : TreeSet α) (x : α) : TreeSet α × Bool :=
  match deleteGo cmp x s.root Ctx.top with
  | none => (s, false)
  | some t => ({ root := t, size := s.size - 1 }, true)

/-- `func (s *TreeSet[T, C]) InsertSlice(items []T) bool` -/
def InsertSlice (cmp : α → α → Int) (s : TreeSet α) (items : List α) : TreeSet α × Bool :=
  items.foldl
    (fun acc item =>
      let step := Insert cmp acc.1 item
      (step.1, acc.2 || step.2))
    (s, false)

/-- `func TreeSetFrom[T any, C Compare[T]](items []T, compare C)` -/
def TreeSetFrom (cmp : α → α → Int) (items : List α) : TreeSet α :=
  (InsertSlice cmp (NewTreeSet α) items).1

/-- `func (s *TreeSet[T, C]) min(n *node[T]) *node[T]` unrolled one step: the
leftmost element, with a default for the empty tree. -/
def maxEltD (t : Tree α) (d : α) : α :=
  match t with
  | Tree.nil => d
  | Tree.node _ e _ r => maxEltD r e

/-- `func (s *TreeSet[T, C]) Min() T`.  The source panics
(`"min: tree is empty"`) on an empty set; we model the panic as `none`. -/
def Min (s : TreeSet α) : Option α :=
  match s.root with
  | Tree.nil => none
  | Tree.node l e _ _ => some (minEltD l e)

/-- `func (s *TreeSet[T, C]) Max() T`; panic (`"max: tree is empty"`) as `none`. -/
def Max (s : TreeSet α) : Option α :=
  match s.root with
  | Tree.nil => none
  | Tree.node _ e _ r => some (maxEltD r e)

/-- `fillLeft` (treeset.go): bounded in-order traversal; `cap` is the capacity
of the result slice (`make([]T, 0, n)`). -/
def fillLeft (t : Tree α) (cap : Nat) (k : List α) : List α :=
  match t with
  | Tree.nil => k
  | Tree.node l e _ r =>
    let k1 := if k.length < cap then fillLeft l cap k else k
    let k2 := if k1.length < cap then k1 ++ [e] else k1
    if k2.length < cap then fillLeft r cap k2 else k2

/-- `fillRight` (treeset.go): bounded reverse-in-order traversal. -/
def fillRight (t : Tree α) (cap : Nat) (k : List α) : List α :=
  match t with
  | Tree.nil => k
  | Tree.node l e _ r =>
    let k1 := if k.length < cap then fillRight r cap k else k
    let k2 := if k1.length < cap then k1 ++ [e] else k1
    if k2.length < cap then fillRight l cap k2 else k2

/-- `func (s *TreeSet[T, C]) TopK(n int) []T`.  `make([]T, 0, n)` panics for a
negative capacity; we model that runtime panic as `none`. -/
def TopK (s : TreeSet α) (n : Int) : Option (List α) :=
  if n < 0 then none
  else some (fillLeft s.root n.toNat [])

/-- `func (s *TreeSet[T, C]) BottomK(n int) []T`; negative capacity panics. -/
def BottomK (s : TreeSet α) (n : Int) : Option (List α) :=
  if n < 0 then none
  else some (fillRight s.root n.toNat [])

/-- Loop of `FirstBelow` (treeset.go): `c > 0` updates the candidate and goes
right, otherwise go left; `candidate.get()` at the end. -/
def firstBelowLoop (cmp : α → α → Int) (item : α) (candidate : Option α) :
    Tree α → Option α
  | Tree.nil => candidate
  | Tree.node l e _ r =>
    let c := cmp item e
    if c > 0 then firstBelowLoop cmp item (some e) r
    else firstBelowLoop cmp item candidate l

/-- `func (s *TreeSet[T, C]) FirstBelow(item T) (T, bool)` -/
def FirstBelow (cmp : α → α → Int) (s : TreeSet α) (item : α) : Option α :=
  firstBelowLoop cmp item none s.root

/-- Loop of `FirstBelowEqual` (treeset.go): exact match returns immediately. -/
def firstBelowEqualLoop (cmp : α → α → Int) (item : α) (candidate : Option α) :
    Tree α → Option α
  | Tree.nil => candidate
  | Tree.node l e _ r =>
    let c := cmp item e
    if c = 0 then some e
    else if c > 0 then firstBelowEqualLoop cmp item (some e) r
    else firstBelowEqualLoop cmp item candidate l

/-- `func (s *TreeSet[T, C]) FirstBelowEqual(item T) (T, bool)` -/
def FirstBelowEqual (cmp : α → α → Int) (s : TreeSet α) (item : α) : Option α :=
  firstBelowEqualLoop cmp item none s.root

/-- Loop of `FirstAbove` (treeset.go): `c < 0` updates the candidate and goes
left, otherwise go right. -/
def firstAboveLoop (cmp : α → α → Int) (item : α) (candidate : Option α) :
    Tree α → Option α
  | Tree.nil => candidate
  | Tree.node l e _ r =>
    let c := cmp item e
    if c < 0 then firstAboveLoop cmp item (some e) l
    else firstAboveLoop cmp item candidate r

/-- `func (s *TreeSet[T, C]) FirstAbove(item T) (T, bool)` -/
def FirstAbove (cmp : α → α → Int) (s : TreeSet α) (item : α) : Option α :=
  firstAboveLoop cmp item none s.root

/-- Loop of `FirstAboveEqual` (treeset.go). -/
def firstAboveEqualLoop (cmp : α → α → Int) (item : α) (candidate : Option α) :
    Tree α → Option α
  | Tree.nil => candidate
  | Tree.node l e _ r =>
    let c := cmp item e
    if c = 0 then some e
    else if c < 0 then firstAboveEqualLoop cmp item (some e) l
    else firstAboveEqualLoop cmp item candidate r

/-- `func (s *TreeSet[T, C]) FirstAboveEqual(item T) (T, bool)` -/
def FirstAboveEqual (cmp : α → α → Int) (s : TreeSet α) (item : α) : Option α :=
  firstAboveEqualLoop cmp item none s.root

/-- Fold a list of elements into a set by repeated `Insert` (the `prefix`
visitor `func(n *node[T]) { tree.Insert(n.element) }`). -/
def insertAll (cmp : α → α → Int) (t : TreeSet α) (xs : List α) : TreeSet α :=
  xs.foldl (fun acc x => (Insert cmp acc x).1) t

/-- `func (s *TreeSet[T, C]) Union(o *TreeSet[T, C]) *TreeSet[T, C]`:
insert every element of `s` then of `o` (pre-order) into a fresh tree. -/
def Union (cmp : α → α → Int) (s o : TreeSet α) : TreeSet α :=
  insertAll cmp (insertAll cmp (NewTreeSet α) (preorder s.root)) (preorder o.root)

/-- `func (s *TreeSet[T, C]) Difference(o *TreeSet[T, C]) *TreeSet[T, C]` -/
def Difference (cmp : α → α → Int) (s o : TreeSet α) : TreeSet α :=
  (preorder s.root).foldl
    (fun acc x => if Contains cmp o x then acc else (Insert cmp acc x).1)
    (NewTreeSet α)

/-- `func (s *TreeSet[T, C]) Intersect(o *TreeSet[T, C]) *TreeSet[T, C]` -/
def Intersect (cmp : α → α → Int) (s o : TreeSet α) : TreeSet α :=
  (preorder s.root).foldl
    (fun acc x => if Contains cmp o x then (Insert cmp acc x).1 else acc)
    (NewTreeSet α)

/-- `func (s *TreeSet[T, C]) Copy() *TreeSet[T, C]` -/
def Copy (cmp : α → α → Int) (s : TreeSet α) : TreeSet α :=
  insertAll cmp (NewTreeSet α) (preorder s.root)

/-- `iterate` (treeset.go) pushes the left spine of a subtree on the iterator
stack.  Modelled from the spec: the slice-backed LIFO `stack` itself (its
source file is not under src/; its behavior is fixed by its unit tests) is a
`List` with `push` = cons, `pop` = head, `empty` = `isEmpty`. -/
def pushLeftSpine : Tree α → List (Tree α) → List (Tree α)
  | Tree.nil, st => st
  | Tree.node l e c r, st => pushLeftSpine l (Tree.node l e c r :: st)

/-- `func (s *TreeSet[T, C]) iterate() func() *node[T]`: initial stack state. -/
def iterate (s : TreeSet α) : List (Tree α) := pushLeftSpine s.root []

/-- One pull of the iterator closure returned by `iterate`: pop a node,
push the left spine of its right subtree; the empty stack yields a nil node. -/
def iterNext : List (Tree α) → Option α × List (Tree α)
  | [] => (none, [])
  | Tree.nil :: st => (none, st)  -- unreachable: the stack holds real nodes
  | Tree.node _ e _ r :: st => (some e, pushLeftSpine r st)

mutual
/-- Outer loop of `Subset` (treeset.go): iterate `o`'s elements
(`for ; idxO < o.Size(); idxO++`), `remO`/`remS` are the remaining counts. -/
def subsetLoop (cmp : α → α → Int) (iterO iterS : List (Tree α))
    (remO remS : Nat) : Bool :=
  match remO with
  | 0 => true
  | remO' + 1 =>
    match iterNext iterO with
    | (none, _) => false  -- unreachable: the counter bounds the iterator
    | (some nextO, iterO') => subsetInner cmp nextO iterO' iterS remO' remS
termination_by remO + remS

/-- Inner loop of `Subset`: advance `s` until it reaches `nextO`
(`cmp > 0` aborts, `cmp < 0` continues, equality resumes the outer loop). -/
def subsetInner (cmp : α → α → Int) (nextO : α) (iterO iterS : List (Tree α))
    (remO remS : Nat) : Bool :=
  match remS with
  | 0 => false  -- inner loop exhausted s: `return false`
  | remS' + 1 =>
    match iterNext iterS with
    | (none, _) => false  -- unreachable
    | (some nextS, iterS') =>
      let cv := cmp nextS nextO
      if cv > 0 then false
      else if cv < 0 then subsetInner cmp nextO iterO iterS' remO remS'
      else subsetLoop cmp iterO iterS' remO remS'
termination_by remO + remS
end

/-- `func (s *TreeSet[T, C]) Subset(o *TreeSet[T, C]) bool`: returns whether
`o` is a subset of `s` (fast paths, then the merge-style co-iteration). -/
def Subset (cmp : α → α → Int) (s o : TreeSet α) : Bool :=
  if Empty o then true
  else if Empty s then false
  else if Size s < Size o then false
  else subsetLoop cmp (iterate o) (iterate s) (Size o).toNat (Size s).toNat

/-- Co-iteration loop of `Equal` (treeset.go): compare the next `Size`
pairs of elements. -/
def equalLoop (cmp : α → α → Int) : List (Tree α) → List (Tree α) → Nat → Bool
  | _, _, 0 => true
  | iterS, iterO, k + 1 =>
    match iterNext iterS, iterNext iterO with
    | (some nextS, iterS'), (some nextO, iterO') =>
      if cmp nextS nextO ≠ 0 then false else equalLoop cmp iterS' iterO' k
    | (_, _), (_, _) => false  -- unreachable: the counter bounds the iterators

/-- `func (s *TreeSet[T, C]) Equal(o *TreeSet[T, C]) bool` -/
def Equal (cmp : α → α → Int) (s o : TreeSet α) : Bool :=
  if Empty s || Empty o then Size s == Size o
  else if Size s ≠ Size o then false
  else
    match Min s, Min o, Max s, Max o with
    | some sm, some om, some sM, some oM =>
      if cmp sm om ≠ 0 then false
      else if cmp sM oM ≠ 0 then false
      else equalLoop cmp (iterate s) (iterate o) (Size s).toNat
    | _, _, _, _ => false  -- unreachable: a non-empty set has a min and a max

/-- One mutating operation of the public interface. -/
inductive Op (α : Type) where
  | ins (x : α) : Op α
  | rem (x : α) : Op α

/-- Apply one operation (`Insert` or `Remove`), keeping the updated set. -/
def applyOp (cmp : α → α → Int) (s : TreeSet α) : Op α → TreeSet α
  | Op.ins x => (Insert cmp s x).1
  | Op.rem x => (Remove cmp s x).1

/-- Apply a sequence of operations to a freshly constructed set. -/
def applyOps (cmp : α → α → Int) (ops : List (Op α)) : TreeSet α :=
  ops.foldl (applyOp cmp) (NewTreeSet α)

/-! ## Specification-level predicates -/

/-- The in-order element sequence is strictly increasing under the comparator
(invariant 6: set semantics, no two elements compare equal). -/
@[reducible]
def StrictSorted (cmp : α → α → Int) (l : List α) : Prop :=
  l.Pairwise (fun a b => cmp a b < 0)

/-- Red-black invariants 1, 3, 4, 5 with explicit black height: every node is
red or black; `nil` leaves are black with height 0; a red node has black
children and does not increase the black height; a black node increases it. -/
inductive Balanced : Tree α → Nat → Prop
  | nil : Balanced Tree.nil 0
  | rnode {l r : Tree α} {e : α} {h : Nat} :
      Balanced l h → Balanced r h →
      l.colorOf = black → r.colorOf = black →
      Balanced (Tree.node l e red r) h
  | bnode {l r : Tree α} {e : α} {h : Nat} :
      Balanced l h → Balanced r h →
      Balanced (Tree.node l e black r) (h + 1)

/-- Invariants 6 and 7: sorted in-order sequence and accurate size field. -/
def WF (cmp : α → α → Int) (s : TreeSet α) : Prop :=
  StrictSorted cmp (Slice s) ∧ s.size = (Slice s).length

/-- Invariants 1–5: a valid red-black coloring with a black root. -/
def RBInv (s : TreeSet α) : Prop :=
  (∃ h, Balanced s.root h) ∧ s.root.colorOf = black


/-- The elements an iterator stack will still yield: for each stacked node,
its element followed by its right subtree's in-order sequence (its left
subtree has already been yielded). -/
def stackElems : List (Tree α) → List α
  | [] => []
  | Tree.nil :: st => stackElems st
  | Tree.node _ e _ r :: st => e :: (r.inorder ++ stackElems st)

/-- Every entry of an iterator stack is a real node (never `nil`). -/
def GoodStack (st : List (Tree α)) : Prop :=
  ∀ t ∈ st, t ≠ Tree.nil

/-- Modelled from the spec: the naive quadratic reference for `Subset` —
every element of `o` compares equal to some element of `s`. -/
def subsetNaive (cmp : α → α → Int) (s o : TreeSet α) : Bool :=
  (Slice o).all (fun x => (Slice s).any (fun y => cmp y x == 0))

/-- Modelled from the spec: the naive reference for `Equal` — `s` and `o`
contain exactly the same elements under the comparator (mutual containment). -/
def equalNaive (cmp : α → α → Int) (s o : TreeSet α) : Bool :=
  subsetNaive cmp s o && subsetNaive cmp o s

/-- List-level counterpart of the `Subset` co-iteration: scan `ls` forward
for each element of `lo` in turn. -/
def lmergeSubset (cmp : α → α → Int) : List α → List α → Bool
  | [], _ => true
  | _ :: _, [] => false
  | o :: os, x :: xs =>
    let cv := cmp x o
    if cv > 0 then false
    else if cv < 0 then lmergeSubset cmp (o :: os) xs
    else lmergeSubset cmp os xs

/-! ## In-order sequence lemmas: rotations and recolorings preserve it -/

theorem inorder_paint (c : Bool) (t : Tree α) : (t.paint c).inorder = t.inorder := by
  cases t <;> simp [Tree.paint, Tree.inorder]

theorem inorder_plug (ctx : Ctx α) (t : Tree α) :
    (ctx.plug t).inorder = ctx.leftList ++ t.inorder ++ ctx.rightList := by
  induction ctx generalizing t with
  | top => simp [Ctx.plug, Ctx.leftList, Ctx.rightList]
  | left up e c r ih =>
    simp [Ctx.plug, Ctx.leftList, Ctx.rightList, ih, Tree.inorder]
  | right l e c up ih =>
    simp [Ctx.plug, Ctx.leftList, Ctx.rightList, ih, Tree.inorder]

theorem rebalanceInsertion_inorder (n : Tree α) (ctx : Ctx α) :
    (rebalanceInsertion n ctx).inorder = ctx.leftList ++ n.inorder ++ ctx.rightList := by
  induction n, ctx using rebalanceInsertion.induct <;>
    rw [rebalanceInsertion.eq_def] <;>
    simp_all [inorder_plug, inorder_paint, Ctx.leftList,
      Ctx.rightList, Tree.inorder, black, red]

theorem fixBlackSibling_left_inorder (n : Tree α) (pe : α) (pc : Bool) (sib : Tree α) :
    (fixBlackSibling_left n pe pc sib).inorder = n.inorder ++ pe :: sib.inorder := by
  unfold fixBlackSibling_left
  split
  · simp [Tree.inorder]
  · split
    · split
      · simp [Tree.inorder]
      · simp [Tree.inorder]
    · simp [Tree.inorder, inorder_paint]

theorem fixBlackSibling_right_inorder (n : Tree α) (pe : α) (pc : Bool) (sib : Tree α) :
    (fixBlackSibling_right n pe pc sib).inorder = sib.inorder ++ pe :: n.inorder := by
  unfold fixBlackSibling_right
  split
  · simp [Tree.inorder]
  · split
    · split
      · simp [Tree.inorder]
      · simp [Tree.inorder]
    · simp [Tree.inorder, inorder_paint]

theorem rebalanceDeletion_inorder (n : Tree α) (ctx : Ctx α) :
    (rebalanceDeletion n ctx).inorder = ctx.leftList ++ n.inorder ++ ctx.rightList := by
  induction n, ctx using rebalanceDeletion.induct <;>
    rw [rebalanceDeletion.eq_def] <;>
    (repeat' split) <;>
    simp_all [inorder_plug, inorder_paint, fixBlackSibling_left_inorder,
      fixBlackSibling_right_inorder, Ctx.leftList, Ctx.rightList, Tree.inorder, black, red]

theorem tail_append_of_ne_nil (l l' : List α) (h : l ≠ []) :
    (l ++ l').tail = l.tail ++ l' := by
  cases l with
  | nil => exact absurd rfl h
  | cons a t => simp

theorem inorder_ne_nil (l : Tree α) (e : α) (c : Bool) (r : Tree α) :
    (Tree.node l e c r).inorder ≠ [] := by
  simp [Tree.inorder]

theorem tail_append_cons (A : List α) (x : α) (B C : List α) :
    (A ++ x :: B).tail ++ C = (A ++ x :: (B ++ C)).tail := by
  cases A <;> simp

theorem removeMin_inorder (t : Tree α) (ctx : Ctx α) :
    (removeMin t ctx).inorder = ctx.leftList ++ t.inorder.tail ++ ctx.rightList := by
  induction t, ctx using removeMin.induct <;>
    rw [removeMin.eq_def] <;>
    simp_all [inorder_plug, rebalanceDeletion_inorder, Ctx.leftList, Ctx.rightList,
      Tree.inorder, tail_append_cons, black, red]

theorem minEltD_cons_tail (t : Tree α) (d : α) (h : t ≠ Tree.nil) :
    t.inorder = minEltD t d :: t.inorder.tail := by
  induction t generalizing d with
  | nil => exact absurd rfl h
  | node l e c r ihl ihr =>
    cases l with
    | nil => simp [Tree.inorder, minEltD]
    | node ll le lc lr =>
      rw [minEltD, Tree.inorder]
      rw [tail_append_of_ne_nil _ _ (inorder_ne_nil ll le lc lr)]
      rw [ihl e (by simp)]
      simp

theorem deleteAt_inorder (l : Tree α) (e : α) (c : Bool) (r : Tree α) (ctx : Ctx α) :
    (deleteAt l e c r ctx).inorder =
      ctx.leftList ++ (l.inorder ++ r.inorder) ++ ctx.rightList := by
  rw [deleteAt.eq_def]
  cases l with
  | nil =>
    cases r with
    | nil =>
      (repeat' split) <;> simp_all [rebalanceDeletion_inorder, inorder_plug, Tree.inorder]
    | node rl re rc rr =>
      (repeat' split) <;> simp_all [rebalanceDeletion_inorder, inorder_plug, Tree.inorder]
  | node ll le lc lr =>
    cases r with
    | nil =>
      (repeat' split) <;> simp_all [rebalanceDeletion_inorder, inorder_plug, Tree.inorder]
    | node rl re rc rr =>
      rw [removeMin_inorder]
      simp [Ctx.leftList, Ctx.rightList]
      rw [← List.cons_append, ← minEltD_cons_tail (Tree.node rl re rc rr) e (by simp)]

/-! ## Comparator laws and sorted-list helpers -/

theorem LawfulCmp.cmp_self {cmp : α → α → Int} (L : LawfulCmp cmp) (x : α) : cmp x x = 0 :=
  (L.eq_iff x x).mpr rfl

theorem LawfulCmp.lt_of_gt {cmp : α → α → Int} (L : LawfulCmp cmp) {x y : α} (h : 0 < cmp x y) :
    cmp y x < 0 := (L.lt_iff_gt y x).mpr h

theorem LawfulCmp.gt_of_lt {cmp : α → α → Int} (L : LawfulCmp cmp) {x y : α} (h : cmp x y < 0) :
    0 < cmp y x := (L.lt_iff_gt x y).mp h

theorem LawfulCmp.ne_of_lt {cmp : α → α → Int} (L : LawfulCmp cmp) {x y : α} (h : cmp x y < 0) :
    cmp y x ≠ 0 := by
  intro h0
  rw [(L.eq_iff y x).mp h0] at h
  rw [L.cmp_self] at h
  omega

theorem StrictSorted.node_destruct {cmp : α → α → Int} {A B : List α} {e : α}
    (h : StrictSorted cmp (A ++ e :: B)) :
    StrictSorted cmp A ∧ StrictSorted cmp B ∧
      (∀ a ∈ A, cmp a e < 0) ∧ (∀ b ∈ B, cmp e b < 0) ∧
      (∀ a ∈ A, ∀ b ∈ B, cmp a b < 0) := by
  rw [StrictSorted, List.pairwise_append] at h
  obtain ⟨hA, heB, hcross⟩ := h
  rw [List.pairwise_cons] at heB
  refine ⟨hA, heB.2, ?_, heB.1, ?_⟩
  · intro a ha
    exact hcross a ha e (by simp)
  · intro a ha b hb
    exact hcross a ha b (by simp [hb])

/-- Specification of the position insertion reaches: insert `x` in front of
the first strictly greater element of the sorted sequence. -/
def linsert (cmp : α → α → Int) (x : α) : List α → List α
  | [] => [x]
  | y :: ys => if cmp x y < 0 then x :: y :: ys else y :: linsert cmp x ys

theorem length_linsert (cmp : α → α → Int) (x : α) (l : List α) :
    (linsert cmp x l).length = l.length + 1 := by
  induction l with
  | nil => simp [linsert]
  | cons y ys ih =>
    by_cases h : cmp x y < 0 <;> simp [linsert, h, ih]

theorem mem_linsert (cmp : α → α → Int) (x : α) (l : List α) (z : α) :
    z ∈ linsert cmp x l ↔ z = x ∨ z ∈ l := by
  induction l with
  | nil => simp [linsert]
  | cons y ys ih =>
    by_cases h : cmp x y < 0 <;> simp [linsert, h, ih] <;> tauto

theorem linsert_append_right (cmp : α → α → Int) (x e : α) (A B : List α)
    (h : cmp x e < 0) :
    linsert cmp x (A ++ e :: B) = linsert cmp x A ++ e :: B := by
  induction A with
  | nil => simp [linsert, h]
  | cons a A ih =>
    by_cases ha : cmp x a < 0 <;> simp [linsert, ha, ih]

theorem linsert_append_left (cmp : α → α → Int) (x e : α) (A B : List α)
    (hA : ∀ a ∈ A, ¬ cmp x a < 0) (he : ¬ cmp x e < 0) :
    linsert cmp x (A ++ e :: B) = A ++ e :: linsert cmp x B := by
  induction A with
  | nil => simp [linsert, he]
  | cons a A ih =>
    have ha : ¬ cmp x a < 0 := hA a (by simp)
    simp only [List.cons_append, linsert, if_neg ha, List.append_eq]
    rw [ih (fun a h => hA a (by simp [h]))]

theorem StrictSorted.linsert_sorted {cmp : α → α → Int} (L : LawfulCmp cmp)
    {l : List α} {x : α}
    (hs : StrictSorted cmp l) (hne : ∀ y ∈ l, cmp x y ≠ 0) :
    StrictSorted cmp (linsert cmp x l) := by
  induction l with
  | nil => simp [linsert, StrictSorted]
  | cons y ys ih =>
    rw [StrictSorted, List.pairwise_cons] at hs
    obtain ⟨hy, hys⟩ := hs
    by_cases h : cmp x y < 0
    · rw [linsert, if_pos h]
      rw [StrictSorted, List.pairwise_cons]
      constructor
      · intro z hz
        rcases List.mem_cons.mp hz with rfl | hz
        · exact h
        · exact L.lt_trans x y z h (hy z hz)
      · rw [List.pairwise_cons]
        exact ⟨hy, hys⟩
    · rw [linsert, if_neg h]
      rw [StrictSorted, List.pairwise_cons]
      constructor
      · intro z hz
        rcases (mem_linsert cmp x ys z).mp hz with hzx | hz
        · subst hzx
          have hne0 : cmp z y ≠ 0 := hne y (by simp)
          have hgt : 0 < cmp z y := by omega
          exact L.lt_of_gt hgt
        · exact hy z hz
      · exact ih hys (fun z hz => hne z (by simp [hz]))

/-! ## Insertion: list-level characterization -/

theorem insertGo_none_iff {cmp : α → α → Int} (L : LawfulCmp cmp) (x : α) (t : Tree α) :
    ∀ (ctx : Ctx α), StrictSorted cmp t.inorder →
      (insertGo cmp x t ctx = none ↔ ∃ y ∈ t.inorder, cmp x y = 0) := by
  induction t with
  | nil =>
    intro ctx hs
    simp [insertGo, Tree.inorder]
  | node l e c r ihl ihr =>
    intro ctx hs
    rw [Tree.inorder] at hs
    obtain ⟨hA, hB, hAe, heB, hAB⟩ := StrictSorted.node_destruct hs
    simp only [insertGo, Tree.inorder, List.mem_append, List.mem_cons]
    rcases lt_trichotomy (cmp x e) 0 with h1 | h1 | h1
    · rw [if_pos h1, ihl _ hA]
      constructor
      · rintro ⟨y, hy, hxy⟩
        exact ⟨y, Or.inl hy, hxy⟩
      · rintro ⟨y, hy, hxy⟩
        rcases hy with hy | rfl | hy
        · exact ⟨y, hy, hxy⟩
        · omega
        · have hlt : cmp x y < 0 := L.lt_trans x e y h1 (heB y hy)
          omega
    · rw [if_neg (by omega), if_neg (by omega)]
      exact ⟨fun _ => ⟨e, Or.inr (Or.inl rfl), h1⟩, fun _ => rfl⟩
    · rw [if_neg (by omega), if_pos h1, ihr _ hB]
      constructor
      · rintro ⟨y, hy, hxy⟩
        exact ⟨y, Or.inr (Or.inr hy), hxy⟩
      · rintro ⟨y, hy, hxy⟩
        rcases hy with hy | rfl | hy
        · have h2 : cmp e x < 0 := L.lt_of_gt h1
          have h3 : cmp y x < 0 := L.lt_trans y e x (hAe y hy) h2
          exact absurd hxy (L.ne_of_lt h3)
        · omega
        · exact ⟨y, hy, hxy⟩

theorem insertGo_some_inorder {cmp : α → α → Int} (L : LawfulCmp cmp) (x : α) (t : Tree α) :
    ∀ (ctx : Ctx α), StrictSorted cmp t.inorder →
      ∀ res, insertGo cmp x t ctx = some res →
        res.inorder = ctx.leftList ++ linsert cmp x t.inorder ++ ctx.rightList := by
  induction t with
  | nil =>
    intro ctx hs res hres
    simp only [insertGo, Option.some.injEq] at hres
    subst hres
    rw [rebalanceInsertion_inorder]
    simp [Tree.inorder, linsert]
  | node l e c r ihl ihr =>
    intro ctx hs res hres
    rw [Tree.inorder] at hs
    obtain ⟨hA, hB, hAe, heB, hAB⟩ := StrictSorted.node_destruct hs
    simp only [insertGo] at hres
    rcases lt_trichotomy (cmp x e) 0 with h1 | h1 | h1
    · rw [if_pos h1] at hres
      have := ihl (Ctx.left ctx e c r) hA res hres
      rw [this, Tree.inorder, linsert_append_right cmp x e _ _ h1]
      simp [Ctx.leftList, Ctx.rightList]
    · rw [if_neg (by omega), if_neg (by omega)] at hres
      exact absurd hres (by simp)
    · rw [if_neg (by omega), if_pos h1] at hres
      have := ihr (Ctx.right l e c ctx) hB res hres
      rw [this, Tree.inorder]
      have hxA : ∀ a ∈ l.inorder, ¬ cmp x a < 0 := by
        intro a ha
        have h2 : cmp e x < 0 := L.lt_of_gt h1
        have h3 : cmp a x < 0 := L.lt_trans a e x (hAe a ha) h2
        have h4 : 0 < cmp x a := L.gt_of_lt h3
        omega
      rw [linsert_append_left cmp x e _ _ hxA (by omega)]
      simp [Ctx.leftList, Ctx.rightList]

/-! ## Deletion: list-level characterization -/

/-- Specification of deletion on the element sequence: remove the first (and
in a strictly sorted sequence, the only) element comparing equal to `x`. -/
def lerase (cmp : α → α → Int) (x : α) : List α → List α
  | [] => []
  | y :: ys => if cmp y x = 0 then ys else y :: lerase cmp x ys

theorem lerase_of_not_mem (cmp : α → α → Int) (x : α) (l : List α)
    (h : ∀ y ∈ l, cmp y x ≠ 0) : lerase cmp x l = l := by
  induction l with
  | nil => rfl
  | cons y ys ih =>
    rw [lerase, if_neg (h y (by simp)), ih (fun z hz => h z (by simp [hz]))]

theorem lerase_append_left (cmp : α → α → Int) (x : α) (A B : List α)
    (h : ∀ y ∈ A, cmp y x ≠ 0) : lerase cmp x (A ++ B) = A ++ lerase cmp x B := by
  induction A with
  | nil => simp
  | cons a A ih =>
    rw [List.cons_append, lerase, if_neg (h a (by simp)), List.cons_append,
      ih (fun z hz => h z (by simp [hz]))]

theorem lerase_append_found (cmp : α → α → Int) (x : α) (A B : List α)
    (h : ∃ y ∈ A, cmp y x = 0) : lerase cmp x (A ++ B) = lerase cmp x A ++ B := by
  induction A with
  | nil => simp at h
  | cons a A ih =>
    by_cases ha : cmp a x = 0
    · rw [List.cons_append, lerase, if_pos ha, lerase, if_pos ha]
    · obtain ⟨y, hy, hyx⟩ := h
      rcases List.mem_cons.mp hy with hya | hy
      · subst hya
        exact absurd hyx ha
      · rw [List.cons_append, lerase, if_neg ha, lerase, if_neg ha,
          List.cons_append, ih ⟨y, hy, hyx⟩]

theorem lerase_sublist (cmp : α → α → Int) (x : α) (l : List α) :
    (lerase cmp x l).Sublist l := by
  induction l with
  | nil => simp [lerase]
  | cons y ys ih =>
    by_cases h : cmp y x = 0
    · rw [lerase, if_pos h]
      exact List.sublist_cons_of_sublist y (List.Sublist.refl ys)
    · rw [lerase, if_neg h]
      exact List.Sublist.cons₂ y ih

theorem length_lerase_found (cmp : α → α → Int) (x : α) (l : List α)
    (h : ∃ y ∈ l, cmp y x = 0) : (lerase cmp x l).length + 1 = l.length := by
  induction l with
  | nil => simp at h
  | cons a A ih =>
    by_cases ha : cmp a x = 0
    · rw [lerase, if_pos ha]
      simp
    · obtain ⟨y, hy, hyx⟩ := h
      rcases List.mem_cons.mp hy with hya | hy
      · subst hya
        exact absurd hyx ha
      · rw [lerase, if_neg ha]
        simp only [List.length_cons]
        rw [← ih ⟨y, hy, hyx⟩]

theorem StrictSorted.lerase_sorted {cmp : α → α → Int} {l : List α} {x : α}
    (hs : StrictSorted cmp l) : StrictSorted cmp (lerase cmp x l) :=
  List.Pairwise.sublist (lerase_sublist cmp x l) hs

theorem StrictSorted.lerase_not_mem {cmp : α → α → Int} (L : LawfulCmp cmp)
    {l : List α} {x : α} (hs : StrictSorted cmp l) :
    ∀ y ∈ lerase cmp x l, cmp y x ≠ 0 := by
  induction l with
  | nil => simp [lerase]
  | cons a A ih =>
    rw [StrictSorted, List.pairwise_cons] at hs
    obtain ⟨ha, hA⟩ := hs
    by_cases hax : cmp a x = 0
    · rw [lerase, if_pos hax]
      intro y hy hyx
      have hxa : x = a := ((L.eq_iff a x).mp hax).symm
      have hyx2 : y = x := (L.eq_iff y x).mp hyx
      have : cmp a y < 0 := ha y hy
      rw [hyx2, hxa, L.cmp_self] at this
      omega
    · rw [lerase, if_neg hax]
      intro y hy
      rcases List.mem_cons.mp hy with hya | hy
      · subst hya
        exact hax
      · exact ih hA y hy

theorem deleteGo_none_iff {cmp : α → α → Int} (L : LawfulCmp cmp) (x : α) (t : Tree α) :
    ∀ (ctx : Ctx α), StrictSorted cmp t.inorder →
      (deleteGo cmp x t ctx = none ↔ ∀ y ∈ t.inorder, cmp y x ≠ 0) := by
  induction t with
  | nil =>
    intro ctx hs
    simp [deleteGo, Tree.inorder]
  | node l e c r ihl ihr =>
    intro ctx hs
    rw [Tree.inorder] at hs
    obtain ⟨hA, hB, hAe, heB, hAB⟩ := StrictSorted.node_destruct hs
    simp only [deleteGo, Tree.inorder, List.mem_append, List.mem_cons]
    rcases lt_trichotomy (cmp e x) 0 with h1 | h1 | h1
    · rw [if_pos h1, ihr _ hB]
      constructor
      · intro h y hy
        rcases hy with hy | rfl | hy
        · have : cmp y x < 0 := L.lt_trans y e x (hAe y hy) h1
          omega
        · omega
        · exact h y hy
      · intro h y hy
        exact h y (Or.inr (Or.inr hy))
    · rw [if_neg (by omega), if_neg (by omega)]
      constructor
      · intro h
        exact absurd h (by simp)
      · intro h
        exact absurd h1 (h e (Or.inr (Or.inl rfl)))
    · rw [if_neg (by omega), if_pos h1, ihl _ hA]
      constructor
      · intro h y hy
        rcases hy with hy | rfl | hy
        · exact h y hy
        · omega
        · have h2 : cmp x e < 0 := L.lt_of_gt h1
          have h3 : cmp x y < 0 := L.lt_trans x e y h2 (heB y hy)
          exact L.ne_of_lt h3
      · intro h y hy
        exact h y (Or.inl hy)

theorem deleteGo_some_inorder {cmp : α → α → Int} (L : LawfulCmp cmp) (x : α) (t : Tree α) :
    ∀ (ctx : Ctx α), StrictSorted cmp t.inorder →
      ∀ res, deleteGo cmp x t ctx = some res →
        res.inorder = ctx.leftList ++ lerase cmp x t.inorder ++ ctx.rightList := by
  induction t with
  | nil =>
    intro ctx hs res hres
    exact absurd hres (by simp [deleteGo])
  | node l e c r ihl ihr =>
    intro ctx hs res hres
    rw [Tree.inorder] at hs
    obtain ⟨hA, hB, hAe, heB, hAB⟩ := StrictSorted.node_destruct hs
    simp only [deleteGo] at hres
    rcases lt_trichotomy (cmp e x) 0 with h1 | h1 | h1
    · rw [if_pos h1] at hres
      have hres2 := ihr (Ctx.right l e c ctx) hB res hres
      rw [hres2, Tree.inorder]
      have hnm : ∀ y ∈ l.inorder ++ [e], cmp y x ≠ 0 := by
        intro y hy
        rcases List.mem_append.mp hy with hy | hy
        · have : cmp y x < 0 := L.lt_trans y e x (hAe y hy) h1
          omega
        · rw [List.mem_singleton.mp hy]
          omega
      have : l.inorder ++ e :: r.inorder = (l.inorder ++ [e]) ++ r.inorder := by simp
      rw [this, lerase_append_left cmp x _ _ hnm]
      simp [Ctx.leftList, Ctx.rightList]
    · rw [if_neg (by omega), if_neg (by omega)] at hres
      simp only [Option.some.injEq] at hres
      subst hres
      rw [deleteAt_inorder, Tree.inorder]
      have he : e = x := (L.eq_iff e x).mp h1
      have hnmA : ∀ y ∈ l.inorder, cmp y x ≠ 0 := by
        intro y hy
        have : cmp y x < 0 := by
          rw [← he]
          exact hAe y hy
        omega
      rw [lerase_append_left cmp x _ _ hnmA, lerase, if_pos h1]
    · rw [if_neg (by omega), if_pos h1] at hres
      have hres2 := ihl (Ctx.left ctx e c r) hA res hres
      rw [hres2, Tree.inorder]
      have hfound : ¬ ∀ y ∈ l.inorder, cmp y x ≠ 0 := by
        intro hall
        rw [← deleteGo_none_iff L x l (Ctx.left ctx e c r) hA] at hall
        rw [hall] at hres
        exact absurd hres (by simp)
      push_neg at hfound
      obtain ⟨y, hy, hyx⟩ := hfound
      rw [lerase_append_found cmp x _ _ ⟨y, hy, hyx⟩]
      simp [Ctx.leftList, Ctx.rightList]

/-! ## `locate` / `Contains` -/

theorem locate_isSome_iff {cmp : α → α → Int} (L : LawfulCmp cmp) (x : α) (t : Tree α)
    (hs : StrictSorted cmp t.inorder) :
    (locate cmp t x).isSome = true ↔ ∃ y ∈ t.inorder, cmp y x = 0 := by
  induction t with
  | nil => simp [locate, Tree.inorder]
  | node l e c r ihl ihr =>
    rw [Tree.inorder] at hs
    obtain ⟨hA, hB, hAe, heB, hAB⟩ := StrictSorted.node_destruct hs
    simp only [locate, Tree.inorder, List.mem_append, List.mem_cons]
    rcases lt_trichotomy (cmp e x) 0 with h1 | h1 | h1
    · rw [if_pos h1, ihr hB]
      constructor
      · rintro ⟨y, hy, hyx⟩
        exact ⟨y, Or.inr (Or.inr hy), hyx⟩
      · rintro ⟨y, hy, hyx⟩
        rcases hy with hy | rfl | hy
        · have : cmp y x < 0 := L.lt_trans y e x (hAe y hy) h1
          omega
        · omega
        · exact ⟨y, hy, hyx⟩
    · rw [if_neg (by omega), if_neg (by omega)]
      simp only [Option.isSome_some, true_iff]
      exact ⟨e, Or.inr (Or.inl rfl), h1⟩
    · rw [if_neg (by omega), if_pos h1, ihl hA]
      constructor
      · rintro ⟨y, hy, hyx⟩
        exact ⟨y, Or.inl hy, hyx⟩
      · rintro ⟨y, hy, hyx⟩
        rcases hy with hy | rfl | hy
        · exact ⟨y, hy, hyx⟩
        · omega
        · have h2 : cmp x e < 0 := L.lt_of_gt h1
          have h3 : cmp x y < 0 := L.lt_trans x e y h2 (heB y hy)
          exact absurd hyx (L.ne_of_lt h3)

/-! ## `Insert` / `Remove` at the set level -/

theorem Insert_found {cmp : α → α → Int} (L : LawfulCmp cmp) (s : TreeSet α) (x : α)
    (hs : StrictSorted cmp (Slice s)) (h : ∃ y ∈ Slice s, cmp x y = 0) :
    Insert cmp s x = (s, false) := by
  have hnone : insertGo cmp x s.root Ctx.top = none :=
    (insertGo_none_iff L x s.root Ctx.top hs).mpr h
  rw [Insert, hnone]

theorem Insert_new {cmp : α → α → Int} (L : LawfulCmp cmp) (s : TreeSet α) (x : α)
    (hs : StrictSorted cmp (Slice s)) (h : ∀ y ∈ Slice s, cmp x y ≠ 0) :
    (Insert cmp s x).2 = true ∧
      Slice (Insert cmp s x).1 = linsert cmp x (Slice s) ∧
      (Insert cmp s x).1.size = s.size + 1 := by
  cases hres : insertGo cmp x s.root Ctx.top with
  | none =>
    rw [insertGo_none_iff L x s.root Ctx.top hs] at hres
    obtain ⟨y, hy, hxy⟩ := hres
    exact absurd hxy (h y hy)
  | some res =>
    have hio := insertGo_some_inorder L x s.root Ctx.top hs res hres
    rw [Insert, hres]
    refine ⟨rfl, ?_, rfl⟩
    simp only [Slice]
    simpa [Ctx.leftList, Ctx.rightList] using hio

theorem WF_insert {cmp : α → α → Int} (L : LawfulCmp cmp) {s : TreeSet α} (x : α)
    (h : WF cmp s) : WF cmp (Insert cmp s x).1 := by
  by_cases hex : ∃ y ∈ Slice s, cmp x y = 0
  · rw [Insert_found L s x h.1 hex]
    exact h
  · push_neg at hex
    obtain ⟨_, hsl, hsz⟩ := Insert_new L s x h.1 hex
    constructor
    · rw [hsl]
      exact StrictSorted.linsert_sorted L h.1 hex
    · rw [hsl, hsz, length_linsert, h.2]
      push_cast
      ring

theorem Remove_not_found {cmp : α → α → Int} (L : LawfulCmp cmp) (s : TreeSet α) (x : α)
    (hs : StrictSorted cmp (Slice s)) (h : ∀ y ∈ Slice s, cmp y x ≠ 0) :
    Remove cmp s x = (s, false) := by
  have hnone : deleteGo cmp x s.root Ctx.top = none :=
    (deleteGo_none_iff L x s.root Ctx.top hs).mpr h
  rw [Remove, hnone]

theorem Remove_found {cmp : α → α → Int} (L : LawfulCmp cmp) (s : TreeSet α) (x : α)
    (hs : StrictSorted cmp (Slice s)) (h : ∃ y ∈ Slice s, cmp y x = 0) :
    (Remove cmp s x).2 = true ∧
      Slice (Remove cmp s x).1 = lerase cmp x (Slice s) ∧
      (Remove cmp s x).1.size = s.size - 1 := by
  cases hres : deleteGo cmp x s.root Ctx.top with
  | none =>
    rw [deleteGo_none_iff L x s.root Ctx.top hs] at hres
    obtain ⟨y, hy, hyx⟩ := h
    exact absurd hyx (hres y hy)
  | some res =>
    have hio := deleteGo_some_inorder L x s.root Ctx.top hs res hres
    rw [Remove, hres]
    refine ⟨rfl, ?_, rfl⟩
    simp only [Slice]
    simpa [Ctx.leftList, Ctx.rightList] using hio

theorem WF_remove {cmp : α → α → Int} (L : LawfulCmp cmp) {s : TreeSet α} (x : α)
    (h : WF cmp s) : WF cmp (Remove cmp s x).1 := by
  by_cases hex : ∃ y ∈ Slice s, cmp y x = 0
  · obtain ⟨_, hsl, hsz⟩ := Remove_found L s x h.1 hex
    constructor
    · rw [hsl]
      exact StrictSorted.lerase_sorted h.1
    · rw [hsl, hsz, h.2]
      have hlen := length_lerase_found cmp x (Slice s) hex
      push_cast [← hlen]
      ring
  · push_neg at hex
    rw [Remove_not_found L s x h.1 hex]
    exact h

/-! ## Red-black balance: context invariant and plug lemmas -/

theorem not_black_eq_red {b : Bool} (h : ¬ b = black) : b = red := by
  cases b <;> simp_all [black, red]

theorem not_red_eq_black {b : Bool} (h : ¬ b = red) : b = black := by
  cases b <;> simp_all [black, red]

theorem isRed_iff {t : Tree α} : t.isRed = true ↔ t.colorOf = red := by
  cases t <;> simp [Tree.isRed, Tree.isBlack, Tree.colorOf, black, red]

theorem isBlack_iff {t : Tree α} : t.isBlack = true ↔ t.colorOf = black := by
  cases t <;> simp [Tree.isBlack, Tree.colorOf, black, red]

theorem isRed_false_iff {t : Tree α} : t.isRed = false ↔ t.colorOf = black := by
  cases t <;> simp [Tree.isRed, Tree.isBlack, Tree.colorOf, black, red]

theorem isBlack_false_iff {t : Tree α} : t.isBlack = false ↔ t.colorOf = red := by
  cases t <;> simp [Tree.isBlack, Tree.colorOf, black, red]

theorem colorOf_paint_black {t : Tree α} : (t.paint black).colorOf = black := by
  cases t <;> simp [Tree.paint, Tree.colorOf]

theorem Balanced.nil_inv {h : Nat} (hb : Balanced (Tree.nil : Tree α) h) : h = 0 := by
  cases hb
  rfl

theorem Balanced.red_inv {l r : Tree α} {e : α} {h : Nat}
    (hb : Balanced (Tree.node l e red r) h) :
    Balanced l h ∧ Balanced r h ∧ l.colorOf = black ∧ r.colorOf = black := by
  cases hb with
  | rnode hl hr hlc hrc => exact ⟨hl, hr, hlc, hrc⟩

theorem Balanced.black_inv {l r : Tree α} {e : α} {h : Nat}
    (hb : Balanced (Tree.node l e black r) h) :
    ∃ h', h = h' + 1 ∧ Balanced l h' ∧ Balanced r h' := by
  cases hb with
  | bnode hl hr => exact ⟨_, rfl, hl, hr⟩

theorem Balanced.node_cases {l r : Tree α} {e : α} {c : Bool} {h : Nat}
    (hb : Balanced (Tree.node l e c r) h) :
    (c = red ∧ Balanced l h ∧ Balanced r h ∧ l.colorOf = black ∧ r.colorOf = black) ∨
      (c = black ∧ ∃ h', h = h' + 1 ∧ Balanced l h' ∧ Balanced r h') := by
  cases hb with
  | rnode hl hr hlc hrc => exact Or.inl ⟨rfl, hl, hr, hlc, hrc⟩
  | bnode hl hr => exact Or.inr ⟨rfl, _, rfl, ‹_›, ‹_›⟩

theorem Balanced.paint_black {t : Tree α} {h : Nat} (hb : Balanced t h) :
    ∃ m, Balanced (t.paint black) m := by
  cases t with
  | nil => exact ⟨h, hb⟩
  | node l e c r =>
    rcases hb.node_cases with ⟨hc, hl, hr, _, _⟩ | ⟨hc, h', rfl, hl, hr⟩
    · subst hc
      exact ⟨h + 1, Balanced.bnode hl hr⟩
    · subst hc
      exact ⟨h' + 1, Balanced.bnode hl hr⟩

/-- The invariant carried by a context during a fixup: the hole expects a
subtree of black height `n`; `pc` is the color of the node owning the hole;
a red frame has a black parent frame and a black-rooted sibling. -/
inductive CtxRB : Ctx α → Nat → Bool → Prop
  | top (n : Nat) : CtxRB Ctx.top n black
  | left {up : Ctx α} {e : α} {pc : Bool} {r : Tree α} {n m : Nat} {pc' : Bool} :
      CtxRB up m pc' →
      Balanced r n →
      (pc = black → m = n + 1) →
      (pc = red → m = n ∧ pc' = black ∧ r.colorOf = black) →
      CtxRB (Ctx.left up e pc r) n pc
  | right {up : Ctx α} {e : α} {pc : Bool} {l : Tree α} {n m : Nat} {pc' : Bool} :
      CtxRB up m pc' →
      Balanced l n →
      (pc = black → m = n + 1) →
      (pc = red → m = n ∧ pc' = black ∧ l.colorOf = black) →
      CtxRB (Ctx.right l e pc up) n pc

theorem CtxRB.left_inv {up : Ctx α} {e : α} {pc : Bool} {r : Tree α} {n : Nat} {pc0 : Bool}
    (h : CtxRB (Ctx.left up e pc r) n pc0) :
    pc0 = pc ∧ ∃ m pc', CtxRB up m pc' ∧ Balanced r n ∧
      (pc = black → m = n + 1) ∧ (pc = red → m = n ∧ pc' = black ∧ r.colorOf = black) := by
  cases h with
  | left hup hr hb hrd => exact ⟨rfl, _, _, hup, hr, hb, hrd⟩

theorem CtxRB.right_inv {up : Ctx α} {e : α} {pc : Bool} {l : Tree α} {n : Nat} {pc0 : Bool}
    (h : CtxRB (Ctx.right l e pc up) n pc0) :
    pc0 = pc ∧ ∃ m pc', CtxRB up m pc' ∧ Balanced l n ∧
      (pc = black → m = n + 1) ∧ (pc = red → m = n ∧ pc' = black ∧ l.colorOf = black) := by
  cases h with
  | right hup hl hb hrd => exact ⟨rfl, _, _, hup, hl, hb, hrd⟩

theorem plug_balanced {ctx : Ctx α} {n : Nat} {pc : Bool} {t : Tree α}
    (hctx : CtxRB ctx n pc) (ht : Balanced t n) (hcol : pc = red → t.colorOf = black) :
    ∃ m, Balanced (ctx.plug t) m := by
  induction hctx generalizing t with
  | top n => exact ⟨n, ht⟩
  | left hup hr hb hrd ih =>
    rename_i up e pc r n m pc'
    cases pc with
    | true =>
      -- black parent frame
      have hm : m = n + 1 := hb rfl
      subst hm
      exact ih (Balanced.bnode ht hr) (fun hc => by simp [Tree.colorOf, black])
    | false =>
      obtain ⟨hm, hpc', hrc⟩ := hrd rfl
      subst hm
      refine ih (Balanced.rnode ht hr (hcol rfl) hrc) ?_
      intro hc
      rw [hpc'] at hc
      exact absurd hc (by simp [black, red])
  | right hup hl hb hrd ih =>
    rename_i up e pc l n m pc'
    cases pc with
    | true =>
      have hm : m = n + 1 := hb rfl
      subst hm
      exact ih (Balanced.bnode hl ht) (fun hc => by simp [Tree.colorOf, black])
    | false =>
      obtain ⟨hm, hpc', hlc⟩ := hrd rfl
      subst hm
      refine ih (Balanced.rnode hl ht hlc (hcol rfl)) ?_
      intro hc
      rw [hpc'] at hc
      exact absurd hc (by simp [black, red])

/-- Whether a context is the empty (root) context. -/
def Ctx.isTop : Ctx α → Bool
  | Ctx.top => true
  | Ctx.left _ _ _ _ => false
  | Ctx.right _ _ _ _ => false

theorem outerColor_left (up : Ctx α) (e : α) (c : Bool) (r : Tree α) :
    (Ctx.left up e c r).outerColor = if up.isTop = true then c else up.outerColor := by
  cases up <;> simp [Ctx.outerColor, Ctx.isTop]

theorem outerColor_right (l : Tree α) (e : α) (c : Bool) (up : Ctx α) :
    (Ctx.right l e c up).outerColor = if up.isTop = true then c else up.outerColor := by
  cases up <;> simp [Ctx.outerColor, Ctx.isTop]

theorem plug_colorOf (up : Ctx α) (X : Tree α) :
    (up.plug X).colorOf = if up.isTop = true then X.colorOf else up.outerColor := by
  induction up generalizing X with
  | top => simp [Ctx.plug, Ctx.isTop]
  | left up2 e2 c2 r2 ih =>
    rw [Ctx.plug, ih, outerColor_left]
    simp [Tree.colorOf, Ctx.isTop]
  | right l2 e2 c2 up2 ih =>
    rw [Ctx.plug, ih, outerColor_right]
    simp [Tree.colorOf, Ctx.isTop]

theorem outerColor_of_isTop {g : Ctx α} (h : g.isTop = true) : g.outerColor = black := by
  cases g <;> simp_all [Ctx.isTop, Ctx.outerColor]

theorem outer_frame_left {up : Ctx α} {e : α} {c : Bool} {r : Tree α}
    (h : (Ctx.left up e c r).outerColor = black) : up.outerColor = black := by
  rw [outerColor_left] at h
  by_cases ht : up.isTop = true
  · exact outerColor_of_isTop ht
  · rwa [if_neg ht] at h

theorem outer_frame_right {up : Ctx α} {e : α} {c : Bool} {l : Tree α}
    (h : (Ctx.right l e c up).outerColor = black) : up.outerColor = black := by
  rw [outerColor_right] at h
  by_cases ht : up.isTop = true
  · exact outerColor_of_isTop ht
  · rwa [if_neg ht] at h

theorem plug_colorOf_black {U : Ctx α} {X : Tree α}
    (hX : X.colorOf = black) (hU : U.outerColor = black) :
    (U.plug X).colorOf = black := by
  rw [plug_colorOf]
  split
  · exact hX
  · exact hU

theorem rebalanceInsertion_balanced (t : Tree α) (ctx : Ctx α) :
    ∀ {n : Nat} {pc : Bool}, CtxRB ctx n pc → Balanced t n → t.colorOf = red →
      ctx.outerColor = black →
      (∃ m, Balanced (rebalanceInsertion t ctx) m) ∧
        (rebalanceInsertion t ctx).colorOf = black := by
  induction t, ctx using rebalanceInsertion.induct with
  | case1 t =>
    intro n pc hctx ht hred houter
    cases t with
    | nil => exact absurd hred (by simp [Tree.colorOf, black, red])
    | node l e c r =>
      have hc : c = red := hred
      subst hc
      obtain ⟨hl, hr, _, _⟩ := ht.red_inv
      have hres : rebalanceInsertion (Tree.node l e red r) Ctx.top =
          Tree.node l e black r := by
        rw [rebalanceInsertion.eq_def]
        simp [Tree.paint]
      rw [hres]
      exact ⟨⟨n + 1, Balanced.bnode hl hr⟩, rfl⟩
  | case2 t up pe pr =>
    intro n pc hctx ht hred houter
    obtain ⟨hpceq, m, pc', hup, hpr, hb, _⟩ := hctx.left_inv
    have hm := hb rfl
    subst hm
    have hres : rebalanceInsertion t (Ctx.left up pe black pr) =
        Ctx.plug up (Tree.node t pe black pr) := by
      rw [rebalanceInsertion.eq_def]
      simp
    rw [hres]
    exact ⟨plug_balanced hup (Balanced.bnode ht hpr) (fun _ => rfl),
      plug_colorOf_black rfl (outer_frame_left houter)⟩
  | case3 t pe pc pr hpc =>
    intro n pc0 hctx ht hred houter
    obtain ⟨-, m, pc', hup, hpr, _, hrd⟩ := hctx.left_inv
    have hpcr : pc = red := not_black_eq_red hpc
    subst hpcr
    have hres : rebalanceInsertion t (Ctx.left Ctx.top pe red pr) =
        Tree.node t pe black pr := by
      rw [rebalanceInsertion.eq_def]
      simp [hpc]
    rw [hres]
    exact ⟨⟨n + 1, Balanced.bnode ht hpr⟩, rfl⟩
  | case4 t pe pc pr hpc gup ge gc gr hgr ih =>
    intro n pc0 hctx ht hred houter
    obtain ⟨-, m1, pc1, hup1, hpr, hb1, hrd1⟩ := hctx.left_inv
    have hpcr : pc = red := not_black_eq_red hpc
    obtain ⟨hm1, hpc1, hprc⟩ := hrd1 hpcr
    rw [hm1] at hup1
    obtain ⟨hgceq, m2, pc2, hup2, hgrb, hb2, hrd2⟩ := hup1.left_inv
    have hgc : gc = black := by rw [← hgceq]; exact hpc1
    have hm2 : m2 = n + 1 := hb2 hgc
    subst hm2
    have hgrc : gr.colorOf = red := isRed_iff.mp hgr
    have hres : rebalanceInsertion t (Ctx.left (Ctx.left gup ge gc gr) pe pc pr) =
        rebalanceInsertion
          (Tree.node (Tree.node t pe black pr) ge red (gr.paint black)) gup := by
      rw [rebalanceInsertion.eq_def]
      simp [hpc, hgr]
    rw [hres]
    have hpaint : Balanced (gr.paint black) (n + 1) := by
      cases gr with
      | nil => exact absurd hgrc (by simp [Tree.colorOf, black, red])
      | node grl gre grc grr =>
        have : grc = red := hgrc
        subst this
        obtain ⟨h1, h2, _, _⟩ := hgrb.red_inv
        exact Balanced.bnode h1 h2
    refine ih hup2 ?_ rfl ?_
    · exact Balanced.rnode (Balanced.bnode ht hpr) hpaint rfl colorOf_paint_black
    · exact outer_frame_left (outer_frame_left houter)
  | case5 t pe pc pr hpc gup ge gc gr hgrn =>
    intro n pc0 hctx ht hred houter
    obtain ⟨-, m1, pc1, hup1, hpr, hb1, hrd1⟩ := hctx.left_inv
    have hpcr : pc = red := not_black_eq_red hpc
    obtain ⟨hm1, hpc1, hprc⟩ := hrd1 hpcr
    rw [hm1] at hup1
    obtain ⟨hgceq, m2, pc2, hup2, hgrb, hb2, hrd2⟩ := hup1.left_inv
    have hgc : gc = black := by rw [← hgceq]; exact hpc1
    have hm2 : m2 = n + 1 := hb2 hgc
    subst hm2
    have hgrc : gr.colorOf = black := isRed_false_iff.mp (by simpa using hgrn)
    have hres : rebalanceInsertion t (Ctx.left (Ctx.left gup ge gc gr) pe pc pr) =
        Ctx.plug gup (Tree.node t pe black (Tree.node pr ge red gr)) := by
      rw [rebalanceInsertion.eq_def]
      simp [hpc, hgrn]
    rw [hres]
    have hinner : Balanced (Tree.node pr ge red gr) n :=
      Balanced.rnode hpr hgrb hprc hgrc
    exact ⟨plug_balanced hup2 (Balanced.bnode ht hinner) (fun _ => rfl),
      plug_colorOf_black rfl (outer_frame_left (outer_frame_left houter))⟩
  | case6 t pe pc pr hpc gl ge gc gup hgl ih =>
    intro n pc0 hctx ht hred houter
    obtain ⟨-, m1, pc1, hup1, hpr, hb1, hrd1⟩ := hctx.left_inv
    have hpcr : pc = red := not_black_eq_red hpc
    obtain ⟨hm1, hpc1, hprc⟩ := hrd1 hpcr
    rw [hm1] at hup1
    obtain ⟨hgceq, m2, pc2, hup2, hglb, hb2, hrd2⟩ := hup1.right_inv
    have hgc : gc = black := by rw [← hgceq]; exact hpc1
    have hm2 : m2 = n + 1 := hb2 hgc
    subst hm2
    have hglc : gl.colorOf = red := isRed_iff.mp hgl
    have hres : rebalanceInsertion t (Ctx.left (Ctx.right gl ge gc gup) pe pc pr) =
        rebalanceInsertion
          (Tree.node (gl.paint black) ge red (Tree.node t pe black pr)) gup := by
      rw [rebalanceInsertion.eq_def]
      simp [hpc, hgl]
    rw [hres]
    have hpaint : Balanced (gl.paint black) (n + 1) := by
      cases gl with
      | nil => exact absurd hglc (by simp [Tree.colorOf, black, red])
      | node gll gle glc glr =>
        have : glc = red := hglc
        subst this
        obtain ⟨h1, h2, _, _⟩ := hglb.red_inv
        exact Balanced.bnode h1 h2
    refine ih hup2 ?_ rfl ?_
    · exact Balanced.rnode hpaint (Balanced.bnode ht hpr) colorOf_paint_black rfl
    · exact outer_frame_right (outer_frame_left houter)
  | case7 pe pc pr hpc gl ge gc gup hgln =>
    intro n pc0 hctx ht hred houter
    exact absurd hred (by simp [Tree.colorOf, black, red])
  | case8 pe pc pr hpc gl ge gc gup hgln nl ne nc nr =>
    intro n pc0 hctx ht hred houter
    obtain ⟨-, m1, pc1, hup1, hpr, hb1, hrd1⟩ := hctx.left_inv
    have hpcr : pc = red := not_black_eq_red hpc
    subst hpcr
    obtain ⟨hm1, hpc1, hprc⟩ := hrd1 rfl
    rw [hm1] at hup1
    obtain ⟨hgceq, m2, pc2, hup2, hglb, hb2, hrd2⟩ := hup1.right_inv
    have hgc : gc = black := by rw [← hgceq]; exact hpc1
    have hm2 : m2 = n + 1 := hb2 hgc
    subst hm2
    have hglc : gl.colorOf = black := isRed_false_iff.mp (by simpa using hgln)
    have hnc : nc = red := hred
    subst hnc
    obtain ⟨hnl, hnr, hnlc, hnrc⟩ := ht.red_inv
    have hres : rebalanceInsertion (Tree.node nl ne red nr)
          (Ctx.left (Ctx.right gl ge gc gup) pe red pr) =
        Ctx.plug gup
          (Tree.node (Tree.node gl ge red nl) ne black (Tree.node nr pe red pr)) := by
      rw [rebalanceInsertion.eq_def]
      simp [hpc, hgln]
    rw [hres]
    have h1 : Balanced (Tree.node gl ge red nl) n := Balanced.rnode hglb hnl hglc hnlc
    have h2 : Balanced (Tree.node nr pe red pr) n := Balanced.rnode hnr hpr hnrc hprc
    exact ⟨plug_balanced hup2 (Balanced.bnode h1 h2) (fun _ => rfl),
      plug_colorOf_black rfl (outer_frame_right (outer_frame_left houter))⟩
  | case9 t pl pe up =>
    intro n pc hctx ht hred houter
    obtain ⟨hpceq, m, pc', hup, hpl, hb, _⟩ := hctx.right_inv
    have hm := hb rfl
    subst hm
    have hres : rebalanceInsertion t (Ctx.right pl pe black up) =
        Ctx.plug up (Tree.node pl pe black t) := by
      rw [rebalanceInsertion.eq_def]
      simp
    rw [hres]
    exact ⟨plug_balanced hup (Balanced.bnode hpl ht) (fun _ => rfl),
      plug_colorOf_black rfl (outer_frame_right houter)⟩
  | case10 t pl pe pc hpc =>
    intro n pc0 hctx ht hred houter
    obtain ⟨-, m, pc', hup, hpl, _, hrd⟩ := hctx.right_inv
    have hpcr : pc = red := not_black_eq_red hpc
    subst hpcr
    have hres : rebalanceInsertion t (Ctx.right pl pe red Ctx.top) =
        Tree.node pl pe black t := by
      rw [rebalanceInsertion.eq_def]
      simp [hpc]
    rw [hres]
    exact ⟨⟨n + 1, Balanced.bnode hpl ht⟩, rfl⟩
  | case11 t pl pe pc hpc gl ge gc gup hgl ih =>
    intro n pc0 hctx ht hred houter
    obtain ⟨-, m1, pc1, hup1, hpl, hb1, hrd1⟩ := hctx.right_inv
    have hpcr : pc = red := not_black_eq_red hpc
    obtain ⟨hm1, hpc1, hplc⟩ := hrd1 hpcr
    rw [hm1] at hup1
    obtain ⟨hgceq, m2, pc2, hup2, hglb, hb2, hrd2⟩ := hup1.right_inv
    have hgc : gc = black := by rw [← hgceq]; exact hpc1
    have hm2 : m2 = n + 1 := hb2 hgc
    subst hm2
    have hglc : gl.colorOf = red := isRed_iff.mp hgl
    have hres : rebalanceInsertion t (Ctx.right pl pe pc (Ctx.right gl ge gc gup)) =
        rebalanceInsertion
          (Tree.node (gl.paint black) ge red (Tree.node pl pe black t)) gup := by
      rw [rebalanceInsertion.eq_def]
      simp [hpc, hgl]
    rw [hres]
    have hpaint : Balanced (gl.paint black) (n + 1) := by
      cases gl with
      | nil => exact absurd hglc (by simp [Tree.colorOf, black, red])
      | node gll gle glc glr =>
        have : glc = red := hglc
        subst this
        obtain ⟨h1, h2, _, _⟩ := hglb.red_inv
        exact Balanced.bnode h1 h2
    refine ih hup2 ?_ rfl ?_
    · exact Balanced.rnode hpaint (Balanced.bnode hpl ht) colorOf_paint_black rfl
    · exact outer_frame_right (outer_frame_right houter)
  | case12 t pl pe pc hpc gl ge gc gup hgln =>
    intro n pc0 hctx ht hred houter
    obtain ⟨-, m1, pc1, hup1, hpl, hb1, hrd1⟩ := hctx.right_inv
    have hpcr : pc = red := not_black_eq_red hpc
    obtain ⟨hm1, hpc1, hplc⟩ := hrd1 hpcr
    rw [hm1] at hup1
    obtain ⟨hgceq, m2, pc2, hup2, hglb, hb2, hrd2⟩ := hup1.right_inv
    have hgc : gc = black := by rw [← hgceq]; exact hpc1
    have hm2 : m2 = n + 1 := hb2 hgc
    subst hm2
    have hglc : gl.colorOf = black := isRed_false_iff.mp (by simpa using hgln)
    have hres : rebalanceInsertion t (Ctx.right pl pe pc (Ctx.right gl ge gc gup)) =
        Ctx.plug gup (Tree.node (Tree.node gl ge red pl) pe black t) := by
      rw [rebalanceInsertion.eq_def]
      simp [hpc, hgln]
    rw [hres]
    have hinner : Balanced (Tree.node gl ge red pl) n :=
      Balanced.rnode hglb hpl hglc hplc
    exact ⟨plug_balanced hup2 (Balanced.bnode hinner ht) (fun _ => rfl),
      plug_colorOf_black rfl (outer_frame_right (outer_frame_right houter))⟩
  | case13 t pl pe pc hpc gup ge gc gr hgr ih =>
    intro n pc0 hctx ht hred houter
    obtain ⟨-, m1, pc1, hup1, hpl, hb1, hrd1⟩ := hctx.right_inv
    have hpcr : pc = red := not_black_eq_red hpc
    obtain ⟨hm1, hpc1, hplc⟩ := hrd1 hpcr
    rw [hm1] at hup1
    obtain ⟨hgceq, m2, pc2, hup2, hgrb, hb2, hrd2⟩ := hup1.left_inv
    have hgc : gc = black := by rw [← hgceq]; exact hpc1
    have hm2 : m2 = n + 1 := hb2 hgc
    subst hm2
    have hgrc : gr.colorOf = red := isRed_iff.mp hgr
    have hres : rebalanceInsertion t (Ctx.right pl pe pc (Ctx.left gup ge gc gr)) =
        rebalanceInsertion
          (Tree.node (Tree.node pl pe black t) ge red (gr.paint black)) gup := by
      rw [rebalanceInsertion.eq_def]
      simp [hpc, hgr]
    rw [hres]
    have hpaint : Balanced (gr.paint black) (n + 1) := by
      cases gr with
      | nil => exact absurd hgrc (by simp [Tree.colorOf, black, red])
      | node grl gre grc grr =>
        have : grc = red := hgrc
        subst this
        obtain ⟨h1, h2, _, _⟩ := hgrb.red_inv
        exact Balanced.bnode h1 h2
    refine ih hup2 ?_ rfl ?_
    · exact Balanced.rnode (Balanced.bnode hpl ht) hpaint rfl colorOf_paint_black
    · exact outer_frame_left (outer_frame_right houter)
  | case14 pl pe pc hpc gup ge gc gr hgrn =>
    intro n pc0 hctx ht hred houter
    exact absurd hred (by simp [Tree.colorOf, black, red])
  | case15 pl pe pc hpc gup ge gc gr hgrn nl ne nc nr =>
    intro n pc0 hctx ht hred houter
    obtain ⟨-, m1, pc1, hup1, hpl, hb1, hrd1⟩ := hctx.right_inv
    have hpcr : pc = red := not_black_eq_red hpc
    subst hpcr
    obtain ⟨hm1, hpc1, hplc⟩ := hrd1 rfl
    rw [hm1] at hup1
    obtain ⟨hgceq, m2, pc2, hup2, hgrb, hb2, hrd2⟩ := hup1.left_inv
    have hgc : gc = black := by rw [← hgceq]; exact hpc1
    have hm2 : m2 = n + 1 := hb2 hgc
    subst hm2
    have hgrc : gr.colorOf = black := isRed_false_iff.mp (by simpa using hgrn)
    have hnc : nc = red := hred
    subst hnc
    obtain ⟨hnl, hnr, hnlc, hnrc⟩ := ht.red_inv
    have hres : rebalanceInsertion (Tree.node nl ne red nr)
          (Ctx.right pl pe red (Ctx.left gup ge gc gr)) =
        Ctx.plug gup
          (Tree.node (Tree.node pl pe red nl) ne black (Tree.node nr ge red gr)) := by
      rw [rebalanceInsertion.eq_def]
      simp [hpc, hgrn]
    rw [hres]
    have h1 : Balanced (Tree.node pl pe red nl) n := Balanced.rnode hpl hnl hplc hnlc
    have h2 : Balanced (Tree.node nr ge red gr) n := Balanced.rnode hnr hgrb hnrc hgrc
    exact ⟨plug_balanced hup2 (Balanced.bnode h1 h2) (fun _ => rfl),
      plug_colorOf_black rfl (outer_frame_left (outer_frame_right houter))⟩

theorem insertGo_balanced {cmp : α → α → Int} (x : α) (t : Tree α) :
    ∀ (ctx : Ctx α) {n : Nat} {pc : Bool} (res : Tree α),
      CtxRB ctx n pc → Balanced t n → (pc = red → t.colorOf = black) →
      ctx.outerColor = black → (ctx.isTop = true → t.colorOf = black) →
      insertGo cmp x t ctx = some res →
      (∃ m, Balanced res m) ∧ res.colorOf = black := by
  induction t with
  | nil =>
    intro ctx n pc res hctx ht hcol houter htop hres
    have hn : n = 0 := ht.nil_inv
    subst hn
    simp only [insertGo, Option.some.injEq] at hres
    subst hres
    exact rebalanceInsertion_balanced _ ctx hctx
      (Balanced.rnode Balanced.nil Balanced.nil rfl rfl) rfl houter
  | node l e c r ihl ihr =>
    intro ctx n pc res hctx ht hcol houter htop hres
    simp only [insertGo] at hres
    rcases lt_trichotomy (cmp x e) 0 with h1 | h1 | h1
    · rw [if_pos h1] at hres
      rcases ht.node_cases with ⟨hc, hl, hr, hlc, hrc⟩ | ⟨hc, h', rfl, hl, hr⟩
      · subst hc
        have hpcb : pc = black := by
          by_cases hp : pc = red
          · have := hcol hp
            simp [Tree.colorOf, black, red] at this
          · exact not_red_eq_black hp
        refine @ihl (Ctx.left ctx e red r) n red res ?_ hl (fun _ => hlc) ?_
          (by simp [Ctx.isTop]) hres
        · exact CtxRB.left hctx hr (fun hcon => absurd hcon (by simp [black, red]))
            (fun _ => ⟨rfl, hpcb, hrc⟩)
        · rw [outerColor_left]
          split
          · rename_i hT
            have := htop hT
            simp [Tree.colorOf, black, red] at this
          · exact houter
      · subst hc
        refine @ihl (Ctx.left ctx e black r) h' black res ?_ hl ?_ ?_
          (by simp [Ctx.isTop]) hres
        · exact CtxRB.left hctx hr (fun _ => rfl)
            (fun hcon => absurd hcon (by simp [black, red]))
        · intro hcon
          exact absurd hcon (by simp [black, red])
        · rw [outerColor_left]
          split
          · rfl
          · exact houter
    · rw [if_neg (by omega), if_neg (by omega)] at hres
      exact absurd hres (by simp)
    · rw [if_neg (by omega), if_pos h1] at hres
      rcases ht.node_cases with ⟨hc, hl, hr, hlc, hrc⟩ | ⟨hc, h', rfl, hl, hr⟩
      · subst hc
        have hpcb : pc = black := by
          by_cases hp : pc = red
          · have := hcol hp
            simp [Tree.colorOf, black, red] at this
          · exact not_red_eq_black hp
        refine @ihr (Ctx.right l e red ctx) n red res ?_ hr (fun _ => hrc) ?_
          (by simp [Ctx.isTop]) hres
        · exact CtxRB.right hctx hl (fun hcon => absurd hcon (by simp [black, red]))
            (fun _ => ⟨rfl, hpcb, hlc⟩)
        · rw [outerColor_right]
          split
          · rename_i hT
            have := htop hT
            simp [Tree.colorOf, black, red] at this
          · exact houter
      · subst hc
        refine @ihr (Ctx.right l e black ctx) h' black res ?_ hr ?_ ?_
          (by simp [Ctx.isTop]) hres
        · exact CtxRB.right hctx hl (fun _ => rfl)
            (fun hcon => absurd hcon (by simp [black, red]))
        · intro hcon
          exact absurd hcon (by simp [black, red])
        · rw [outerColor_right]
          split
          · rfl
          · exact houter

theorem Insert_RBInv {cmp : α → α → Int} (s : TreeSet α) (x : α) (hrb : RBInv s) :
    RBInv (Insert cmp s x).1 := by
  obtain ⟨⟨h, hbal⟩, hcol⟩ := hrb
  cases hres : insertGo cmp x s.root Ctx.top with
  | none =>
    rw [Insert, hres]
    exact ⟨⟨h, hbal⟩, hcol⟩
  | some res =>
    have hmain := insertGo_balanced x s.root Ctx.top res (CtxRB.top h) hbal
      (fun hcon => absurd hcon (by simp [black, red])) (by simp [Ctx.outerColor])
      (fun _ => hcol) hres
    rw [Insert, hres]
    exact hmain

theorem outer_frame_left_top {up : Ctx α} {e : α} {c : Bool} {r : Tree α}
    (h : (Ctx.left up e c r).outerColor = black) (ht : up.isTop = true) : c = black := by
  rw [outerColor_left, if_pos ht] at h
  exact h

theorem outer_frame_right_top {up : Ctx α} {e : α} {c : Bool} {l : Tree α}
    (h : (Ctx.right l e c up).outerColor = black) (ht : up.isTop = true) : c = black := by
  rw [outerColor_right, if_pos ht] at h
  exact h

theorem fixBlackSibling_left_balanced {t : Tree α} {n : Nat} (pe : α) (pc : Bool)
    {sl sr : Tree α} {se : α}
    (ht : Balanced t n) (hsl : Balanced sl n) (hsr : Balanced sr n)
    (hnb : ¬(sl.isBlack = true ∧ sr.isBlack = true)) :
    Balanced (fixBlackSibling_left t pe pc (Tree.node sl se black sr))
        (if pc = black then n + 2 else n + 1) ∧
      (fixBlackSibling_left t pe pc (Tree.node sl se black sr)).colorOf = pc := by
  by_cases hsrb : sr.isBlack = true
  · have hslb : sl.isBlack = false := by
      cases hsl0 : sl.isBlack
      · rfl
      · exact absurd ⟨hsl0, hsrb⟩ hnb
    have hslc : sl.colorOf = red := isBlack_false_iff.mp hslb
    cases sl with
    | nil => exact absurd hslc (by simp [Tree.colorOf, black, red])
    | node a ae ac b =>
      have hac : ac = red := hslc
      subst hac
      obtain ⟨ha, hb, hac2, hbc2⟩ := hsl.red_inv
      have hres : fixBlackSibling_left t pe pc (Tree.node (Tree.node a ae red b) se black sr) =
          Tree.node (Tree.node t pe black a) ae pc (Tree.node b se black sr) := by
        rw [fixBlackSibling_left.eq_def]
        simp [hsrb]
      rw [hres]
      refine ⟨?_, rfl⟩
      have h1 : Balanced (Tree.node t pe black a) (n + 1) := Balanced.bnode ht ha
      have h2 : Balanced (Tree.node b se black sr) (n + 1) := Balanced.bnode hb hsr
      by_cases hpc : pc = black
      · subst hpc
        rw [if_pos rfl]
        exact Balanced.bnode h1 h2
      · have := not_black_eq_red hpc
        subst this
        rw [if_neg hpc]
        exact Balanced.rnode h1 h2 rfl rfl
  · have hsrc : sr.colorOf = red := isBlack_false_iff.mp (by simpa using hsrb)
    cases sr with
    | nil => exact absurd hsrc (by simp [Tree.colorOf, black, red])
    | node c ce cc d =>
      have hcc : cc = red := hsrc
      subst hcc
      obtain ⟨hc, hd, _, _⟩ := hsr.red_inv
      have hres : fixBlackSibling_left t pe pc (Tree.node sl se black (Tree.node c ce red d)) =
          Tree.node (Tree.node t pe black sl) se pc (Tree.node c ce black d) := by
        rw [fixBlackSibling_left.eq_def]
        simp [hsrb, Tree.paint]
      rw [hres]
      refine ⟨?_, rfl⟩
      have h1 : Balanced (Tree.node t pe black sl) (n + 1) := Balanced.bnode ht hsl
      have h2 : Balanced (Tree.node c ce black d) (n + 1) := Balanced.bnode hc hd
      by_cases hpc : pc = black
      · subst hpc
        rw [if_pos rfl]
        exact Balanced.bnode h1 h2
      · have := not_black_eq_red hpc
        subst this
        rw [if_neg hpc]
        exact Balanced.rnode h1 h2 rfl rfl

theorem fixBlackSibling_right_balanced {t : Tree α} {n : Nat} (pe : α) (pc : Bool)
    {sl sr : Tree α} {se : α}
    (ht : Balanced t n) (hsl : Balanced sl n) (hsr : Balanced sr n)
    (hnb : ¬(sl.isBlack = true ∧ sr.isBlack = true)) :
    Balanced (fixBlackSibling_right t pe pc (Tree.node sl se black sr))
        (if pc = black then n + 2 else n + 1) ∧
      (fixBlackSibling_right t pe pc (Tree.node sl se black sr)).colorOf = pc := by
  by_cases hslb : sl.isBlack = true
  · have hsrb : sr.isBlack = false := by
      cases hsr0 : sr.isBlack
      · rfl
      · exact absurd ⟨hslb, hsr0⟩ hnb
    have hsrc : sr.colorOf = red := isBlack_false_iff.mp hsrb
    cases sr with
    | nil => exact absurd hsrc (by simp [Tree.colorOf, black, red])
    | node c ce cc d =>
      have hcc : cc = red := hsrc
      subst hcc
      obtain ⟨hc, hd, hcc2, hdc2⟩ := hsr.red_inv
      have hres : fixBlackSibling_right t pe pc (Tree.node sl se black (Tree.node c ce red d)) =
          Tree.node (Tree.node sl se black c) ce pc (Tree.node d pe black t) := by
        rw [fixBlackSibling_right.eq_def]
        simp [hslb]
      rw [hres]
      refine ⟨?_, rfl⟩
      have h1 : Balanced (Tree.node sl se black c) (n + 1) := Balanced.bnode hsl hc
      have h2 : Balanced (Tree.node d pe black t) (n + 1) := Balanced.bnode hd ht
      by_cases hpc : pc = black
      · subst hpc
        rw [if_pos rfl]
        exact Balanced.bnode h1 h2
      · have := not_black_eq_red hpc
        subst this
        rw [if_neg hpc]
        exact Balanced.rnode h1 h2 rfl rfl
  · have hslc : sl.colorOf = red := isBlack_false_iff.mp (by simpa using hslb)
    cases sl with
    | nil => exact absurd hslc (by simp [Tree.colorOf, black, red])
    | node a ae ac b =>
      have hac : ac = red := hslc
      subst hac
      obtain ⟨ha, hb, _, _⟩ := hsl.red_inv
      have hres : fixBlackSibling_right t pe pc (Tree.node (Tree.node a ae red b) se black sr) =
          Tree.node (Tree.node a ae black b) se pc (Tree.node sr pe black t) := by
        rw [fixBlackSibling_right.eq_def]
        simp [hslb, Tree.paint]
      rw [hres]
      refine ⟨?_, rfl⟩
      have h1 : Balanced (Tree.node a ae black b) (n + 1) := Balanced.bnode ha hb
      have h2 : Balanced (Tree.node sr pe black t) (n + 1) := Balanced.bnode hsr ht
      by_cases hpc : pc = black
      · subst hpc
        rw [if_pos rfl]
        exact Balanced.bnode h1 h2
      · have := not_black_eq_red hpc
        subst this
        rw [if_neg hpc]
        exact Balanced.rnode h1 h2 rfl rfl

theorem rebalanceDeletion_balanced (t : Tree α) (ctx : Ctx α) :
    ∀ {n : Nat} {pc : Bool}, CtxRB ctx (n + 1) pc → Balanced t n →
      ctx.outerColor = black →
      (∃ m, Balanced (rebalanceDeletion t ctx) m) ∧
        (rebalanceDeletion t ctx).colorOf = black := by
  induction t, ctx using rebalanceDeletion.induct with
  | case1 t =>
    intro n pc hctx ht houter
    have hres : rebalanceDeletion t Ctx.top = t.paint black := by
      rw [rebalanceDeletion.eq_def]
    rw [hres]
    exact ⟨ht.paint_black, colorOf_paint_black⟩
  | case2 t up pe pc se sr =>
    intro n pc0 hctx ht houter
    obtain ⟨-, m, pc', hup, hsib, hb, hrd⟩ := hctx.left_inv
    obtain ⟨hnil, -, -, -⟩ := hsib.red_inv
    exact absurd hnil.nil_inv (by omega)
  | case3 t up pe pc se sr a ae ac b hbb =>
    intro n pc0 hctx ht houter
    obtain ⟨-, m, pc', hup, hsib, hb, hrd⟩ := hctx.left_inv
    have hpcb : pc = black := by
      by_cases hp : pc = red
      · obtain ⟨-, -, hcon⟩ := hrd hp
        simp [Tree.colorOf, black, red] at hcon
      · exact not_red_eq_black hp
    subst hpcb
    have hm : m = n + 2 := hb rfl
    subst hm
    obtain ⟨hsl, hsr, hslc, hsrc⟩ := hsib.red_inv
    have hac : ac = black := hslc
    subst hac
    obtain ⟨h', heq, ha, hb2⟩ := hsl.black_inv
    have hh : n = h' := by omega
    subst hh
    obtain ⟨ha1, hb1⟩ := Bool.and_eq_true_iff.mp hbb
    have hres : rebalanceDeletion t
          (Ctx.left up pe black (Tree.node (Tree.node a ae black b) se red sr)) =
        Ctx.plug up
          (Tree.node (Tree.node t pe black (Tree.node a ae red b)) se black sr) := by
      rw [rebalanceDeletion.eq_def]
      simp [hbb, Tree.paint]
    rw [hres]
    have hinner : Balanced (Tree.node a ae red b) n :=
      Balanced.rnode ha hb2 (isBlack_iff.mp ha1) (isBlack_iff.mp hb1)
    exact ⟨plug_balanced hup (Balanced.bnode (Balanced.bnode ht hinner) hsr)
        (fun _ => rfl),
      plug_colorOf_black rfl (outer_frame_left houter)⟩
  | case4 t up pe pc se sr a ae ac b hnbb =>
    intro n pc0 hctx ht houter
    obtain ⟨-, m, pc', hup, hsib, hb, hrd⟩ := hctx.left_inv
    have hpcb : pc = black := by
      by_cases hp : pc = red
      · obtain ⟨-, -, hcon⟩ := hrd hp
        simp [Tree.colorOf, black, red] at hcon
      · exact not_red_eq_black hp
    subst hpcb
    have hm : m = n + 2 := hb rfl
    subst hm
    obtain ⟨hsl, hsr, hslc, hsrc⟩ := hsib.red_inv
    have hac : ac = black := hslc
    subst hac
    obtain ⟨h', heq, ha, hb2⟩ := hsl.black_inv
    have hh : n = h' := by omega
    subst hh
    have hres : rebalanceDeletion t
          (Ctx.left up pe black (Tree.node (Tree.node a ae black b) se red sr)) =
        Ctx.plug up
          (Tree.node (fixBlackSibling_left t pe red (Tree.node a ae black b)) se black sr) := by
      rw [rebalanceDeletion.eq_def]
      simp [hnbb]
    rw [hres]
    obtain ⟨hfix, hfixc⟩ := fixBlackSibling_left_balanced pe red ht ha hb2
      (by simpa using hnbb)
    rw [if_neg (by simp [black, red])] at hfix
    exact ⟨plug_balanced hup (Balanced.bnode hfix hsr) (fun _ => rfl),
      plug_colorOf_black rfl (outer_frame_left houter)⟩
  | case5 t up pe sl se sc sr hsc hbb =>
    intro n pc0 hctx ht houter
    obtain ⟨-, m, pc', hup, hsib, hb, hrd⟩ := hctx.left_inv
    obtain ⟨hm, hpc', hsibc⟩ := hrd rfl
    subst hm
    have hscb : sc = black := not_red_eq_black hsc
    subst hscb
    obtain ⟨h', heq, hsl, hsr⟩ := hsib.black_inv
    have hh : n = h' := by omega
    subst hh
    obtain ⟨ha1, hb1⟩ := Bool.and_eq_true_iff.mp hbb
    have hres : rebalanceDeletion t
          (Ctx.left up pe red (Tree.node sl se black sr)) =
        Ctx.plug up (Tree.node t pe black (Tree.node sl se red sr)) := by
      rw [rebalanceDeletion.eq_def]
      simp [hsc, hbb, Tree.paint]
    rw [hres]
    have hinner : Balanced (Tree.node sl se red sr) n :=
      Balanced.rnode hsl hsr (isBlack_iff.mp ha1) (isBlack_iff.mp hb1)
    exact ⟨plug_balanced hup (Balanced.bnode ht hinner) (fun _ => rfl),
      plug_colorOf_black rfl (outer_frame_left houter)⟩
  | case6 t up pe pc sl se sc sr hsc hbb hpcnr ih =>
    intro n pc0 hctx ht houter
    obtain ⟨-, m, pc', hup, hsib, hb, hrd⟩ := hctx.left_inv
    have hpcb : pc = black := not_red_eq_black hpcnr
    subst hpcb
    have hm : m = n + 2 := hb rfl
    subst hm
    have hscb : sc = black := not_red_eq_black hsc
    subst hscb
    obtain ⟨h', heq, hsl, hsr⟩ := hsib.black_inv
    have hh : n = h' := by omega
    subst hh
    obtain ⟨ha1, hb1⟩ := Bool.and_eq_true_iff.mp hbb
    have hres : rebalanceDeletion t
          (Ctx.left up pe black (Tree.node sl se black sr)) =
        rebalanceDeletion
          (Tree.node t pe black (Tree.node sl se red sr)) up := by
      rw [rebalanceDeletion.eq_def]
      simp [hsc, hbb, hpcnr, Tree.paint]
    rw [hres]
    have hinner : Balanced (Tree.node sl se red sr) n :=
      Balanced.rnode hsl hsr (isBlack_iff.mp ha1) (isBlack_iff.mp hb1)
    exact ih hup (Balanced.bnode ht hinner) (outer_frame_left houter)
  | case7 t up pe pc sl se sc sr hsc hnbb =>
    intro n pc0 hctx ht houter
    obtain ⟨-, m, pc', hup, hsib, hb, hrd⟩ := hctx.left_inv
    have hscb : sc = black := not_red_eq_black hsc
    subst hscb
    obtain ⟨h', heq, hsl, hsr⟩ := hsib.black_inv
    have hh : n = h' := by omega
    subst hh
    have hres : rebalanceDeletion t
          (Ctx.left up pe pc (Tree.node sl se black sr)) =
        Ctx.plug up (fixBlackSibling_left t pe pc (Tree.node sl se black sr)) := by
      rw [rebalanceDeletion.eq_def]
      simp [hsc, hnbb]
    rw [hres]
    obtain ⟨hfix, hfixc⟩ := fixBlackSibling_left_balanced pe pc ht hsl hsr
      (by simpa using hnbb)
    by_cases hpc : pc = black
    · subst hpc
      rw [if_pos rfl] at hfix
      have hm : m = n + 2 := hb rfl
      subst hm
      refine ⟨plug_balanced hup hfix (fun _ => hfixc), ?_⟩
      exact plug_colorOf_black hfixc (outer_frame_left houter)
    · have hpcr : pc = red := not_black_eq_red hpc
      subst hpcr
      rw [if_neg (by simp [black, red])] at hfix
      obtain ⟨hm, hpc', hsibc⟩ := hrd rfl
      subst hm
      refine ⟨plug_balanced hup hfix ?_, ?_⟩
      · intro hcon
        rw [hpc'] at hcon
        exact absurd hcon (by simp [black, red])
      · rw [plug_colorOf]
        split
        · rename_i hT
          have := outer_frame_left_top houter hT
          simp [black, red] at this
        · exact outer_frame_left houter
  | case8 t up pe =>
    intro n pc0 hctx ht houter
    obtain ⟨-, m, pc', hup, hsib, hb, hrd⟩ := hctx.left_inv
    exact absurd hsib.nil_inv (by omega)
  | case9 t up pe pc hpcnr ih =>
    intro n pc0 hctx ht houter
    obtain ⟨-, m, pc', hup, hsib, hb, hrd⟩ := hctx.left_inv
    exact absurd hsib.nil_inv (by omega)
  | case10 t pe pc up sl se =>
    intro n pc0 hctx ht houter
    obtain ⟨-, m, pc', hup, hsib, hb, hrd⟩ := hctx.right_inv
    obtain ⟨-, hnil, -, -⟩ := hsib.red_inv
    exact absurd hnil.nil_inv (by omega)
  | case11 t pe pc up sl se c ce cc d hbb =>
    intro n pc0 hctx ht houter
    obtain ⟨-, m, pc', hup, hsib, hb, hrd⟩ := hctx.right_inv
    have hpcb : pc = black := by
      by_cases hp : pc = red
      · obtain ⟨-, -, hcon⟩ := hrd hp
        simp [Tree.colorOf, black, red] at hcon
      · exact not_red_eq_black hp
    subst hpcb
    have hm : m = n + 2 := hb rfl
    subst hm
    obtain ⟨hsl, hsr, hslc, hsrc⟩ := hsib.red_inv
    have hcc : cc = black := hsrc
    subst hcc
    obtain ⟨h', heq, hc, hd⟩ := hsr.black_inv
    have hh : n = h' := by omega
    subst hh
    obtain ⟨ha1, hb1⟩ := Bool.and_eq_true_iff.mp hbb
    have hres : rebalanceDeletion t
          (Ctx.right (Tree.node sl se red (Tree.node c ce black d)) pe black up) =
        Ctx.plug up
          (Tree.node sl se black (Tree.node (Tree.node c ce red d) pe black t)) := by
      rw [rebalanceDeletion.eq_def]
      simp [hbb, Tree.paint]
    rw [hres]
    have hinner : Balanced (Tree.node c ce red d) n :=
      Balanced.rnode hc hd (isBlack_iff.mp ha1) (isBlack_iff.mp hb1)
    exact ⟨plug_balanced hup (Balanced.bnode hsl (Balanced.bnode hinner ht))
        (fun _ => rfl),
      plug_colorOf_black rfl (outer_frame_right houter)⟩
  | case12 t pe pc up sl se c ce cc d hnbb =>
    intro n pc0 hctx ht houter
    obtain ⟨-, m, pc', hup, hsib, hb, hrd⟩ := hctx.right_inv
    have hpcb : pc = black := by
      by_cases hp : pc = red
      · obtain ⟨-, -, hcon⟩ := hrd hp
        simp [Tree.colorOf, black, red] at hcon
      · exact not_red_eq_black hp
    subst hpcb
    have hm : m = n + 2 := hb rfl
    subst hm
    obtain ⟨hsl, hsr, hslc, hsrc⟩ := hsib.red_inv
    have hcc : cc = black := hsrc
    subst hcc
    obtain ⟨h', heq, hc, hd⟩ := hsr.black_inv
    have hh : n = h' := by omega
    subst hh
    have hres : rebalanceDeletion t
          (Ctx.right (Tree.node sl se red (Tree.node c ce black d)) pe black up) =
        Ctx.plug up
          (Tree.node sl se black (fixBlackSibling_right t pe red (Tree.node c ce black d))) := by
      rw [rebalanceDeletion.eq_def]
      simp [hnbb]
    rw [hres]
    obtain ⟨hfix, hfixc⟩ := fixBlackSibling_right_balanced pe red ht hc hd
      (by simpa using hnbb)
    rw [if_neg (by simp [black, red])] at hfix
    exact ⟨plug_balanced hup (Balanced.bnode hsl hfix) (fun _ => rfl),
      plug_colorOf_black rfl (outer_frame_right houter)⟩
  | case13 t pe up sl se sc sr hsc hbb =>
    intro n pc0 hctx ht houter
    obtain ⟨-, m, pc', hup, hsib, hb, hrd⟩ := hctx.right_inv
    obtain ⟨hm, hpc', hsibc⟩ := hrd rfl
    subst hm
    have hscb : sc = black := not_red_eq_black hsc
    subst hscb
    obtain ⟨h', heq, hsl, hsr⟩ := hsib.black_inv
    have hh : n = h' := by omega
    subst hh
    obtain ⟨ha1, hb1⟩ := Bool.and_eq_true_iff.mp hbb
    have hres : rebalanceDeletion t
          (Ctx.right (Tree.node sl se black sr) pe red up) =
        Ctx.plug up (Tree.node (Tree.node sl se red sr) pe black t) := by
      rw [rebalanceDeletion.eq_def]
      simp [hsc, hbb, Tree.paint]
    rw [hres]
    have hinner : Balanced (Tree.node sl se red sr) n :=
      Balanced.rnode hsl hsr (isBlack_iff.mp ha1) (isBlack_iff.mp hb1)
    exact ⟨plug_balanced hup (Balanced.bnode hinner ht) (fun _ => rfl),
      plug_colorOf_black rfl (outer_frame_right houter)⟩
  | case14 t pe pc up sl se sc sr hsc hbb hpcnr ih =>
    intro n pc0 hctx ht houter
    obtain ⟨-, m, pc', hup, hsib, hb, hrd⟩ := hctx.right_inv
    have hpcb : pc = black := not_red_eq_black hpcnr
    subst hpcb
    have hm : m = n + 2 := hb rfl
    subst hm
    have hscb : sc = black := not_red_eq_black hsc
    subst hscb
    obtain ⟨h', heq, hsl, hsr⟩ := hsib.black_inv
    have hh : n = h' := by omega
    subst hh
    obtain ⟨ha1, hb1⟩ := Bool.and_eq_true_iff.mp hbb
    have hres : rebalanceDeletion t
          (Ctx.right (Tree.node sl se black sr) pe black up) =
        rebalanceDeletion
          (Tree.node (Tree.node sl se red sr) pe black t) up := by
      rw [rebalanceDeletion.eq_def]
      simp [hsc, hbb, hpcnr, Tree.paint]
    rw [hres]
    have hinner : Balanced (Tree.node sl se red sr) n :=
      Balanced.rnode hsl hsr (isBlack_iff.mp ha1) (isBlack_iff.mp hb1)
    exact ih hup (Balanced.bnode hinner ht) (outer_frame_right houter)
  | case15 t pe pc up sl se sc sr hsc hnbb =>
    intro n pc0 hctx ht houter
    obtain ⟨-, m, pc', hup, hsib, hb, hrd⟩ := hctx.right_inv
    have hscb : sc = black := not_red_eq_black hsc
    subst hscb
    obtain ⟨h', heq, hsl, hsr⟩ := hsib.black_inv
    have hh : n = h' := by omega
    subst hh
    have hres : rebalanceDeletion t
          (Ctx.right (Tree.node sl se black sr) pe pc up) =
        Ctx.plug up (fixBlackSibling_right t pe pc (Tree.node sl se black sr)) := by
      rw [rebalanceDeletion.eq_def]
      simp [hsc, hnbb]
    rw [hres]
    obtain ⟨hfix, hfixc⟩ := fixBlackSibling_right_balanced pe pc ht hsl hsr
      (by simpa using hnbb)
    by_cases hpc : pc = black
    · subst hpc
      rw [if_pos rfl] at hfix
      have hm : m = n + 2 := hb rfl
      subst hm
      refine ⟨plug_balanced hup hfix (fun _ => hfixc), ?_⟩
      exact plug_colorOf_black hfixc (outer_frame_right houter)
    · have hpcr : pc = red := not_black_eq_red hpc
      subst hpcr
      rw [if_neg (by simp [black, red])] at hfix
      obtain ⟨hm, hpc', hsibc⟩ := hrd rfl
      subst hm
      refine ⟨plug_balanced hup hfix ?_, ?_⟩
      · intro hcon
        rw [hpc'] at hcon
        exact absurd hcon (by simp [black, red])
      · rw [plug_colorOf]
        split
        · rename_i hT
          have := outer_frame_right_top houter hT
          simp [black, red] at this
        · exact outer_frame_right houter
  | case16 t pe up =>
    intro n pc0 hctx ht houter
    obtain ⟨-, m, pc', hup, hsib, hb, hrd⟩ := hctx.right_inv
    exact absurd hsib.nil_inv (by omega)
  | case17 t pe pc up hpcnr ih =>
    intro n pc0 hctx ht houter
    obtain ⟨-, m, pc', hup, hsib, hb, hrd⟩ := hctx.right_inv
    exact absurd hsib.nil_inv (by omega)

theorem removeMin_balanced (t : Tree α) (ctx : Ctx α) :
    ∀ {n : Nat} {pc : Bool}, CtxRB ctx n pc → Balanced t n →
      (pc = red → t.colorOf = black) → t ≠ Tree.nil →
      ctx.outerColor = black → (ctx.isTop = true → t.colorOf = black) →
      (∃ m, Balanced (removeMin t ctx) m) ∧ (removeMin t ctx).colorOf = black := by
  induction t, ctx using removeMin.induct with
  | case1 ctx =>
    intro n pc hctx ht hcol hne houter htop
    exact absurd rfl hne
  | case2 e ctx =>
    intro n pc hctx ht hcol hne houter htop
    obtain ⟨h', heq, hl, hr⟩ := ht.black_inv
    have h0 : h' = 0 := hl.nil_inv
    subst h0
    subst heq
    have hres : removeMin (Tree.node Tree.nil e black Tree.nil) ctx =
        rebalanceDeletion Tree.nil ctx := by
      rw [removeMin.eq_def]
      simp
    rw [hres]
    exact rebalanceDeletion_balanced Tree.nil ctx hctx Balanced.nil houter
  | case3 e c ctx hc =>
    intro n pc hctx ht hcol hne houter htop
    have hcr : c = red := not_black_eq_red hc
    subst hcr
    obtain ⟨hl, hr, -, -⟩ := ht.red_inv
    have h0 : n = 0 := hl.nil_inv
    subst h0
    have hres : removeMin (Tree.node Tree.nil e red Tree.nil) ctx =
        Ctx.plug ctx Tree.nil := by
      rw [removeMin.eq_def]
      simp [hc]
    rw [hres]
    exact ⟨plug_balanced hctx Balanced.nil (fun _ => rfl),
      plug_colorOf_black rfl houter⟩
  | case4 e ctx a a1 a2 a3 =>
    intro n pc hctx ht hcol hne houter htop
    obtain ⟨h', heq, hl, hr⟩ := ht.black_inv
    have h0 : h' = 0 := hl.nil_inv
    subst h0
    subst heq
    have hres : removeMin (Tree.node Tree.nil e black (Tree.node a a1 a2 a3)) ctx =
        rebalanceDeletion (Tree.node a a1 a2 a3) ctx := by
      rw [removeMin.eq_def]
      simp
    rw [hres]
    exact rebalanceDeletion_balanced _ ctx hctx hr houter
  | case5 e c ctx a a1 a2 a3 hc =>
    intro n pc hctx ht hcol hne houter htop
    have hcr : c = red := not_black_eq_red hc
    subst hcr
    obtain ⟨hl, hr, -, hrc⟩ := ht.red_inv
    have h0 : n = 0 := hl.nil_inv
    subst h0
    have ha2 : a2 = black := hrc
    subst ha2
    obtain ⟨h'', heq, -, -⟩ := hr.black_inv
    omega
  | case6 ll le lc lr e c r ctx ih =>
    intro n pc hctx ht hcol hne houter htop
    have hres : removeMin (Tree.node (Tree.node ll le lc lr) e c r) ctx =
        removeMin (Tree.node ll le lc lr) (Ctx.left ctx e c r) := by
      rw [removeMin.eq_def]
    rw [hres]
    rcases ht.node_cases with ⟨hc, hl, hr, hlc, hrc⟩ | ⟨hc, h', heq, hl, hr⟩
    · subst hc
      have hpcb : pc = black := by
        by_cases hp : pc = red
        · have := hcol hp
          simp [Tree.colorOf, black, red] at this
        · exact not_red_eq_black hp
      refine @ih n red ?_ hl (fun _ => hlc) (by simp) ?_ (by simp [Ctx.isTop])
      · exact CtxRB.left hctx hr (fun hcon => absurd hcon (by simp [black, red]))
          (fun _ => ⟨rfl, hpcb, hrc⟩)
      · rw [outerColor_left]
        split
        · rename_i hT
          have := htop hT
          simp [Tree.colorOf, black, red] at this
        · exact houter
    · subst hc
      subst heq
      refine @ih h' black ?_ hl ?_ (by simp) ?_ (by simp [Ctx.isTop])
      · exact CtxRB.left hctx hr (fun _ => rfl)
          (fun hcon => absurd hcon (by simp [black, red]))
      · intro hcon
        exact absurd hcon (by simp [black, red])
      · rw [outerColor_left]
        split
        · rfl
        · exact houter

theorem deleteAt_balanced (l : Tree α) (e : α) (c : Bool) (r : Tree α) (ctx : Ctx α)
    {n : Nat} {pc : Bool} (hctx : CtxRB ctx n pc) (ht : Balanced (Tree.node l e c r) n)
    (hcol : pc = red → c = black) (houter : ctx.outerColor = black)
    (htop : ctx.isTop = true → c = black) :
    (∃ m, Balanced (deleteAt l e c r ctx) m) ∧ (deleteAt l e c r ctx).colorOf = black := by
  cases l with
  | nil =>
    cases r with
    | nil =>
      rcases ht.node_cases with ⟨hc, hl, hr, -, -⟩ | ⟨hc, h', heq, hl, hr⟩
      · subst hc
        have h0 : n = 0 := hl.nil_inv
        subst h0
        have hres : deleteAt Tree.nil e red Tree.nil ctx = Ctx.plug ctx Tree.nil := by
          rw [deleteAt.eq_def]
          simp [black, red]
        rw [hres]
        exact ⟨plug_balanced hctx Balanced.nil (fun _ => rfl),
          plug_colorOf_black rfl houter⟩
      · subst hc
        have h0 : h' = 0 := hl.nil_inv
        subst h0
        subst heq
        have hres : deleteAt Tree.nil e black Tree.nil ctx =
            rebalanceDeletion Tree.nil ctx := by
          rw [deleteAt.eq_def]
          simp
        rw [hres]
        exact rebalanceDeletion_balanced Tree.nil ctx hctx Balanced.nil houter
    | node rl re rc rr =>
      rcases ht.node_cases with ⟨hc, hl, hr, -, hrc⟩ | ⟨hc, h', heq, hl, hr⟩
      · subst hc
        have h0 : n = 0 := hl.nil_inv
        subst h0
        have hrcb : rc = black := hrc
        subst hrcb
        obtain ⟨h'', heq, -, -⟩ := hr.black_inv
        omega
      · subst hc
        have h0 : h' = 0 := hl.nil_inv
        subst h0
        subst heq
        have hres : deleteAt Tree.nil e black (Tree.node rl re rc rr) ctx =
            rebalanceDeletion (Tree.node rl re rc rr) ctx := by
          rw [deleteAt.eq_def]
          simp
        rw [hres]
        exact rebalanceDeletion_balanced _ ctx hctx hr houter
  | node ll le lc lr =>
    cases r with
    | nil =>
      rcases ht.node_cases with ⟨hc, hl, hr, hlc, -⟩ | ⟨hc, h', heq, hl, hr⟩
      · subst hc
        have h0 : n = 0 := hr.nil_inv
        subst h0
        have hlcb : lc = black := hlc
        subst hlcb
        obtain ⟨h'', heq, -, -⟩ := hl.black_inv
        omega
      · subst hc
        have h0 : h' = 0 := hr.nil_inv
        subst h0
        subst heq
        have hres : deleteAt (Tree.node ll le lc lr) e black Tree.nil ctx =
            rebalanceDeletion (Tree.node ll le lc lr) ctx := by
          rw [deleteAt.eq_def]
          simp
        rw [hres]
        exact rebalanceDeletion_balanced _ ctx hctx hl houter
    | node rl re rc rr =>
      have hres : deleteAt (Tree.node ll le lc lr) e c (Tree.node rl re rc rr) ctx =
          removeMin (Tree.node rl re rc rr)
            (Ctx.right (Tree.node ll le lc lr) (minEltD (Tree.node rl re rc rr) e) c ctx) := by
        rw [deleteAt.eq_def]
      rw [hres]
      rcases ht.node_cases with ⟨hc, hl, hr, hlc, hrc⟩ | ⟨hc, h', heq, hl, hr⟩
      · subst hc
        have hpcb : pc = black := by
          by_cases hp : pc = red
          · have := hcol hp
            simp [black, red] at this
          · exact not_red_eq_black hp
        refine @removeMin_balanced α _ _ n red ?_ hr (fun _ => hrc) (by simp) ?_ (by simp [Ctx.isTop])
        · exact CtxRB.right hctx hl (fun hcon => absurd hcon (by simp [black, red]))
            (fun _ => ⟨rfl, hpcb, hlc⟩)
        · rw [outerColor_right]
          split
          · rename_i hT
            have := htop hT
            simp [black, red] at this
          · exact houter
      · subst hc
        subst heq
        refine @removeMin_balanced α _ _ h' black ?_ hr ?_ (by simp) ?_ (by simp [Ctx.isTop])
        · exact CtxRB.right hctx hl (fun _ => rfl)
            (fun hcon => absurd hcon (by simp [black, red]))
        · intro hcon
          exact absurd hcon (by simp [black, red])
        · rw [outerColor_right]
          split
          · rfl
          · exact houter

theorem deleteGo_balanced {cmp : α → α → Int} (x : α) (t : Tree α) :
    ∀ (ctx : Ctx α) {n : Nat} {pc : Bool} (res : Tree α),
      CtxRB ctx n pc → Balanced t n → (pc = red → t.colorOf = black) →
      ctx.outerColor = black → (ctx.isTop = true → t.colorOf = black) →
      deleteGo cmp x t ctx = some res →
      (∃ m, Balanced res m) ∧ res.colorOf = black := by
  induction t with
  | nil =>
    intro ctx n pc res hctx ht hcol houter htop hres
    exact absurd hres (by simp [deleteGo])
  | node l e c r ihl ihr =>
    intro ctx n pc res hctx ht hcol houter htop hres
    simp only [deleteGo] at hres
    rcases lt_trichotomy (cmp e x) 0 with h1 | h1 | h1
    · rw [if_pos h1] at hres
      rcases ht.node_cases with ⟨hc, hl, hr, hlc, hrc⟩ | ⟨hc, h', heq, hl, hr⟩
      · subst hc
        have hpcb : pc = black := by
          by_cases hp : pc = red
          · have := hcol hp
            simp [Tree.colorOf, black, red] at this
          · exact not_red_eq_black hp
        refine @ihr (Ctx.right l e red ctx) n red res ?_ hr (fun _ => hrc) ?_
          (by simp [Ctx.isTop]) hres
        · exact CtxRB.right hctx hl (fun hcon => absurd hcon (by simp [black, red]))
            (fun _ => ⟨rfl, hpcb, hlc⟩)
        · rw [outerColor_right]
          split
          · rename_i hT
            have := htop hT
            simp [Tree.colorOf, black, red] at this
          · exact houter
      · subst hc
        subst heq
        refine @ihr (Ctx.right l e black ctx) h' black res ?_ hr ?_ ?_
          (by simp [Ctx.isTop]) hres
        · exact CtxRB.right hctx hl (fun _ => rfl)
            (fun hcon => absurd hcon (by simp [black, red]))
        · intro hcon
          exact absurd hcon (by simp [black, red])
        · rw [outerColor_right]
          split
          · rfl
          · exact houter
    · rw [if_neg (by omega), if_neg (by omega)] at hres
      simp only [Option.some.injEq] at hres
      subst hres
      refine deleteAt_balanced l e c r ctx hctx ht ?_ houter ?_
      · intro hp
        have := hcol hp
        exact this
      · intro hT
        exact htop hT
    · rw [if_neg (by omega), if_pos h1] at hres
      rcases ht.node_cases with ⟨hc, hl, hr, hlc, hrc⟩ | ⟨hc, h', heq, hl, hr⟩
      · subst hc
        have hpcb : pc = black := by
          by_cases hp : pc = red
          · have := hcol hp
            simp [Tree.colorOf, black, red] at this
          · exact not_red_eq_black hp
        refine @ihl (Ctx.left ctx e red r) n red res ?_ hl (fun _ => hlc) ?_
          (by simp [Ctx.isTop]) hres
        · exact CtxRB.left hctx hr (fun hcon => absurd hcon (by simp [black, red]))
            (fun _ => ⟨rfl, hpcb, hrc⟩)
        · rw [outerColor_left]
          split
          · rename_i hT
            have := htop hT
            simp [Tree.colorOf, black, red] at this
          · exact houter
      · subst hc
        subst heq
        refine @ihl (Ctx.left ctx e black r) h' black res ?_ hl ?_ ?_
          (by simp [Ctx.isTop]) hres
        · exact CtxRB.left hctx hr (fun _ => rfl)
            (fun hcon => absurd hcon (by simp [black, red]))
        · intro hcon
          exact absurd hcon (by simp [black, red])
        · rw [outerColor_left]
          split
          · rfl
          · exact houter

theorem Remove_RBInv {cmp : α → α → Int} (s : TreeSet α) (x : α) (hrb : RBInv s) :
    RBInv (Remove cmp s x).1 := by
  obtain ⟨⟨h, hbal⟩, hcol⟩ := hrb
  cases hres : deleteGo cmp x s.root Ctx.top with
  | none =>
    rw [Remove, hres]
    exact ⟨⟨h, hbal⟩, hcol⟩
  | some res =>
    have hmain := deleteGo_balanced x s.root Ctx.top res (CtxRB.top h) hbal
      (fun hcon => absurd hcon (by simp [black, red])) (by simp [Ctx.outerColor])
      (fun _ => hcol) hres
    rw [Remove, hres]
    exact hmain

/-! ## The integer comparator `Cmp` is a total order -/

theorem lawful_Cmp : LawfulCmp Cmp := by
  constructor
  · intro x y
    unfold Cmp
    constructor
    · intro h
      split_ifs at h <;> omega
    · intro h
      subst h
      simp
  · intro x y
    unfold Cmp
    split_ifs <;> omega
  · intro x y z
    unfold Cmp
    split_ifs <;> omega

theorem Inv_new {cmp : α → α → Int} : WF cmp (NewTreeSet α) ∧ RBInv (NewTreeSet α) := by
  refine ⟨⟨?_, ?_⟩, ⟨0, Balanced.nil⟩, rfl⟩
  · exact List.Pairwise.nil
  · simp [NewTreeSet, Slice, Tree.inorder]

theorem Inv_applyOps {cmp : α → α → Int} (L : LawfulCmp cmp) (ops : List (Op α)) :
    WF cmp (applyOps cmp ops) ∧ RBInv (applyOps cmp ops) := by
  rw [applyOps]
  have main : ∀ (l : List (Op α)) (s : TreeSet α), WF cmp s ∧ RBInv s →
      WF cmp (l.foldl (applyOp cmp) s) ∧ RBInv (l.foldl (applyOp cmp) s) := by
    intro l
    induction l with
    | nil =>
      intro s h
      exact h
    | cons op l ih =>
      intro s h
      rw [List.foldl_cons]
      refine ih _ ?_
      cases op with
      | ins x => exact ⟨WF_insert L x h.1, Insert_RBInv _ x h.2⟩
      | rem x => exact ⟨WF_remove L x h.1, Remove_RBInv _ x h.2⟩
  exact main ops (NewTreeSet α) Inv_new

/-- C1: for every sequence of `Insert`/`Remove` operations applied to a set
freshly constructed with a total-order comparator, after each completed
operation (hence after any prefix, i.e. for every operation sequence) the
in-order traversal is strictly increasing under the comparator, the stored
`size` equals the number of elements reachable from the root, and the
red-black invariants 1–5 hold: a valid coloring with consistent black
heights (`Balanced`) and a black root. -/
theorem claim_C1 {cmp : α → α → Int} (L : LawfulCmp cmp) (ops : List (Op α)) :
    StrictSorted cmp (Slice (applyOps cmp ops)) ∧
      (applyOps cmp ops).size = ((Slice (applyOps cmp ops)).length : Int) ∧
      (∃ h, Balanced (applyOps cmp ops).root h) ∧
      (applyOps cmp ops).root.colorOf = black := by
  obtain ⟨⟨h1, h2⟩, ⟨h3, h4⟩⟩ := Inv_applyOps L ops
  exact ⟨h1, h2, h3, h4⟩

/-- Witness for C1 at a concrete interleaving of inserts and removes. -/
theorem claim_C1_witness :
    StrictSorted Cmp (Slice (applyOps Cmp
        [Op.ins 4, Op.ins 7, Op.ins 1, Op.rem 4, Op.ins 2, Op.ins 9, Op.rem 7])) ∧
      (applyOps Cmp
        [Op.ins 4, Op.ins 7, Op.ins 1, Op.rem 4, Op.ins 2, Op.ins 9, Op.rem 7]).size =
        ((Slice (applyOps Cmp
        [Op.ins 4, Op.ins 7, Op.ins 1, Op.rem 4, Op.ins 2, Op.ins 9, Op.rem 7])).length : Int) ∧
      (∃ h, Balanced (applyOps Cmp
        [Op.ins 4, Op.ins 7, Op.ins 1, Op.rem 4, Op.ins 2, Op.ins 9, Op.rem 7]).root h) ∧
      (applyOps Cmp
        [Op.ins 4, Op.ins 7, Op.ins 1, Op.rem 4, Op.ins 2, Op.ins 9, Op.rem 7]).root.colorOf
        = black :=
  claim_C1 lawful_Cmp _

/-! ## C2: Insert/Remove report modification; no error signalling -/

theorem exists_cmp_eq_iff_mem {cmp : α → α → Int} (L : LawfulCmp cmp)
    (l : List α) (x : α) : (∃ y ∈ l, cmp y x = 0) ↔ x ∈ l := by
  constructor
  · rintro ⟨y, hy, hyx⟩
    rwa [(L.eq_iff y x).mp hyx] at hy
  · intro hx
    exact ⟨x, hx, L.cmp_self x⟩

theorem exists_cmp_eq_iff_mem' {cmp : α → α → Int} (L : LawfulCmp cmp)
    (l : List α) (x : α) : (∃ y ∈ l, cmp x y = 0) ↔ x ∈ l := by
  constructor
  · rintro ⟨y, hy, hxy⟩
    rwa [← (L.eq_iff x y).mp hxy] at hy
  · intro hx
    exact ⟨x, hx, L.cmp_self x⟩

/-- C2: `Insert(v)` returns true, increments `Size` by one and makes
`Contains(v)` true exactly when no element of the set compared equal to `v`
before the call; otherwise it returns false with the set unchanged.
Symmetrically `Remove(v)` returns true, decrements `Size` by one and makes
`Contains(v)` false exactly when some element compared equal to `v`;
otherwise it returns false with the set unchanged.  Both operations are
total functions returning a boolean — the already-present / not-present
cases are ordinary results, not errors. -/
theorem claim_C2 {cmp : α → α → Int} (L : LawfulCmp cmp) (s : TreeSet α) (x : α)
    (hwf : WF cmp s) :
    ((Insert cmp s x).2 = true ↔ ¬∃ y ∈ Slice s, cmp y x = 0) ∧
      ((∃ y ∈ Slice s, cmp y x = 0) → Insert cmp s x = (s, false)) ∧
      ((Insert cmp s x).2 = true →
        (Insert cmp s x).1.size = s.size + 1 ∧
          Contains cmp (Insert cmp s x).1 x = true) ∧
      ((Remove cmp s x).2 = true ↔ ∃ y ∈ Slice s, cmp y x = 0) ∧
      ((¬∃ y ∈ Slice s, cmp y x = 0) → Remove cmp s x = (s, false)) ∧
      ((Remove cmp s x).2 = true →
        (Remove cmp s x).1.size = s.size - 1 ∧
          Contains cmp (Remove cmp s x).1 x = false) := by
  by_cases hex : ∃ y ∈ Slice s, cmp y x = 0
  · have hex' : ∃ y ∈ Slice s, cmp x y = 0 := by
      rw [exists_cmp_eq_iff_mem' L]
      exact (exists_cmp_eq_iff_mem L _ _).mp hex
    have hins := Insert_found L s x hwf.1 hex'
    obtain ⟨hr1, hr2, hr3⟩ := Remove_found L s x hwf.1 hex
    refine ⟨?_, fun _ => hins, ?_, ?_, ?_, ?_⟩
    · rw [hins]
      simp [hex]
    · intro hmod
      rw [hins] at hmod
      simp at hmod
    · simp [hr1, hex]
    · intro hcon
      exact absurd hex hcon
    · intro _
      refine ⟨hr3, ?_⟩
      rw [Contains]
      have hsorted : StrictSorted cmp (Slice (Remove cmp s x).1) := by
        rw [hr2]
        exact StrictSorted.lerase_sorted hwf.1
      have hnomem : ¬∃ y ∈ Slice (Remove cmp s x).1, cmp y x = 0 := by
        rw [hr2]
        rintro ⟨y, hy, hyx⟩
        exact StrictSorted.lerase_not_mem L hwf.1 y hy hyx
      rw [Slice] at hsorted hnomem
      cases hloc : (locate cmp (Remove cmp s x).1.root x).isSome
      · rfl
      · rw [locate_isSome_iff L x _ hsorted] at hloc
        exact absurd hloc hnomem
  · have hne : ∀ y ∈ Slice s, cmp x y ≠ 0 := by
      intro y hy hxy
      exact hex ⟨y, hy, (L.eq_iff y x).mpr ((L.eq_iff x y).mp hxy).symm⟩
    obtain ⟨hi1, hi2, hi3⟩ := Insert_new L s x hwf.1 hne
    have hrem := Remove_not_found L s x hwf.1 (by
      intro y hy hyx
      exact hex ⟨y, hy, hyx⟩)
    refine ⟨?_, ?_, ?_, ?_, fun _ => hrem, ?_⟩
    · simp [hi1, hex]
    · intro hcon
      exact absurd hcon hex
    · intro _
      refine ⟨hi3, ?_⟩
      rw [Contains]
      have hsorted : StrictSorted cmp (Slice (Insert cmp s x).1) := by
        rw [hi2]
        exact StrictSorted.linsert_sorted L hwf.1 hne
      have hmem : ∃ y ∈ Slice (Insert cmp s x).1, cmp y x = 0 := by
        rw [hi2]
        exact ⟨x, (mem_linsert cmp x _ x).mpr (Or.inl rfl), L.cmp_self x⟩
      rw [Slice] at hsorted hmem
      rw [← locate_isSome_iff L x _ hsorted] at hmem
      exact hmem
    · rw [hrem]
      simp [hex]
    · intro hmod
      rw [hrem] at hmod
      simp at hmod

/-- Witness for C2 on a concrete set. -/
theorem claim_C2_witness :
    WF Cmp (TreeSetFrom Cmp [2, 4, 6]) ∧
      (((Insert Cmp (TreeSetFrom Cmp [2, 4, 6]) 3).2 = true ↔
          ¬∃ y ∈ Slice (TreeSetFrom Cmp [2, 4, 6]), Cmp y 3 = 0) ∧
        ((∃ y ∈ Slice (TreeSetFrom Cmp [2, 4, 6]), Cmp y 3 = 0) →
          Insert Cmp (TreeSetFrom Cmp [2, 4, 6]) 3 = (TreeSetFrom Cmp [2, 4, 6], false)) ∧
        ((Insert Cmp (TreeSetFrom Cmp [2, 4, 6]) 3).2 = true →
          (Insert Cmp (TreeSetFrom Cmp [2, 4, 6]) 3).1.size =
              (TreeSetFrom Cmp [2, 4, 6]).size + 1 ∧
            Contains Cmp (Insert Cmp (TreeSetFrom Cmp [2, 4, 6]) 3).1 3 = true) ∧
        ((Remove Cmp (TreeSetFrom Cmp [2, 4, 6]) 3).2 = true ↔
          ∃ y ∈ Slice (TreeSetFrom Cmp [2, 4, 6]), Cmp y 3 = 0) ∧
        ((¬∃ y ∈ Slice (TreeSetFrom Cmp [2, 4, 6]), Cmp y 3 = 0) →
          Remove Cmp (TreeSetFrom Cmp [2, 4, 6]) 3 = (TreeSetFrom Cmp [2, 4, 6], false)) ∧
        ((Remove Cmp (TreeSetFrom Cmp [2, 4, 6]) 3).2 = true →
          (Remove Cmp (TreeSetFrom Cmp [2, 4, 6]) 3).1.size =
              (TreeSetFrom Cmp [2, 4, 6]).size - 1 ∧
            Contains Cmp (Remove Cmp (TreeSetFrom Cmp [2, 4, 6]) 3).1 3 = false)) :=
  ⟨⟨by decide, by decide⟩, claim_C2 lawful_Cmp (TreeSetFrom Cmp [2, 4, 6]) 3 ⟨by decide, by decide⟩⟩

/-! ## C5: `Min`/`Max` -/

theorem inorder_eq_nil_iff (t : Tree α) : t.inorder = [] ↔ t = Tree.nil := by
  cases t <;> simp [Tree.inorder]

theorem maxEltD_concat (t : Tree α) (d : α) (h : t ≠ Tree.nil) :
    ∃ I, t.inorder = I ++ [maxEltD t d] := by
  induction t generalizing d with
  | nil => exact absurd rfl h
  | node l e c r ihl ihr =>
    cases r with
    | nil =>
      refine ⟨l.inorder, ?_⟩
      simp [Tree.inorder, maxEltD]
    | node rl re rc rr =>
      obtain ⟨I, hI⟩ := ihr e (by simp)
      refine ⟨l.inorder ++ e :: I, ?_⟩
      rw [Tree.inorder, hI]
      have hmx : maxEltD (Tree.node l e c (Tree.node rl re rc rr)) d =
          maxEltD (Tree.node rl re rc rr) e := rfl
      rw [hmx]
      simp

/-- C5: `Min()` on an empty set is the distinct "empty collection" failure
(the `panic("min: tree is empty")`, modelled as `none`) — never a silently
returned default value; on a non-empty set it returns the unique minimum
under the comparator.  `Max()` fails on the empty set and returns the unique
maximum on a non-empty set. -/
theorem claim_C5 {cmp : α → α → Int} (s : TreeSet α) (hwf : WF cmp s) :
    (s.size = 0 → Min s = none ∧ Max s = none) ∧
      (s.size ≠ 0 →
        (∃ m, Min s = some m ∧ m ∈ Slice s ∧ ∀ y ∈ Slice s, y ≠ m → cmp m y < 0) ∧
          (∃ m, Max s = some m ∧ m ∈ Slice s ∧ ∀ y ∈ Slice s, y ≠ m → cmp y m < 0)) := by
  constructor
  · intro h0
    have hlen : (Slice s).length = 0 := by
      have := hwf.2
      omega
    have hnil : s.root = Tree.nil := by
      rw [← inorder_eq_nil_iff, ← Slice, ← List.length_eq_zero]
      exact hlen
    rw [Min, Max, hnil]
    exact ⟨rfl, rfl⟩
  · intro hne
    cases hroot : s.root with
    | nil =>
      exfalso
      have hsl : Slice s = [] := by
        rw [Slice, hroot, Tree.inorder]
      have h2 := hwf.2
      rw [hsl] at h2
      simp at h2
      exact hne h2
    | node l e c r =>
      constructor
      · refine ⟨minEltD l e, ?_, ?_, ?_⟩
        · rw [Min, hroot]
        · have hdec := minEltD_cons_tail (Tree.node l e c r) e (by simp)
          rw [Slice, hroot, hdec]
          exact List.mem_cons_self _ _
        · have hdec := minEltD_cons_tail (Tree.node l e c r) e (by simp)
          have hsorted := hwf.1
          rw [Slice, hroot] at hsorted ⊢
          rw [hdec] at hsorted ⊢
          rw [StrictSorted, List.pairwise_cons] at hsorted
          intro y hy hne2
          rcases List.mem_cons.mp hy with rfl | hy
          · exact absurd rfl hne2
          · exact hsorted.1 y hy
      · obtain ⟨I, hI⟩ := maxEltD_concat (Tree.node l e c r) e (by simp)
        refine ⟨maxEltD r e, ?_, ?_, ?_⟩
        · rw [Max, hroot]
        · rw [Slice, hroot, hI]
          simp [maxEltD]
        · have hsorted := hwf.1
          rw [Slice, hroot] at hsorted ⊢
          rw [hI] at hsorted ⊢
          rw [StrictSorted, List.pairwise_append] at hsorted
          intro y hy hne2
          rcases List.mem_append.mp hy with hy | hy
          · have := hsorted.2.2 y hy (maxEltD (Tree.node l e c r) e) (by simp)
            rw [maxEltD] at this
            exact this
          · rw [List.mem_singleton] at hy
            rw [maxEltD] at hy
            exact absurd hy hne2

/-- Witness for C5 on the spec's concrete example. -/
theorem claim_C5_witness :
    WF Cmp (TreeSetFrom Cmp [4, 7, 1, 5, 2, 8, 9, 3]) ∧
      (((TreeSetFrom Cmp [4, 7, 1, 5, 2, 8, 9, 3]).size = 0 →
          Min (TreeSetFrom Cmp [4, 7, 1, 5, 2, 8, 9, 3]) = none ∧
            Max (TreeSetFrom Cmp [4, 7, 1, 5, 2, 8, 9, 3]) = none) ∧
        ((TreeSetFrom Cmp [4, 7, 1, 5, 2, 8, 9, 3]).size ≠ 0 →
          (∃ m, Min (TreeSetFrom Cmp [4, 7, 1, 5, 2, 8, 9, 3]) = some m ∧
              m ∈ Slice (TreeSetFrom Cmp [4, 7, 1, 5, 2, 8, 9, 3]) ∧
              ∀ y ∈ Slice (TreeSetFrom Cmp [4, 7, 1, 5, 2, 8, 9, 3]), y ≠ m → Cmp m y < 0) ∧
            (∃ m, Max (TreeSetFrom Cmp [4, 7, 1, 5, 2, 8, 9, 3]) = some m ∧
              m ∈ Slice (TreeSetFrom Cmp [4, 7, 1, 5, 2, 8, 9, 3]) ∧
              ∀ y ∈ Slice (TreeSetFrom Cmp [4, 7, 1, 5, 2, 8, 9, 3]), y ≠ m → Cmp y m < 0))) ∧
      Min (TreeSetFrom Cmp [4, 7, 1, 5, 2, 8, 9, 3]) = some 1 ∧
      Max (TreeSetFrom Cmp [4, 7, 1, 5, 2, 8, 9, 3]) = some 9 ∧
      Slice (TreeSetFrom Cmp [4, 7, 1, 5, 2, 8, 9, 3]) = [1, 2, 3, 4, 5, 7, 8, 9] :=
  ⟨⟨by decide, by decide⟩,
    claim_C5 (TreeSetFrom Cmp [4, 7, 1, 5, 2, 8, 9, 3]) ⟨by decide, by decide⟩,
    by decide, by decide, by decide⟩

/-! ## C7 / C10: `TopK` / `BottomK` -/

theorem fillLeft_eq (t : Tree α) (cap : Nat) (k : List α) :
    fillLeft t cap k = k ++ t.inorder.take (cap - k.length) := by
  induction t generalizing k with
  | nil => simp [fillLeft, Tree.inorder]
  | node l e c r ihl ihr =>
    rw [fillLeft, Tree.inorder, List.take_append_eq_append_take]
    by_cases h1 : k.length < cap
    · rw [if_pos h1, ihl]
      by_cases hA : l.inorder.length < cap - k.length
      · have htakeA : l.inorder.take (cap - k.length) = l.inorder :=
          List.take_of_length_le (by omega)
        rw [htakeA]
        have hcons : (e :: r.inorder).take (cap - k.length - l.inorder.length) =
            e :: r.inorder.take (cap - k.length - l.inorder.length - 1) := by
          have heq : cap - k.length - l.inorder.length =
              (cap - k.length - l.inorder.length - 1) + 1 := by omega
          rw [heq, List.take_succ_cons]
          have heq2 : cap - k.length - l.inorder.length - 1 + 1 - 1 =
              cap - k.length - l.inorder.length - 1 := by omega
          rw [heq2]
        rw [hcons]
        have h2 : (k ++ l.inorder).length < cap := by
          simp
          omega
        rw [if_pos h2, ihr]
        by_cases h3 : (k ++ l.inorder ++ [e]).length < cap
        · rw [if_pos h3]
          have harith : cap - (k ++ l.inorder ++ [e]).length =
              cap - k.length - l.inorder.length - 1 := by
            simp
            omega
          rw [harith]
          simp
        · rw [if_neg h3]
          have harith : cap - k.length - l.inorder.length - 1 = 0 := by
            simp at h3
            omega
          rw [harith]
          simp
      · have hlen1 : (k ++ l.inorder.take (cap - k.length)).length = cap := by
          rw [List.length_append, List.length_take]
          omega
        simp only [hlen1, lt_self_iff_false, if_false]
        have harith : cap - k.length - l.inorder.length = 0 := by omega
        rw [harith]
        simp
    · rw [if_neg h1, if_neg h1, if_neg h1]
      have h0 : cap - k.length = 0 := by omega
      rw [h0]
      simp

/-- Mirror image of a tree (proof auxiliary for the `fillRight` traversal). -/
def mirror : Tree α → Tree α
  | Tree.nil => Tree.nil
  | Tree.node l e c r => Tree.node (mirror r) e c (mirror l)

theorem inorder_mirror (t : Tree α) : (mirror t).inorder = t.inorder.reverse := by
  induction t with
  | nil => simp [mirror, Tree.inorder]
  | node l e c r ihl ihr =>
    simp [mirror, Tree.inorder, ihl, ihr]

theorem fillRight_mirror (t : Tree α) (cap : Nat) (k : List α) :
    fillRight t cap k = fillLeft (mirror t) cap k := by
  induction t generalizing k with
  | nil => simp [fillRight, fillLeft, mirror]
  | node l e c r ihl ihr =>
    rw [fillRight, mirror, fillLeft, ihr, ihl]

theorem fillRight_eq (t : Tree α) (cap : Nat) (k : List α) :
    fillRight t cap k = k ++ t.inorder.reverse.take (cap - k.length) := by
  rw [fillRight_mirror, fillLeft_eq, inorder_mirror]
/-- C7: for every set and every `k ≥ 0`, `TopK(k)` returns the
`min(k, Size())` smallest elements in ascending order — the length-`min`
prefix of the sorted element sequence, itself strictly sorted, with every
returned element strictly below every element left out — and `BottomK(k)`
returns the `min(k, Size())` largest elements in descending order; the empty
set and `k = 0` both yield an empty result. -/
theorem claim_C7 {cmp : α → α → Int} (s : TreeSet α) (hwf : WF cmp s)
    (k : Int) (hk : 0 ≤ k) :
    TopK s k = some ((Slice s).take k.toNat) ∧
      BottomK s k = some ((Slice s).reverse.take k.toNat) ∧
      (((Slice s).take k.toNat).length : Int) = min k (Size s) ∧
      (((Slice s).reverse.take k.toNat).length : Int) = min k (Size s) ∧
      StrictSorted cmp ((Slice s).take k.toNat) ∧
      ((Slice s).reverse.take k.toNat).Pairwise (fun a b => cmp b a < 0) ∧
      (∀ x ∈ (Slice s).take k.toNat, ∀ y ∈ (Slice s).drop k.toNat, cmp x y < 0) ∧
      ((k = 0 ∨ s.size = 0) → TopK s k = some [] ∧ BottomK s k = some []) := by
  have htop : TopK s k = some ((Slice s).take k.toNat) := by
    rw [TopK, if_neg (by omega), fillLeft_eq]
    simp [Slice]
  have hbot : BottomK s k = some ((Slice s).reverse.take k.toNat) := by
    rw [BottomK, if_neg (by omega), fillRight_eq]
    simp [Slice]
  have hsplit : Slice s = (Slice s).take k.toNat ++ (Slice s).drop k.toNat :=
    (List.take_append_drop _ _).symm
  have hsorted := hwf.1
  rw [StrictSorted] at hsorted
  rw [hsplit, List.pairwise_append] at hsorted
  refine ⟨htop, hbot, ?_, ?_, hsorted.1, ?_, hsorted.2.2, ?_⟩
  · rw [List.length_take]
    have := hwf.2
    rw [Size]
    omega
  · rw [List.length_take, List.length_reverse]
    have := hwf.2
    rw [Size]
    omega
  · exact List.Pairwise.take (List.pairwise_reverse.mpr hwf.1)
  · intro h0
    have hempty : (Slice s).take k.toNat = [] := by
      rcases h0 with h0 | h0
      · rw [h0]
        simp
      · have : (Slice s).length = 0 := by
          have := hwf.2
          omega
        rw [List.length_eq_zero] at this
        rw [this]
        simp
    have hempty2 : (Slice s).reverse.take k.toNat = [] := by
      rcases h0 with h0 | h0
      · rw [h0]
        simp
      · have : (Slice s).length = 0 := by
          have := hwf.2
          omega
        rw [List.length_eq_zero] at this
        rw [this]
        simp
    rw [htop, hbot, hempty, hempty2]
    exact ⟨rfl, rfl⟩

/-- Witness for C7 on the spec's concrete example `{3,9,1,7,5}`, `k = 3`. -/
theorem claim_C7_witness :
    WF Cmp (TreeSetFrom Cmp [3, 9, 1, 7, 5]) ∧ (0 : Int) ≤ 3 ∧
      TopK (TreeSetFrom Cmp [3, 9, 1, 7, 5]) 3 = some [1, 3, 5] ∧
      BottomK (TreeSetFrom Cmp [3, 9, 1, 7, 5]) 3 = some [9, 7, 5] ∧
      TopK (TreeSetFrom Cmp [3, 9, 1, 7, 5]) 3 =
        some ((Slice (TreeSetFrom Cmp [3, 9, 1, 7, 5])).take (3 : Int).toNat) :=
  ⟨⟨by decide, by decide⟩, by decide, by decide, by decide,
    (@claim_C7 Int Cmp (TreeSetFrom Cmp [3, 9, 1, 7, 5]) ⟨by decide, by decide⟩ 3
      (by decide)).1⟩

/-- C10: `TopK`/`BottomK` return normally with `min(k, Size())` elements for
every `k ≥ 0`, but for every `k < 0` both fail with a runtime panic
(`make([]T, 0, n)` with a negative capacity, modelled as `none`) instead of
returning an empty result. -/
theorem claim_C10 {cmp : α → α → Int} (s : TreeSet α) (hwf : WF cmp s) (k : Int) :
    (k < 0 → TopK s k = none ∧ BottomK s k = none) ∧
      (0 ≤ k →
        (∃ l, TopK s k = some l ∧ (l.length : Int) = min k (Size s)) ∧
          (∃ l, BottomK s k = some l ∧ (l.length : Int) = min k (Size s))) := by
  constructor
  · intro hneg
    rw [TopK, BottomK, if_pos hneg, if_pos hneg]
    exact ⟨rfl, rfl⟩
  · intro hk
    obtain ⟨h1, h2, h3, h4, -⟩ := claim_C7 s hwf k hk
    exact ⟨⟨_, h1, h3⟩, ⟨_, h2, h4⟩⟩

/-- Witness for C10: `k = -1` panics, `k = 2` returns two elements. -/
theorem claim_C10_witness :
    WF Cmp (TreeSetFrom Cmp [3, 9, 1, 7, 5]) ∧
      ((-1 : Int) < 0 → TopK (TreeSetFrom Cmp [3, 9, 1, 7, 5]) (-1) = none ∧
        BottomK (TreeSetFrom Cmp [3, 9, 1, 7, 5]) (-1) = none) ∧
      ((0 : Int) ≤ 2 →
        (∃ l, TopK (TreeSetFrom Cmp [3, 9, 1, 7, 5]) 2 = some l ∧
          (l.length : Int) = min 2 (Size (TreeSetFrom Cmp [3, 9, 1, 7, 5]))) ∧
          (∃ l, BottomK (TreeSetFrom Cmp [3, 9, 1, 7, 5]) 2 = some l ∧
            (l.length : Int) = min 2 (Size (TreeSetFrom Cmp [3, 9, 1, 7, 5])))) :=
  ⟨⟨by decide, by decide⟩,
    (@claim_C10 Int Cmp (TreeSetFrom Cmp [3, 9, 1, 7, 5]) ⟨by decide, by decide⟩ (-1)).1,
    (@claim_C10 Int Cmp (TreeSetFrom Cmp [3, 9, 1, 7, 5]) ⟨by decide, by decide⟩ 2).2⟩

/-! ## C6: `FirstAbove` / `FirstAboveEqual` / `FirstBelow` / `FirstBelowEqual` -/

theorem find?_split {p : α → Bool} {l : List α} {e : α} (h : l.find? p = some e) :
    ∃ A B, l = A ++ e :: B ∧ ∀ a ∈ A, p a = false := by
  induction l with
  | nil => simp at h
  | cons z zs ih =>
    cases hz : p z with
    | true =>
      rw [List.find?_cons_of_pos _ hz] at h
      obtain rfl : z = e := by simpa using h
      exact ⟨[], zs, rfl, by simp⟩
    | false =>
      rw [List.find?_cons_of_neg _ (by simp [hz])] at h
      obtain ⟨A, B, hAB, hA⟩ := ih h
      refine ⟨z :: A, B, by simp [hAB], ?_⟩
      intro a ha
      rcases List.mem_cons.mp ha with rfl | ha
      · exact hz
      · exact hA a ha

theorem firstAboveLoop_eq {cmp : α → α → Int} (L : LawfulCmp cmp) (item : α) (t : Tree α) :
    ∀ (cand : Option α), StrictSorted cmp t.inorder →
      firstAboveLoop cmp item cand t =
        (t.inorder.find? (fun y => decide (cmp item y < 0))).or cand := by
  induction t with
  | nil =>
    intro cand hs
    simp [firstAboveLoop, Tree.inorder]
  | node l e c r ihl ihr =>
    intro cand hs
    rw [Tree.inorder] at hs
    obtain ⟨hA, hB, hAe, heB, hAB⟩ := StrictSorted.node_destruct hs
    by_cases h1 : cmp item e < 0
    · have hstep : firstAboveLoop cmp item cand (Tree.node l e c r) =
          firstAboveLoop cmp item (some e) l := by
        rw [firstAboveLoop.eq_def]
        simp [h1]
      rw [hstep, ihl (some e) hA, Tree.inorder, List.find?_append,
        List.find?_cons_of_pos _ (by simp [h1])]
      cases hfa : l.inorder.find? (fun y => decide (cmp item y < 0)) <;> simp
    · have hstep : firstAboveLoop cmp item cand (Tree.node l e c r) =
          firstAboveLoop cmp item cand r := by
        rw [firstAboveLoop.eq_def]
        simp [h1]
      rw [hstep, ihr cand hB, Tree.inorder, List.find?_append,
        List.find?_cons_of_neg _ (by simp [h1])]
      have hfA : l.inorder.find? (fun y => decide (cmp item y < 0)) = none := by
        rw [List.find?_eq_none]
        intro a ha
        simp only [decide_eq_true_eq]
        intro hlt
        exact h1 (L.lt_trans item a e hlt (hAe a ha))
      rw [hfA]
      simp

theorem firstAboveEqualLoop_eq {cmp : α → α → Int} (L : LawfulCmp cmp) (item : α)
    (t : Tree α) :
    ∀ (cand : Option α), StrictSorted cmp t.inorder →
      firstAboveEqualLoop cmp item cand t =
        (t.inorder.find? (fun y => decide (cmp item y ≤ 0))).or cand := by
  induction t with
  | nil =>
    intro cand hs
    simp [firstAboveEqualLoop, Tree.inorder]
  | node l e c r ihl ihr =>
    intro cand hs
    rw [Tree.inorder] at hs
    obtain ⟨hA, hB, hAe, heB, hAB⟩ := StrictSorted.node_destruct hs
    rcases lt_trichotomy (cmp item e) 0 with h1 | h1 | h1
    · have hstep : firstAboveEqualLoop cmp item cand (Tree.node l e c r) =
          firstAboveEqualLoop cmp item (some e) l := by
        rw [firstAboveEqualLoop.eq_def]
        simp [h1, show cmp item e ≠ 0 by omega]
      rw [hstep, ihl (some e) hA, Tree.inorder, List.find?_append,
        List.find?_cons_of_pos _ (by simp only [decide_eq_true_eq]; omega)]
      cases hfa : l.inorder.find? (fun y => decide (cmp item y ≤ 0)) <;> simp
    · have hstep : firstAboveEqualLoop cmp item cand (Tree.node l e c r) = some e := by
        rw [firstAboveEqualLoop.eq_def]
        simp [h1]
      have hitem : item = e := (L.eq_iff item e).mp h1
      have hfA : l.inorder.find? (fun y => decide (cmp item y ≤ 0)) = none := by
        rw [List.find?_eq_none]
        intro a ha
        simp only [decide_eq_true_eq]
        intro hle
        have hlt : cmp a e < 0 := hAe a ha
        have hgt : 0 < cmp item a := by
          rw [hitem]
          exact (L.lt_iff_gt a e).mp hlt
        omega
      rw [hstep, Tree.inorder, List.find?_append, hfA,
        List.find?_cons_of_pos _ (by simp only [decide_eq_true_eq]; omega)]
      simp
    · have hstep : firstAboveEqualLoop cmp item cand (Tree.node l e c r) =
          firstAboveEqualLoop cmp item cand r := by
        rw [firstAboveEqualLoop.eq_def]
        simp [show cmp item e ≠ 0 by omega, show ¬ cmp item e < 0 by omega]
      have hfA : l.inorder.find? (fun y => decide (cmp item y ≤ 0)) = none := by
        rw [List.find?_eq_none]
        intro a ha
        simp only [decide_eq_true_eq]
        intro hle
        have h2 : cmp e item < 0 := (L.lt_iff_gt e item).mpr h1
        have h3 : cmp a item < 0 := L.lt_trans a e item (hAe a ha) h2
        have h4 : 0 < cmp item a := (L.lt_iff_gt a item).mp h3
        omega
      rw [hstep, ihr cand hB, Tree.inorder, List.find?_append, hfA,
        List.find?_cons_of_neg _ (by simp only [decide_eq_true_eq]; omega)]
      simp

theorem firstBelowLoop_eq {cmp : α → α → Int} (L : LawfulCmp cmp) (item : α) (t : Tree α) :
    ∀ (cand : Option α), StrictSorted cmp t.inorder →
      firstBelowLoop cmp item cand t =
        (t.inorder.reverse.find? (fun y => decide (0 < cmp item y))).or cand := by
  induction t with
  | nil =>
    intro cand hs
    simp [firstBelowLoop, Tree.inorder]
  | node l e c r ihl ihr =>
    intro cand hs
    rw [Tree.inorder] at hs
    obtain ⟨hA, hB, hAe, heB, hAB⟩ := StrictSorted.node_destruct hs
    have hrev : (Tree.node l e c r).inorder.reverse =
        r.inorder.reverse ++ e :: l.inorder.reverse := by
      simp [Tree.inorder]
    by_cases h1 : 0 < cmp item e
    · have hstep : firstBelowLoop cmp item cand (Tree.node l e c r) =
          firstBelowLoop cmp item (some e) r := by
        rw [firstBelowLoop.eq_def]
        simp [h1]
      rw [hstep, ihr (some e) hB, hrev, List.find?_append,
        List.find?_cons_of_pos _ (by simp [h1])]
      cases hfa : r.inorder.reverse.find? (fun y => decide (0 < cmp item y)) <;> simp
    · have hstep : firstBelowLoop cmp item cand (Tree.node l e c r) =
          firstBelowLoop cmp item cand l := by
        rw [firstBelowLoop.eq_def]
        simp [h1]
      have hfB : r.inorder.reverse.find? (fun y => decide (0 < cmp item y)) = none := by
        rw [List.find?_eq_none]
        intro b hb
        rw [List.mem_reverse] at hb
        simp only [decide_eq_true_eq]
        intro hgt
        have h2 : cmp e b < 0 := heB b hb
        have h3 : cmp b item < 0 := (L.lt_iff_gt b item).mpr hgt
        have h4 : cmp e item < 0 := L.lt_trans e b item h2 h3
        have h5 : 0 < cmp item e := (L.lt_iff_gt e item).mp h4
        omega
      rw [hstep, ihl cand hA, hrev, List.find?_append, hfB,
        List.find?_cons_of_neg _ (by simp [h1])]
      simp

theorem firstBelowEqualLoop_eq {cmp : α → α → Int} (L : LawfulCmp cmp) (item : α)
    (t : Tree α) :
    ∀ (cand : Option α), StrictSorted cmp t.inorder →
      firstBelowEqualLoop cmp item cand t =
        (t.inorder.reverse.find? (fun y => decide (0 ≤ cmp item y))).or cand := by
  induction t with
  | nil =>
    intro cand hs
    simp [firstBelowEqualLoop, Tree.inorder]
  | node l e c r ihl ihr =>
    intro cand hs
    rw [Tree.inorder] at hs
    obtain ⟨hA, hB, hAe, heB, hAB⟩ := StrictSorted.node_destruct hs
    have hrev : (Tree.node l e c r).inorder.reverse =
        r.inorder.reverse ++ e :: l.inorder.reverse := by
      simp [Tree.inorder]
    rcases lt_trichotomy (cmp item e) 0 with h1 | h1 | h1
    · have hstep : firstBelowEqualLoop cmp item cand (Tree.node l e c r) =
          firstBelowEqualLoop cmp item cand l := by
        rw [firstBelowEqualLoop.eq_def]
        simp [show cmp item e ≠ 0 by omega, show ¬ cmp item e > 0 by omega]
      have hfB : r.inorder.reverse.find? (fun y => decide (0 ≤ cmp item y)) = none := by
        rw [List.find?_eq_none]
        intro b hb
        rw [List.mem_reverse] at hb
        simp only [decide_eq_true_eq]
        intro hge
        have h2 : cmp item b < 0 := L.lt_trans item e b h1 (heB b hb)
        omega
      rw [hstep, ihl cand hA, hrev, List.find?_append, hfB,
        List.find?_cons_of_neg _ (by simp only [decide_eq_true_eq]; omega)]
      simp
    · have hstep : firstBelowEqualLoop cmp item cand (Tree.node l e c r) = some e := by
        rw [firstBelowEqualLoop.eq_def]
        simp [h1]
      have hitem : item = e := (L.eq_iff item e).mp h1
      have hfB : r.inorder.reverse.find? (fun y => decide (0 ≤ cmp item y)) = none := by
        rw [List.find?_eq_none]
        intro b hb
        rw [List.mem_reverse] at hb
        simp only [decide_eq_true_eq]
        intro hge
        have h2 : cmp item b < 0 := by
          rw [hitem]
          exact heB b hb
        omega
      rw [hstep, hrev, List.find?_append, hfB,
        List.find?_cons_of_pos _ (by simp only [decide_eq_true_eq]; omega)]
      simp
    · have hstep : firstBelowEqualLoop cmp item cand (Tree.node l e c r) =
          firstBelowEqualLoop cmp item (some e) r := by
        rw [firstBelowEqualLoop.eq_def]
        simp [show cmp item e ≠ 0 by omega, show cmp item e > 0 by omega]
      rw [hstep, ihr (some e) hB, hrev, List.find?_append,
        List.find?_cons_of_pos _ (by simp only [decide_eq_true_eq]; omega)]
      cases hfa : r.inorder.reverse.find? (fun y => decide (0 ≤ cmp item y)) <;> simp

theorem sorted_find?_least {cmp : α → α → Int} (L : LawfulCmp cmp) {ls : List α}
    (hs : StrictSorted cmp ls) {p : α → Bool} {e : α} (h : ls.find? p = some e) :
    e ∈ ls ∧ p e = true ∧ ∀ y ∈ ls, p y = true → cmp e y ≤ 0 := by
  have hpe := List.find?_some h
  have hmem := List.mem_of_find?_eq_some h
  obtain ⟨A, B, hAB, hA⟩ := find?_split h
  rw [hAB] at hs
  obtain ⟨_, _, _, heB, _⟩ := StrictSorted.node_destruct hs
  refine ⟨hmem, hpe, ?_⟩
  intro y hy hpy
  rw [hAB, List.mem_append, List.mem_cons] at hy
  rcases hy with hy | hy | hy
  · rw [hA y hy] at hpy
    exact absurd hpy (by simp)
  · rw [hy, L.cmp_self]
  · exact le_of_lt (heB y hy)

theorem sorted_rev_find?_greatest {cmp : α → α → Int} (L : LawfulCmp cmp) {ls : List α}
    (hs : StrictSorted cmp ls) {p : α → Bool} {e : α} (h : ls.reverse.find? p = some e) :
    e ∈ ls ∧ p e = true ∧ ∀ y ∈ ls, p y = true → cmp y e ≤ 0 := by
  have hpe := List.find?_some h
  have hmem : e ∈ ls := List.mem_reverse.mp (List.mem_of_find?_eq_some h)
  obtain ⟨A, B, hAB, hA⟩ := find?_split h
  have hls : ls = B.reverse ++ e :: A.reverse := by
    have h2 := congrArg List.reverse hAB
    rw [List.reverse_reverse] at h2
    rw [h2]
    simp
  rw [hls] at hs
  obtain ⟨_, _, hBe, _, _⟩ := StrictSorted.node_destruct hs
  refine ⟨hmem, hpe, ?_⟩
  intro y hy hpy
  rw [hls, List.mem_append, List.mem_cons] at hy
  rcases hy with hy | hy | hy
  · exact le_of_lt (hBe y hy)
  · rw [hy, L.cmp_self]
  · rw [hA y (List.mem_reverse.mp hy)] at hpy
    exact absurd hpy (by simp)

/-- C6: `FirstAbove v` is `none` exactly when no element is strictly greater
than `v`, and otherwise returns the least element strictly greater;
`FirstAboveEqual` likewise with "greater or equal", returning the element
comparing equal to `v` whenever one is present; `FirstBelow` returns the
greatest element strictly smaller than `v` (or `none`); `FirstBelowEqual`
likewise with "smaller or equal", returning the equal element if present. -/
theorem claim_C6 {cmp : α → α → Int} (L : LawfulCmp cmp) (s : TreeSet α)
    (hWF : WF cmp s) (v : α) :
    (FirstAbove cmp s v = none ↔ ∀ y ∈ Slice s, ¬ cmp v y < 0) ∧
    (∀ e, FirstAbove cmp s v = some e →
      e ∈ Slice s ∧ cmp v e < 0 ∧ ∀ y ∈ Slice s, cmp v y < 0 → cmp e y ≤ 0) ∧
    (FirstAboveEqual cmp s v = none ↔ ∀ y ∈ Slice s, ¬ cmp v y ≤ 0) ∧
    (∀ e, FirstAboveEqual cmp s v = some e →
      e ∈ Slice s ∧ cmp v e ≤ 0 ∧ ∀ y ∈ Slice s, cmp v y ≤ 0 → cmp e y ≤ 0) ∧
    (∀ x ∈ Slice s, cmp v x = 0 → FirstAboveEqual cmp s v = some x) ∧
    (FirstBelow cmp s v = none ↔ ∀ y ∈ Slice s, ¬ 0 < cmp v y) ∧
    (∀ e, FirstBelow cmp s v = some e →
      e ∈ Slice s ∧ 0 < cmp v e ∧ ∀ y ∈ Slice s, 0 < cmp v y → cmp y e ≤ 0) ∧
    (FirstBelowEqual cmp s v = none ↔ ∀ y ∈ Slice s, ¬ 0 ≤ cmp v y) ∧
    (∀ e, FirstBelowEqual cmp s v = some e →
      e ∈ Slice s ∧ 0 ≤ cmp v e ∧ ∀ y ∈ Slice s, 0 ≤ cmp v y → cmp y e ≤ 0) ∧
    (∀ x ∈ Slice s, cmp v x = 0 → FirstBelowEqual cmp s v = some x) := by
  have hs : StrictSorted cmp (Slice s) := hWF.1
  have hs' : StrictSorted cmp s.root.inorder := hs
  have hFA : FirstAbove cmp s v = (Slice s).find? (fun y => decide (cmp v y < 0)) := by
    rw [FirstAbove, firstAboveLoop_eq L v s.root none hs']
    simp [Slice]
  have hFAE : FirstAboveEqual cmp s v =
      (Slice s).find? (fun y => decide (cmp v y ≤ 0)) := by
    rw [FirstAboveEqual, firstAboveEqualLoop_eq L v s.root none hs']
    simp [Slice]
  have hFB : FirstBelow cmp s v =
      (Slice s).reverse.find? (fun y => decide (0 < cmp v y)) := by
    rw [FirstBelow, firstBelowLoop_eq L v s.root none hs']
    simp [Slice]
  have hFBE : FirstBelowEqual cmp s v =
      (Slice s).reverse.find? (fun y => decide (0 ≤ cmp v y)) := by
    rw [FirstBelowEqual, firstBelowEqualLoop_eq L v s.root none hs']
    simp [Slice]
  have hFAEsome : ∀ e, FirstAboveEqual cmp s v = some e →
      e ∈ Slice s ∧ cmp v e ≤ 0 ∧ ∀ y ∈ Slice s, cmp v y ≤ 0 → cmp e y ≤ 0 := by
    intro e he
    rw [hFAE] at he
    obtain ⟨hm, hp, hmin⟩ := sorted_find?_least L hs he
    simp only [decide_eq_true_eq] at hp
    refine ⟨hm, hp, ?_⟩
    intro y hy hvy
    exact hmin y hy (by simp [hvy])
  have hFBEsome : ∀ e, FirstBelowEqual cmp s v = some e →
      e ∈ Slice s ∧ 0 ≤ cmp v e ∧ ∀ y ∈ Slice s, 0 ≤ cmp v y → cmp y e ≤ 0 := by
    intro e he
    rw [hFBE] at he
    obtain ⟨hm, hp, hmax⟩ := sorted_rev_find?_greatest L hs he
    simp only [decide_eq_true_eq] at hp
    refine ⟨hm, hp, ?_⟩
    intro y hy hvy
    exact hmax y hy (by simp [hvy])
  refine ⟨?_, ?_, ?_, hFAEsome, ?_, ?_, ?_, ?_, hFBEsome, ?_⟩
  · rw [hFA, List.find?_eq_none]
    simp
  · intro e he
    rw [hFA] at he
    obtain ⟨hm, hp, hmin⟩ := sorted_find?_least L hs he
    simp only [decide_eq_true_eq] at hp
    refine ⟨hm, hp, ?_⟩
    intro y hy hvy
    exact hmin y hy (by simp [hvy])
  · rw [hFAE, List.find?_eq_none]
    simp
  · intro x hx hvx
    obtain ⟨e, he⟩ : ∃ e, FirstAboveEqual cmp s v = some e := by
      cases hcase : FirstAboveEqual cmp s v with
      | none =>
        rw [hFAE, List.find?_eq_none] at hcase
        have := hcase x hx
        simp only [decide_eq_true_eq] at this
        omega
      | some e => exact ⟨e, rfl⟩
    obtain ⟨hm, hple, hmin⟩ := hFAEsome e he
    have hex : cmp e x ≤ 0 := hmin x hx (by omega)
    have hv : v = x := (L.eq_iff v x).mp hvx
    have hxe : cmp x e ≤ 0 := by rw [← hv]; exact hple
    have hxe0 : cmp x e = 0 := by
      rcases lt_or_eq_of_le hxe with hlt | h0
      · have := L.gt_of_lt hlt
        omega
      · exact h0
    have : x = e := (L.eq_iff x e).mp hxe0
    rw [he, this]
  · rw [hFB, List.find?_eq_none]
    simp
  · intro e he
    rw [hFB] at he
    obtain ⟨hm, hp, hmax⟩ := sorted_rev_find?_greatest L hs he
    simp only [decide_eq_true_eq] at hp
    refine ⟨hm, hp, ?_⟩
    intro y hy hvy
    exact hmax y hy (by simp [hvy])
  · rw [hFBE, List.find?_eq_none]
    simp
  · intro x hx hvx
    obtain ⟨e, he⟩ : ∃ e, FirstBelowEqual cmp s v = some e := by
      cases hcase : FirstBelowEqual cmp s v with
      | none =>
        rw [hFBE, List.find?_eq_none] at hcase
        have := hcase x (List.mem_reverse.mpr hx)
        simp only [decide_eq_true_eq] at this
        omega
      | some e => exact ⟨e, rfl⟩
    obtain ⟨hm, hple, hmax⟩ := hFBEsome e he
    have hex : cmp x e ≤ 0 := hmax x hx (by omega)
    have hv : v = x := (L.eq_iff v x).mp hvx
    have hxe : 0 ≤ cmp x e := by rw [← hv]; exact hple
    have hxe0 : cmp x e = 0 := by omega
    have : x = e := (L.eq_iff x e).mp hxe0
    rw [he, this]

theorem claim_C6_witness :
    (WF Cmp (TreeSetFrom Cmp [1, 2, 3, 4, 5]) ∧
      FirstAbove Cmp (TreeSetFrom Cmp [1, 2, 3, 4, 5]) 5 = none ∧
      FirstAboveEqual Cmp (TreeSetFrom Cmp [1, 2, 3, 4, 5]) 5 = some 5 ∧
      FirstBelow Cmp (TreeSetFrom Cmp [1, 2, 3, 4, 5]) 1 = none) ∧
    ((FirstAbove Cmp (TreeSetFrom Cmp [1, 2, 3, 4, 5]) 5 = none ↔
        ∀ y ∈ Slice (TreeSetFrom Cmp [1, 2, 3, 4, 5]), ¬ Cmp 5 y < 0) ∧
      (∀ e, FirstAbove Cmp (TreeSetFrom Cmp [1, 2, 3, 4, 5]) 5 = some e →
        e ∈ Slice (TreeSetFrom Cmp [1, 2, 3, 4, 5]) ∧ Cmp 5 e < 0 ∧
          ∀ y ∈ Slice (TreeSetFrom Cmp [1, 2, 3, 4, 5]), Cmp 5 y < 0 → Cmp e y ≤ 0) ∧
      (FirstAboveEqual Cmp (TreeSetFrom Cmp [1, 2, 3, 4, 5]) 5 = none ↔
        ∀ y ∈ Slice (TreeSetFrom Cmp [1, 2, 3, 4, 5]), ¬ Cmp 5 y ≤ 0) ∧
      (∀ e, FirstAboveEqual Cmp (TreeSetFrom Cmp [1, 2, 3, 4, 5]) 5 = some e →
        e ∈ Slice (TreeSetFrom Cmp [1, 2, 3, 4, 5]) ∧ Cmp 5 e ≤ 0 ∧
          ∀ y ∈ Slice (TreeSetFrom Cmp [1, 2, 3, 4, 5]), Cmp 5 y ≤ 0 → Cmp e y ≤ 0) ∧
      (∀ x ∈ Slice (TreeSetFrom Cmp [1, 2, 3, 4, 5]), Cmp 5 x = 0 →
        FirstAboveEqual Cmp (TreeSetFrom Cmp [1, 2, 3, 4, 5]) 5 = some x) ∧
      (FirstBelow Cmp (TreeSetFrom Cmp [1, 2, 3, 4, 5]) 5 = none ↔
        ∀ y ∈ Slice (TreeSetFrom Cmp [1, 2, 3, 4, 5]), ¬ 0 < Cmp 5 y) ∧
      (∀ e, FirstBelow Cmp (TreeSetFrom Cmp [1, 2, 3, 4, 5]) 5 = some e →
        e ∈ Slice (TreeSetFrom Cmp [1, 2, 3, 4, 5]) ∧ 0 < Cmp 5 e ∧
          ∀ y ∈ Slice (TreeSetFrom Cmp [1, 2, 3, 4, 5]), 0 < Cmp 5 y → Cmp y e ≤ 0) ∧
      (FirstBelowEqual Cmp (TreeSetFrom Cmp [1, 2, 3, 4, 5]) 5 = none ↔
        ∀ y ∈ Slice (TreeSetFrom Cmp [1, 2, 3, 4, 5]), ¬ 0 ≤ Cmp 5 y) ∧
      (∀ e, FirstBelowEqual Cmp (TreeSetFrom Cmp [1, 2, 3, 4, 5]) 5 = some e →
        e ∈ Slice (TreeSetFrom Cmp [1, 2, 3, 4, 5]) ∧ 0 ≤ Cmp 5 e ∧
          ∀ y ∈ Slice (TreeSetFrom Cmp [1, 2, 3, 4, 5]), 0 ≤ Cmp 5 y → Cmp y e ≤ 0) ∧
      (∀ x ∈ Slice (TreeSetFrom Cmp [1, 2, 3, 4, 5]), Cmp 5 x = 0 →
        FirstBelowEqual Cmp (TreeSetFrom Cmp [1, 2, 3, 4, 5]) 5 = some x)) :=
  ⟨⟨⟨by decide, by decide⟩, by decide, by decide, by decide⟩,
    @claim_C6 Int Cmp lawful_Cmp (TreeSetFrom Cmp [1, 2, 3, 4, 5])
      ⟨by decide, by decide⟩ 5⟩

/-! ## C3: the iterator yields the in-order sequence -/

theorem stackElems_pushLeftSpine (t : Tree α) :
    ∀ st : List (Tree α),
      stackElems (pushLeftSpine t st) = t.inorder ++ stackElems st := by
  induction t with
  | nil =>
    intro st
    simp [pushLeftSpine, Tree.inorder]
  | node l e c r ihl ihr =>
    intro st
    rw [pushLeftSpine, ihl, stackElems, Tree.inorder]
    simp

theorem goodStack_pushLeftSpine (t : Tree α) :
    ∀ st, GoodStack st → GoodStack (pushLeftSpine t st) := by
  induction t with
  | nil =>
    intro st h
    simpa [pushLeftSpine] using h
  | node l e c r ihl ihr =>
    intro st h
    rw [pushLeftSpine]
    apply ihl
    intro u hu
    rcases List.mem_cons.mp hu with rfl | hu
    · simp
    · exact h u hu

theorem stackElems_iterate (s : TreeSet α) : stackElems (iterate s) = Slice s := by
  rw [iterate, stackElems_pushLeftSpine]
  simp [Slice, stackElems]

theorem goodStack_iterate (s : TreeSet α) : GoodStack (iterate s) := by
  rw [iterate]
  apply goodStack_pushLeftSpine
  intro u hu
  simp at hu

theorem iterNext_cons {st : List (Tree α)} (hg : GoodStack st) {x : α}
    {xs : List α} (h : stackElems st = x :: xs) :
    ∃ st', iterNext st = (some x, st') ∧ GoodStack st' ∧ stackElems st' = xs := by
  match st with
  | [] => simp [stackElems] at h
  | Tree.nil :: st => exact absurd rfl (hg Tree.nil (by simp))
  | Tree.node l e c r :: st =>
    rw [stackElems] at h
    have hex : e = x := by
      have := congrArg List.head? h
      simpa using this
    have hxs : r.inorder ++ stackElems st = xs := by
      have := congrArg List.tail h
      simpa using this
    have hg' : GoodStack st := by
      intro u hu
      exact hg u (by simp [hu])
    refine ⟨pushLeftSpine r st, ?_, goodStack_pushLeftSpine r st hg', ?_⟩
    · rw [iterNext, hex]
    · rw [stackElems_pushLeftSpine, hxs]

theorem stack_nil_of_elems_nil {st : List (Tree α)} (hg : GoodStack st)
    (h : stackElems st = []) : st = [] := by
  match st with
  | [] => rfl
  | Tree.nil :: st => exact absurd rfl (hg Tree.nil (by simp))
  | Tree.node l e c r :: st => simp [stackElems] at h

theorem subset_loops_eq (cmp : α → α → Int) (n : Nat) :
    (∀ iterO iterS remO remS, remO + remS ≤ n → GoodStack iterO → GoodStack iterS →
      remO = (stackElems iterO).length → remS = (stackElems iterS).length →
      subsetLoop cmp iterO iterS remO remS =
        lmergeSubset cmp (stackElems iterO) (stackElems iterS)) ∧
    (∀ nextO iterO iterS remO remS, remO + remS ≤ n →
      GoodStack iterO → GoodStack iterS →
      remO = (stackElems iterO).length → remS = (stackElems iterS).length →
      subsetInner cmp nextO iterO iterS remO remS =
        lmergeSubset cmp (nextO :: stackElems iterO) (stackElems iterS)) := by
  induction n with
  | zero =>
    constructor
    · intro iterO iterS remO remS hle hgO hgS hO hS
      have h0 : remO = 0 := by omega
      subst h0
      have hE : stackElems iterO = [] := List.length_eq_zero.mp hO.symm
      rw [subsetLoop.eq_def, hE]
      simp [lmergeSubset]
    · intro nextO iterO iterS remO remS hle hgO hgS hO hS
      have h0 : remS = 0 := by omega
      subst h0
      have hE : stackElems iterS = [] := List.length_eq_zero.mp hS.symm
      rw [subsetInner.eq_def, hE]
      simp [lmergeSubset]
  | succ n ih =>
    constructor
    · intro iterO iterS remO remS hle hgO hgS hO hS
      match remO, hO with
      | 0, hO =>
        have hE : stackElems iterO = [] := List.length_eq_zero.mp hO.symm
        rw [subsetLoop.eq_def, hE]
        simp [lmergeSubset]
      | k + 1, hO =>
        cases hE : stackElems iterO with
        | nil => rw [hE] at hO; simp at hO
        | cons o os =>
          obtain ⟨iterO', hnext, hg', he'⟩ := iterNext_cons hgO hE
          rw [subsetLoop.eq_def]
          simp only [hnext, hE]
          rw [← he']
          exact (ih).2 o iterO' iterS k remS (by rw [hE] at hO; simp at hO; omega)
            hg' hgS (by rw [he']; rw [hE] at hO; simpa using hO) hS
    · intro nextO iterO iterS remO remS hle hgO hgS hO hS
      match remS, hS with
      | 0, hS =>
        have hE : stackElems iterS = [] := List.length_eq_zero.mp hS.symm
        rw [subsetInner.eq_def, hE]
        simp [lmergeSubset]
      | k + 1, hS =>
        cases hE : stackElems iterS with
        | nil => rw [hE] at hS; simp at hS
        | cons x xs =>
          obtain ⟨iterS', hnext, hg', he'⟩ := iterNext_cons hgS hE
          have hk : k = xs.length := by
            rw [hE] at hS
            simpa using hS
          rw [subsetInner.eq_def]
          simp only [hnext, hE]
          rw [lmergeSubset]
          split_ifs with h1 h2
          · rfl
          · rw [← he']
            exact (ih).2 nextO iterO iterS' remO k (by omega) hgO hg' hO
              (by rw [he'] ; exact hk)
          · rw [← he']
            exact (ih).1 iterO iterS' remO k (by omega) hgO hg' hO
              (by rw [he'] ; exact hk)

theorem list_all_congr {p q : α → Bool} :
    ∀ {l : List α}, (∀ x ∈ l, p x = q x) → l.all p = l.all q := by
  intro l
  induction l with
  | nil => intro _; rfl
  | cons a l ih =>
    intro h
    rw [List.all_cons, List.all_cons, h a (by simp), ih]
    intro x hx
    exact h x (by simp [hx])

theorem lmergeSubset_eq_naive {cmp : α → α → Int} (L : LawfulCmp cmp) :
    ∀ (ls lo : List α), StrictSorted cmp lo → StrictSorted cmp ls →
      lmergeSubset cmp lo ls =
        lo.all (fun x => ls.any (fun y => cmp y x == 0)) := by
  intro ls
  induction ls with
  | nil =>
    intro lo hlo hls
    cases lo with
    | nil => simp [lmergeSubset]
    | cons o os => simp [lmergeSubset]
  | cons x xs ih =>
    intro lo hlo hls
    have hxxs : ∀ y ∈ xs, cmp x y < 0 := by
      rw [StrictSorted, List.pairwise_cons] at hls
      exact hls.1
    have hxs : StrictSorted cmp xs := by
      rw [StrictSorted, List.pairwise_cons] at hls
      exact hls.2
    cases lo with
    | nil => simp [lmergeSubset]
    | cons o os =>
      have hoos : ∀ z ∈ os, cmp o z < 0 := by
        rw [StrictSorted, List.pairwise_cons] at hlo
        exact hlo.1
      have hos : StrictSorted cmp os := by
        rw [StrictSorted, List.pairwise_cons] at hlo
        exact hlo.2
      rw [lmergeSubset]
      rcases lt_trichotomy (cmp x o) 0 with h1 | h1 | h1
      · rw [if_neg (by omega), if_pos h1, ih (o :: os) hlo hxs]
        apply list_all_congr
        intro z hz
        have hxz : cmp x z < 0 := by
          rcases List.mem_cons.mp hz with rfl | hz
          · exact h1
          · exact L.lt_trans x o z h1 (hoos z hz)
        rw [List.any_cons]
        have : (cmp x z == 0) = false := by
          simp only [beq_eq_false_iff_ne]
          omega
        rw [this]
        simp
      · rw [if_neg (by omega), if_neg (by omega), ih os hos hxs]
        have hxo : x = o := (L.eq_iff x o).mp h1
        rw [List.all_cons]
        have hhead : (x :: xs).any (fun y => cmp y o == 0) = true := by
          rw [List.any_cons]
          have : (cmp x o == 0) = true := by simpa using h1
          rw [this]
          simp
        rw [hhead, Bool.true_and]
        apply list_all_congr
        intro z hz
        rw [List.any_cons]
        have : (cmp x z == 0) = false := by
          simp only [beq_eq_false_iff_ne]
          have : cmp x z < 0 := by
            rw [hxo]
            exact hoos z hz
          omega
        rw [this]
        simp
      · rw [if_pos h1]
        have hano : ∀ z ∈ x :: xs, (cmp z o == 0) = false := by
          intro z hz
          simp only [beq_eq_false_iff_ne]
          have hoz : cmp o z < 0 := by
            rcases List.mem_cons.mp hz with rfl | hz
            · exact (L.lt_iff_gt o z).mpr h1
            · exact L.lt_trans o x z ((L.lt_iff_gt o x).mpr h1) (hxxs z hz)
          have := (L.lt_iff_gt o z).mp hoz
          omega
        rw [List.all_cons]
        have hhead : (x :: xs).any (fun y => cmp y o == 0) = false := by
          rw [List.any_eq_false]
          intro z hz
          simp only [Bool.not_eq_true]
          exact hano z hz
        rw [hhead]
        simp

theorem subsetNaive_iff {cmp : α → α → Int} (L : LawfulCmp cmp) (s o : TreeSet α) :
    subsetNaive cmp s o = true ↔ Slice o ⊆ Slice s := by
  rw [subsetNaive, List.all_eq_true]
  constructor
  · intro h x hx
    obtain ⟨y, hy, hyx⟩ := List.any_eq_true.mp (h x hx)
    have hxy : y = x := (L.eq_iff y x).mp (by simpa using hyx)
    rwa [← hxy]
  · intro h x hx
    exact List.any_eq_true.mpr ⟨x, h hx, by simp [L.cmp_self]⟩

theorem sorted_eq_of_subset_subset {cmp : α → α → Int} (L : LawfulCmp cmp)
    {l1 l2 : List α} (h1 : StrictSorted cmp l1) (h2 : StrictSorted cmp l2)
    (s12 : l1 ⊆ l2) (s21 : l2 ⊆ l1) : l1 = l2 := by
  haveI : IsAntisymm α (fun a b => cmp a b < 0) :=
    ⟨fun a b hab hba => absurd hba (by have := (L.lt_iff_gt a b).mp hab; omega)⟩
  have hne : ∀ {a b : α}, cmp a b < 0 → a ≠ b := by
    intro a b hab heq
    rw [heq, L.cmp_self] at hab
    omega
  have n1 : l1.Nodup := h1.imp (fun hab => hne hab)
  have n2 : l2.Nodup := h2.imp (fun hab => hne hab)
  exact List.eq_of_perm_of_sorted
    (List.Subperm.antisymm (List.subperm_of_subset n1 s12)
      (List.subperm_of_subset n2 s21)) h1 h2

theorem equalLoop_eq {cmp : α → α → Int} (L : LawfulCmp cmp) :
    ∀ (k : Nat) (iterS iterO : List (Tree α)), GoodStack iterS → GoodStack iterO →
      k = (stackElems iterS).length → k = (stackElems iterO).length →
      (equalLoop cmp iterS iterO k = true ↔ stackElems iterS = stackElems iterO) := by
  intro k
  induction k with
  | zero =>
    intro iterS iterO hgS hgO hS hO
    have hES : stackElems iterS = [] := List.length_eq_zero.mp hS.symm
    have hEO : stackElems iterO = [] := List.length_eq_zero.mp hO.symm
    rw [hES, hEO, equalLoop]
    simp
  | succ k ih =>
    intro iterS iterO hgS hgO hS hO
    cases hES : stackElems iterS with
    | nil => rw [hES] at hS; simp at hS
    | cons x xs =>
      cases hEO : stackElems iterO with
      | nil => rw [hEO] at hO; simp at hO
      | cons y ys =>
        obtain ⟨iterS', hnS, hg1, he1⟩ := iterNext_cons hgS hES
        obtain ⟨iterO', hnO, hg2, he2⟩ := iterNext_cons hgO hEO
        rw [equalLoop]
        simp only [hnS, hnO]
        by_cases hxy : cmp x y = 0
        · have hx : x = y := (L.eq_iff x y).mp hxy
          rw [if_neg (by simp [hxy])]
          rw [ih iterS' iterO' hg1 hg2 (by rw [he1]; rw [hES] at hS; simpa using hS)
            (by rw [he2]; rw [hEO] at hO; simpa using hO), he1, he2]
          constructor
          · intro h
            rw [hx, h]
          · intro h
            have := congrArg List.tail h
            simpa using this
        · rw [if_pos (by simp [hxy])]
          constructor
          · intro h
            exact absurd h (by simp)
          · intro h
            have hx : x = y := by
              have := congrArg List.head? h
              simpa using this
            exact absurd ((L.eq_iff x y).mpr hx) hxy

theorem bool_eq_of_iff {a b : Bool} (h : a = true ↔ b = true) : a = b := by
  cases a <;> cases b <;> simp_all

theorem strictSorted_nodup {cmp : α → α → Int} (L : LawfulCmp cmp) {l : List α}
    (h : StrictSorted cmp l) : l.Nodup := by
  apply h.imp
  intro a b hab heq
  rw [heq, L.cmp_self] at hab
  omega

theorem Empty_iff_slice {cmp : α → α → Int} {s : TreeSet α} (h : WF cmp s) :
    Empty s = true ↔ Slice s = [] := by
  rw [Empty, Size, beq_iff_eq, h.2]
  constructor
  · intro hl
    have h0 : (Slice s).length = 0 := by exact_mod_cast hl
    exact List.length_eq_zero.mp h0
  · intro hl
    rw [hl]
    simp

theorem Subset_eq_naive {cmp : α → α → Int} (L : LawfulCmp cmp) (s o : TreeSet α)
    (hs : WF cmp s) (ho : WF cmp o) :
    Subset cmp s o = subsetNaive cmp s o := by
  rw [Subset]
  by_cases hoE : Empty o = true
  · rw [if_pos hoE]
    have hon : Slice o = [] := (Empty_iff_slice ho).mp hoE
    rw [subsetNaive, hon]
    simp
  · rw [if_neg hoE]
    have hoNE : Slice o ≠ [] := fun h => hoE ((Empty_iff_slice ho).mpr h)
    by_cases hsE : Empty s = true
    · rw [if_pos hsE]
      have hsn : Slice s = [] := (Empty_iff_slice hs).mp hsE
      cases hOc : Slice o with
      | nil => exact absurd hOc hoNE
      | cons x xs =>
        rw [subsetNaive, hOc, hsn]
        simp
    · rw [if_neg hsE]
      by_cases hlt : Size s < Size o
      · rw [if_pos hlt]
        cases hN : subsetNaive cmp s o with
        | false => rfl
        | true =>
          exfalso
          have hsub : Slice o ⊆ Slice s := (subsetNaive_iff L s o).mp hN
          have hnod : (Slice o).Nodup := strictSorted_nodup L ho.1
          have hlen : (Slice o).length ≤ (Slice s).length :=
            (List.subperm_of_subset hnod hsub).length_le
          rw [Size, Size, hs.2, ho.2] at hlt
          have hlt' : (Slice s).length < (Slice o).length := by exact_mod_cast hlt
          omega
      · rw [if_neg hlt]
        have hOt : (Size o).toNat = (stackElems (iterate o)).length := by
          rw [Size, ho.2, stackElems_iterate]
          simp
        have hSt : (Size s).toNat = (stackElems (iterate s)).length := by
          rw [Size, hs.2, stackElems_iterate]
          simp
        rw [(subset_loops_eq cmp ((Size o).toNat + (Size s).toNat)).1 (iterate o)
          (iterate s) ((Size o).toNat) ((Size s).toNat) le_rfl (goodStack_iterate o)
          (goodStack_iterate s) hOt hSt, stackElems_iterate, stackElems_iterate,
          lmergeSubset_eq_naive L (Slice s) (Slice o) ho.1 hs.1, subsetNaive]

theorem equalNaive_iff {cmp : α → α → Int} (L : LawfulCmp cmp) (s o : TreeSet α)
    (hs : WF cmp s) (ho : WF cmp o) :
    equalNaive cmp s o = true ↔ Slice s = Slice o := by
  rw [equalNaive, Bool.and_eq_true, subsetNaive_iff L s o, subsetNaive_iff L o s]
  constructor
  · rintro ⟨hh1, hh2⟩
    exact sorted_eq_of_subset_subset L hs.1 ho.1 hh2 hh1
  · intro h
    rw [h]
    exact ⟨fun _ hx => hx, fun _ hx => hx⟩

theorem Equal_eq_naive {cmp : α → α → Int} (L : LawfulCmp cmp) (s o : TreeSet α)
    (hs : WF cmp s) (ho : WF cmp o) :
    Equal cmp s o = equalNaive cmp s o := by
  have hENiff := equalNaive_iff L s o hs ho
  rw [Equal]
  by_cases h1 : (Empty s || Empty o) = true
  · rw [if_pos h1]
    apply bool_eq_of_iff
    rw [beq_iff_eq, Size, Size, hs.2, ho.2, hENiff]
    constructor
    · intro hlen
      have hlen' : (Slice s).length = (Slice o).length := by exact_mod_cast hlen
      have h1or : Empty s = true ∨ Empty o = true := by simpa using h1
      rcases h1or with h | h
      · have hsn : Slice s = [] := (Empty_iff_slice hs).mp h
        have hon : Slice o = [] := by
          rw [hsn] at hlen'
          exact List.length_eq_zero.mp hlen'.symm
        rw [hsn, hon]
      · have hon : Slice o = [] := (Empty_iff_slice ho).mp h
        have hsn : Slice s = [] := by
          rw [hon] at hlen'
          exact List.length_eq_zero.mp hlen'
        rw [hsn, hon]
    · intro hq
      rw [hq]
  · rw [if_neg h1]
    have hsNE : Slice s ≠ [] := by
      intro hnil
      have hE := (Empty_iff_slice hs).mpr hnil
      exact h1 (by simp [hE])
    have hoNE : Slice o ≠ [] := by
      intro hnil
      have hE := (Empty_iff_slice ho).mpr hnil
      exact h1 (by simp [hE])
    by_cases h2 : Size s ≠ Size o
    · rw [if_pos h2]
      cases hN : equalNaive cmp s o with
      | false => rfl
      | true =>
        exfalso
        apply h2
        rw [Size, Size, hs.2, ho.2, hENiff.mp hN]
    · rw [if_neg h2]
      have hSize : Size s = Size o := not_ne_iff.mp h2
      cases hrs : s.root with
      | nil =>
        exact absurd (by rw [Slice, hrs]; rfl) hsNE
      | node sl se sc sr =>
        cases hro : o.root with
        | nil =>
          exact absurd (by rw [Slice, hro]; rfl) hoNE
        | node ol oe oc ro =>
          have hMs : Min s = some (minEltD sl se) := by rw [Min, hrs]
          have hMo : Min o = some (minEltD ol oe) := by rw [Min, hro]
          have hXs : Max s = some (maxEltD sr se) := by rw [Max, hrs]
          have hXo : Max o = some (maxEltD ro oe) := by rw [Max, hro]
          rw [hMs, hMo, hXs, hXo]
          show (if cmp (minEltD sl se) (minEltD ol oe) ≠ 0 then false
            else if cmp (maxEltD sr se) (maxEltD ro oe) ≠ 0 then false
            else equalLoop cmp (iterate s) (iterate o) (Size s).toNat) =
              equalNaive cmp s o
          have hmins : minEltD s.root se = minEltD sl se := by rw [hrs]; rfl
          have hmino : minEltD o.root oe = minEltD ol oe := by rw [hro]; rfl
          have hheadS : (Slice s).head? = some (minEltD sl se) := by
            rw [Slice, minEltD_cons_tail s.root se (by rw [hrs]; simp), hmins]
            simp
          have hheadO : (Slice o).head? = some (minEltD ol oe) := by
            rw [Slice, minEltD_cons_tail o.root oe (by rw [hro]; simp), hmino]
            simp
          have hmaxs : maxEltD s.root se = maxEltD sr se := by rw [hrs]; rfl
          have hmaxo : maxEltD o.root oe = maxEltD ro oe := by rw [hro]; rfl
          have hlastS : (Slice s).getLast? = some (maxEltD sr se) := by
            obtain ⟨I, hI⟩ := maxEltD_concat s.root se (by rw [hrs]; simp)
            rw [Slice, hI, hmaxs]
            exact List.getLast?_concat I
          have hlastO : (Slice o).getLast? = some (maxEltD ro oe) := by
            obtain ⟨I, hI⟩ := maxEltD_concat o.root oe (by rw [hro]; simp)
            rw [Slice, hI, hmaxo]
            exact List.getLast?_concat I
          by_cases hm : cmp (minEltD sl se) (minEltD ol oe) ≠ 0
          · rw [if_pos hm]
            cases hN : equalNaive cmp s o with
            | false => rfl
            | true =>
              exfalso
              apply hm
              have hSO : Slice s = Slice o := hENiff.mp hN
              have h3 : some (minEltD ol oe) = some (minEltD sl se) := by
                rw [← hheadO, ← hSO, hheadS]
              have h4 : minEltD ol oe = minEltD sl se := by injection h3
              rw [h4]
              exact L.cmp_self _
          · rw [if_neg hm]
            by_cases hx : cmp (maxEltD sr se) (maxEltD ro oe) ≠ 0
            · rw [if_pos hx]
              cases hN : equalNaive cmp s o with
              | false => rfl
              | true =>
                exfalso
                apply hx
                have hSO : Slice s = Slice o := hENiff.mp hN
                have h3 : some (maxEltD ro oe) = some (maxEltD sr se) := by
                  rw [← hlastO, ← hSO, hlastS]
                have h4 : maxEltD ro oe = maxEltD sr se := by injection h3
                rw [h4]
                exact L.cmp_self _
            · rw [if_neg hx]
              apply bool_eq_of_iff
              have hkS : (Size s).toNat = (stackElems (iterate s)).length := by
                rw [Size, hs.2, stackElems_iterate]
                simp
              have hkO : (Size s).toNat = (stackElems (iterate o)).length := by
                rw [hSize, Size, ho.2, stackElems_iterate]
                simp
              rw [equalLoop_eq L ((Size s).toNat) (iterate s) (iterate o)
                (goodStack_iterate s) (goodStack_iterate o) hkS hkO,
                stackElems_iterate, stackElems_iterate, hENiff]

/-- C3: `Subset` (fast paths plus the counter-bounded merge co-iteration of
the two stack-based in-order iterators) agrees with the naive quadratic
reference "every element of `o` compares equal to some element of `s`", and
`Equal` (emptiness/size/min/max fast paths plus the pairwise co-iteration)
agrees with the naive reference "`s` and `o` contain exactly the same
elements under the comparator". -/
theorem claim_C3 {cmp : α → α → Int} (L : LawfulCmp cmp) (s o : TreeSet α)
    (hs : WF cmp s) (ho : WF cmp o) :
    Subset cmp s o = subsetNaive cmp s o ∧ Equal cmp s o = equalNaive cmp s o :=
  ⟨Subset_eq_naive L s o hs ho, Equal_eq_naive L s o hs ho⟩

theorem claim_C3_witness :
    (WF Cmp (TreeSetFrom Cmp [1, 2, 3, 4, 5]) ∧ WF Cmp (TreeSetFrom Cmp [2, 4]) ∧
      subsetNaive Cmp (TreeSetFrom Cmp [1, 2, 3, 4, 5]) (TreeSetFrom Cmp [2, 4]) = true ∧
      equalNaive Cmp (TreeSetFrom Cmp [1, 2, 3, 4, 5]) (TreeSetFrom Cmp [2, 4]) = false) ∧
    (Subset Cmp (TreeSetFrom Cmp [1, 2, 3, 4, 5]) (TreeSetFrom Cmp [2, 4]) =
        subsetNaive Cmp (TreeSetFrom Cmp [1, 2, 3, 4, 5]) (TreeSetFrom Cmp [2, 4]) ∧
      Equal Cmp (TreeSetFrom Cmp [1, 2, 3, 4, 5]) (TreeSetFrom Cmp [2, 4]) =
        equalNaive Cmp (TreeSetFrom Cmp [1, 2, 3, 4, 5]) (TreeSetFrom Cmp [2, 4])) :=
  ⟨⟨⟨by decide, by decide⟩, ⟨by decide, by decide⟩, by decide, by decide⟩,
    @claim_C3 Int Cmp lawful_Cmp (TreeSetFrom Cmp [1, 2, 3, 4, 5])
      (TreeSetFrom Cmp [2, 4]) ⟨by decide, by decide⟩ ⟨by decide, by decide⟩⟩

/-! ## C4: set algebra — `Union` size bound, `Intersect` and `Difference` membership -/

theorem Contains_iff_mem {cmp : α → α → Int} (L : LawfulCmp cmp) {s : TreeSet α}
    (h : WF cmp s) (x : α) : Contains cmp s x = true ↔ x ∈ Slice s := by
  rw [Contains, locate_isSome_iff L x s.root h.1]
  exact exists_cmp_eq_iff_mem L _ x

theorem mem_Insert {cmp : α → α → Int} (L : LawfulCmp cmp) {s : TreeSet α}
    (h : WF cmp s) (x z : α) :
    z ∈ Slice (Insert cmp s x).1 ↔ z ∈ Slice s ∨ z = x := by
  by_cases hex : ∃ y ∈ Slice s, cmp x y = 0
  · rw [Insert_found L s x h.1 hex]
    have hx : x ∈ Slice s := (exists_cmp_eq_iff_mem' L _ x).mp hex
    constructor
    · exact Or.inl
    · rintro (hz | rfl)
      · exact hz
      · exact hx
  · push_neg at hex
    obtain ⟨_, hsl, _⟩ := Insert_new L s x h.1 hex
    rw [hsl, mem_linsert]
    tauto

theorem size_Insert_le {cmp : α → α → Int} (L : LawfulCmp cmp) {s : TreeSet α}
    (h : WF cmp s) (x : α) : (Insert cmp s x).1.size ≤ s.size + 1 := by
  by_cases hex : ∃ y ∈ Slice s, cmp x y = 0
  · rw [Insert_found L s x h.1 hex]
    show s.size ≤ s.size + 1
    omega
  · push_neg at hex
    obtain ⟨_, _, hsz⟩ := Insert_new L s x h.1 hex
    omega

theorem insertAll_props {cmp : α → α → Int} (L : LawfulCmp cmp) (xs : List α) :
    ∀ (t : TreeSet α), WF cmp t →
      WF cmp (insertAll cmp t xs) ∧
      (∀ z, z ∈ Slice (insertAll cmp t xs) ↔ z ∈ Slice t ∨ z ∈ xs) ∧
      (insertAll cmp t xs).size ≤ t.size + xs.length := by
  induction xs with
  | nil =>
    intro t ht
    refine ⟨ht, ?_, ?_⟩ <;> simp [insertAll]
  | cons a xs ih =>
    intro t ht
    have hstep : insertAll cmp t (a :: xs) = insertAll cmp (Insert cmp t a).1 xs := rfl
    obtain ⟨hwf, hmem, hsz⟩ := ih (Insert cmp t a).1 (WF_insert L a ht)
    rw [hstep]
    refine ⟨hwf, ?_, ?_⟩
    · intro z
      rw [hmem z, mem_Insert L ht a z]
      simp only [List.mem_cons]
      tauto
    · have h1 := size_Insert_le L ht a
      simp only [List.length_cons]
      omega

theorem mem_preorder (t : Tree α) (z : α) : z ∈ preorder t ↔ z ∈ t.inorder := by
  induction t with
  | nil => simp [Tree.preorder, Tree.inorder]
  | node l e c r ihl ihr =>
    simp only [Tree.preorder, Tree.inorder, List.mem_cons, List.mem_append]
    tauto

theorem length_preorder (t : Tree α) : (preorder t).length = t.inorder.length := by
  induction t with
  | nil => simp [Tree.preorder, Tree.inorder]
  | node l e c r ihl ihr =>
    simp only [Tree.preorder, Tree.inorder, List.length_cons, List.length_append, ihl, ihr]
    omega

theorem WF_new {cmp : α → α → Int} : WF cmp (NewTreeSet α) := by
  constructor <;> simp [NewTreeSet, Slice, Tree.inorder, StrictSorted]

theorem foldl_insert_filter_props {cmp : α → α → Int} (L : LawfulCmp cmp)
    (p : α → Bool) (xs : List α) :
    ∀ (t : TreeSet α), WF cmp t →
      WF cmp (xs.foldl (fun acc x => if p x = true then (Insert cmp acc x).1 else acc) t) ∧
      (∀ z, z ∈ Slice (xs.foldl
          (fun acc x => if p x = true then (Insert cmp acc x).1 else acc) t) ↔
        z ∈ Slice t ∨ (z ∈ xs ∧ p z = true)) := by
  induction xs with
  | nil =>
    intro t ht
    refine ⟨ht, ?_⟩
    simp
  | cons a xs ih =>
    intro t ht
    rw [List.foldl_cons]
    by_cases hpa : p a = true
    · rw [if_pos hpa]
      obtain ⟨hwf, hmem⟩ := ih (Insert cmp t a).1 (WF_insert L a ht)
      refine ⟨hwf, ?_⟩
      intro z
      rw [hmem z, mem_Insert L ht a z]
      simp only [List.mem_cons]
      constructor
      · rintro ((hz | rfl) | ⟨hz, hp⟩)
        · exact Or.inl hz
        · exact Or.inr ⟨Or.inl rfl, hpa⟩
        · exact Or.inr ⟨Or.inr hz, hp⟩
      · rintro (hz | ⟨(rfl | hz), hp⟩)
        · exact Or.inl (Or.inl hz)
        · exact Or.inl (Or.inr rfl)
        · exact Or.inr ⟨hz, hp⟩
    · rw [if_neg hpa]
      obtain ⟨hwf, hmem⟩ := ih t ht
      refine ⟨hwf, ?_⟩
      intro z
      rw [hmem z]
      simp only [List.mem_cons]
      constructor
      · rintro (hz | ⟨hz, hp⟩)
        · exact Or.inl hz
        · exact Or.inr ⟨Or.inr hz, hp⟩
      · rintro (hz | ⟨(rfl | hz), hp⟩)
        · exact Or.inl hz
        · exact absurd hp hpa
        · exact Or.inr ⟨hz, hp⟩

theorem foldl_skip_filter_props {cmp : α → α → Int} (L : LawfulCmp cmp)
    (p : α → Bool) (xs : List α) :
    ∀ (t : TreeSet α), WF cmp t →
      WF cmp (xs.foldl (fun acc x => if p x = true then acc else (Insert cmp acc x).1) t) ∧
      (∀ z, z ∈ Slice (xs.foldl
          (fun acc x => if p x = true then acc else (Insert cmp acc x).1) t) ↔
        z ∈ Slice t ∨ (z ∈ xs ∧ p z = false)) := by
  induction xs with
  | nil =>
    intro t ht
    refine ⟨ht, ?_⟩
    simp
  | cons a xs ih =>
    intro t ht
    rw [List.foldl_cons]
    by_cases hpa : p a = true
    · rw [if_pos hpa]
      obtain ⟨hwf, hmem⟩ := ih t ht
      refine ⟨hwf, ?_⟩
      intro z
      rw [hmem z]
      simp only [List.mem_cons]
      constructor
      · rintro (hz | ⟨hz, hp⟩)
        · exact Or.inl hz
        · exact Or.inr ⟨Or.inr hz, hp⟩
      · rintro (hz | ⟨(rfl | hz), hp⟩)
        · exact Or.inl hz
        · rw [hpa] at hp
          exact absurd hp (by simp)
        · exact Or.inr ⟨hz, hp⟩
    · rw [if_neg hpa]
      obtain ⟨hwf, hmem⟩ := ih (Insert cmp t a).1 (WF_insert L a ht)
      refine ⟨hwf, ?_⟩
      intro z
      rw [hmem z, mem_Insert L ht a z]
      simp only [List.mem_cons]
      constructor
      · rintro ((hz | rfl) | ⟨hz, hp⟩)
        · exact Or.inl hz
        · exact Or.inr ⟨Or.inl rfl, by simpa using hpa⟩
        · exact Or.inr ⟨Or.inr hz, hp⟩
      · rintro (hz | ⟨(rfl | hz), hp⟩)
        · exact Or.inl (Or.inl hz)
        · exact Or.inl (Or.inr rfl)
        · exact Or.inr ⟨hz, hp⟩

/-- C4: `Union(a,b)` has size at most `Size a + Size b`; an element belongs to
`Intersect(a,b)` exactly when it belongs to both `a` and `b`; and no element
of `Difference(a,b)` belongs to `b`. -/
theorem claim_C4 {cmp : α → α → Int} (L : LawfulCmp cmp) (a b : TreeSet α)
    (ha : WF cmp a) (hb : WF cmp b) :
    Size (Union cmp a b) ≤ Size a + Size b ∧
    (∀ x, x ∈ Slice (Intersect cmp a b) ↔ x ∈ Slice a ∧ x ∈ Slice b) ∧
    (∀ x ∈ Slice (Difference cmp a b), x ∉ Slice b) := by
  refine ⟨?_, ?_, ?_⟩
  · rw [Union, Size]
    obtain ⟨hwf1, _, hsz1⟩ := insertAll_props L (preorder a.root) (NewTreeSet α) WF_new
    obtain ⟨_, _, hsz2⟩ :=
      insertAll_props L (preorder b.root) (insertAll cmp (NewTreeSet α) (preorder a.root)) hwf1
    have hlen1 : (preorder a.root).length = (Slice a).length := length_preorder a.root
    have hlen2 : (preorder b.root).length = (Slice b).length := length_preorder b.root
    rw [Size, Size, ha.2, hb.2]
    have hnew : (NewTreeSet α).size = 0 := rfl
    omega
  · intro x
    obtain ⟨_, hmem⟩ :=
      foldl_insert_filter_props L (fun z => Contains cmp b z) (preorder a.root)
        (NewTreeSet α) WF_new
    rw [Intersect]
    rw [hmem x]
    have hnew : Slice (NewTreeSet α) = [] := rfl
    rw [hnew, mem_preorder, Contains_iff_mem L hb x]
    simp only [List.not_mem_nil, false_or]
    exact Iff.rfl
  · intro x hx
    obtain ⟨_, hmem⟩ :=
      foldl_skip_filter_props L (fun z => Contains cmp b z) (preorder a.root)
        (NewTreeSet α) WF_new
    rw [Difference] at hx
    rw [hmem x] at hx
    have hnew : Slice (NewTreeSet α) = [] := rfl
    rw [hnew] at hx
    simp only [List.not_mem_nil, false_or] at hx
    intro hxb
    have : Contains cmp b x = true := (Contains_iff_mem L hb x).mpr hxb
    rw [hx.2] at this
    exact absurd this (by simp)

theorem claim_C4_witness :
    (WF Cmp (TreeSetFrom Cmp [1, 3, 5]) ∧ WF Cmp (TreeSetFrom Cmp [3, 4]) ∧
      Slice (Union Cmp (TreeSetFrom Cmp [1, 3, 5]) (TreeSetFrom Cmp [3, 4])) =
        [1, 3, 4, 5] ∧
      Slice (Intersect Cmp (TreeSetFrom Cmp [1, 3, 5]) (TreeSetFrom Cmp [3, 4])) = [3] ∧
      Slice (Difference Cmp (TreeSetFrom Cmp [1, 3, 5]) (TreeSetFrom Cmp [3, 4])) =
        [1, 5]) ∧
    (Size (Union Cmp (TreeSetFrom Cmp [1, 3, 5]) (TreeSetFrom Cmp [3, 4])) ≤
        Size (TreeSetFrom Cmp [1, 3, 5]) + Size (TreeSetFrom Cmp [3, 4]) ∧
      (∀ x, x ∈ Slice (Intersect Cmp (TreeSetFrom Cmp [1, 3, 5]) (TreeSetFrom Cmp [3, 4])) ↔
        x ∈ Slice (TreeSetFrom Cmp [1, 3, 5]) ∧ x ∈ Slice (TreeSetFrom Cmp [3, 4])) ∧
      (∀ x ∈ Slice (Difference Cmp (TreeSetFrom Cmp [1, 3, 5]) (TreeSetFrom Cmp [3, 4])),
        x ∉ Slice (TreeSetFrom Cmp [3, 4]))) :=
  ⟨⟨⟨by decide, by decide⟩, ⟨by decide, by decide⟩, by decide, by decide, by decide⟩,
    @claim_C4 Int Cmp lawful_Cmp (TreeSetFrom Cmp [1, 3, 5]) (TreeSetFrom Cmp [3, 4])
      ⟨by decide, by decide⟩ ⟨by decide, by decide⟩⟩

end GoSet
